import Mathlib

/-!
# goker: the poker table state machine (`table/table.go`)

A shallow embedding of `table.Table` and of the operations on it
(`Sit`, `New`, `Act`, `LegalActions`, `update`, `setupRound`, `payout`, `pots`,
`nextSeat`, `nextToAct`, `distanceFromButton`, `contribute`), followed by the
theorems about them.

Modelling conventions.

* Go `int` values that count chips are `Int`; seat indices, the button and the number
  of seats given to `New` are `Nat` (the code stores in a seat index only an index
  accepted by `Sit` or a result of `% len(t.seats)`).  Arithmetic is the mathematical
  one, which is Go's as long as no result reaches `2^63`.  The sums over several players
  (`pots`, `chipsInPots`, `payout`) are given on Go's wrapping `int`s as well (`potsGo`,
  `chipsInPotsGo`, `payoutGo`); `settlement_within_int` is the bound under which the two
  agree.
* A `*Player` is the index of the seat the player sits in, so a seat is
  `Option Player` and `t.active` is `Option Nat`; every seated player is a distinct
  object, as on every table `New` builds.  `t.active` counts as `nil` when it names no
  occupied seat.  (`Sit` alone can seat one object twice: `SeatHeap` and `SitPtr` model
  it on pointers.)
* A function that can panic or loop for ever returns `Except Fault _`.  The loops are
  run with a fuel of `len(t.seats)` iterations: a walk that has not ended after that
  many hops has seen every seat and repeats itself, so running out of fuel is
  reported as `Fault.diverges`.
* `Act` and `Sit` return the Go `error` (`none` for `nil`) next to the table they
  leave behind.
* Package `hand` (cards, dealer, deck, hand ranking) is not part of the sources; what
  the table needs from it is the parameter `HandPkg`.
* `sort.Slice` is an insertion sort, as the library runs on short slices.
-/

namespace Goker

/-! ## Data model -/

/-- A runtime failure of the Go code: a panic, or a loop that never ends. -/
inductive Fault where
  | nilDereference
  | indexOutOfRange
  | divideByZero
  | diverges
  deriving DecidableEq, Repr

/-- The errors returned by `Sit` and `Act` (`errors.New` with, in this order,
"Invalid seat selection", "Seat is already taken", "No active player",
"table: illegal action attempted"). -/
inductive TableError where
  | InvalidSeat
  | SeatTaken
  | NoActivePlayer
  | IllegalAction
  deriving DecidableEq, Repr

/-- A card of package `hand`; only its identity matters here. -/
abbrev Card := Nat

inductive Status where
  | Waiting
  | Dealing
  deriving DecidableEq, Repr

inductive Round where
  | PreFlop
  | Flop
  | Turn
  | River
  deriving DecidableEq, Repr

inductive Variant where
  | TexasHoldem
  | OmahaHi
  deriving DecidableEq, Repr

inductive LimitType where
  | Limit
  | NoLimit
  | PotLimit
  deriving DecidableEq, Repr

structure Stakes where
  BigBlind : Int
  SmallBlind : Int
  Ante : Int
  deriving DecidableEq, Repr

structure Options where
  BuyIn : Int
  Variant : Variant
  Stakes : Stakes
  Limit : LimitType
  deriving DecidableEq, Repr

inductive ActionType where
  | Fold
  | Check
  | Call
  | Bet
  | Raise
  | AllIn
  deriving DecidableEq, Repr

structure Action where
  Type_ : ActionType
  Chips : Int
  deriving DecidableEq, Repr

structure Player where
  ID : String
  Seat : Nat
  Chips : Int
  ChipsInPot : Int
  Acted : Bool
  Folded : Bool
  AllIn : Bool
  Cards : List Card
  deriving DecidableEq, Repr

/-- Modelled from the spec: `hand.Deck` is missing from the sources.  "A `Deck` yields
cards one or several at a time", without replacement: a deck is the number `id` of the
shuffle that produced it and the count `pos` of cards already dealt from it. -/
structure Deck where
  id : Nat
  pos : Nat
  deriving DecidableEq, Repr

/-- Modelled from the spec: package `hand` is missing from the sources.  `shuffle k i`
is card number `i` of the `k`-th deck handed out by the `Dealer`; `CompareTo a b` is
`Hand.CompareTo` on the hands built by `hand.New` from the card sequences `a` and `b`
(positive: `a` is stronger, zero: equal, negative: weaker). -/
structure HandPkg where
  shuffle : Nat → Nat → Card
  CompareTo : List Card → List Card → Int

/-- The table.  `dealer` is the state of the `hand.Dealer`: how many decks it has handed
out so far. -/
structure Table where
  options : Options
  seats : List (Option Player)
  dealer : Nat
  deck : Option Deck
  cards : List Card
  active : Option Nat
  status : Status
  round : Round
  button : Nat
  cost : Int
  deriving DecidableEq, Repr

structure sidePot where
  contesting : List Nat
  chips : Int
  deriving DecidableEq, Repr

/-! ## Package `hand`, as far as the table uses it -/

/-- Modelled from the spec: `Deck.PopMulti(n)` yields a sequence of `n` cards, dealt
without replacement. -/
def PopMulti (h : HandPkg) (d : Deck) (n : Nat) : List Card × Deck :=
  ((List.range n).map (fun i => h.shuffle d.id (d.pos + i)), { d with pos := d.pos + n })

/-- Modelled from the spec: `Deck.Pop()` yields one card. -/
def Pop (h : HandPkg) (d : Deck) : Card × Deck :=
  (h.shuffle d.id d.pos, { d with pos := d.pos + 1 })

/-! ## Helpers of `table.go` -/

/-- The player a seat index points to (`none` for an empty seat or an index out of
range). -/
def seatAt (seats : List (Option Player)) (i : Nat) : Option Player :=
  (seats.get? i).join

/-- Assignment through a `*Player`: apply `f` to the player in seat `i`. -/
def modifySeat (f : Player → Player) : Nat → List (Option Player) → List (Option Player)
  | _, [] => []
  | 0, s :: ss => s.map f :: ss
  | i + 1, s :: ss => s :: modifySeat f i ss

/-- The player `t.active` points to. -/
def activePlayer (t : Table) : Option Player :=
  t.active.bind (seatAt t.seats)

def max (i j : Int) : Int :=
  if i > j then i else j

def contains (a : List Int) (i : Int) : Bool :=
  match a with
  | [] => false
  | v :: vs => if v == i then true else contains vs i

def includes (actions : List ActionType) (wanted : List ActionType) : Bool :=
  match wanted with
  | [] => true
  | a1 :: rest =>
    let found := actions.foldl (fun found a2 => found || a1 == a2) false
    if !found then false else includes actions rest

/-- The inner loop of the insertion sort behind `sort.Slice`: `x` moves left while it
is `less` than its left neighbour.  The part already sorted is given last element
first. -/
def insertLess {α : Type} (less : α → α → Bool) (x : α) : List α → List α
  | [] => [x]
  | y :: ys => if less x y then y :: insertLess less x ys else x :: y :: ys

/-- The Go `sort.Slice`, as the insertion sort it runs on a short slice. -/
def sortSlice {α : Type} (less : α → α → Bool) (l : List α) : List α :=
  (l.foldl (fun sorted x => insertLess less x sorted) []).reverse

def Player.contribute (p : Player) (chips : Int) : Player :=
  if p.Chips ≤ chips then
    { p with AllIn := true, ChipsInPot := p.ChipsInPot + p.Chips, Chips := p.Chips - p.Chips }
  else
    { p with ChipsInPot := p.ChipsInPot + chips, Chips := p.Chips - chips }

def occupiedSeats (t : Table) : Nat :=
  t.seats.countP Option.isSome

def nextSeatLoop (seats : List (Option Player)) : Nat → Nat → Except Fault Nat
  | 0, _ => .error .diverges
  | fuel + 1, seat =>
    let seat := (seat + 1) % seats.length
    match seatAt seats seat with
    | some _ => .ok seat
    | none => nextSeatLoop seats fuel seat

def nextSeat (t : Table) (seat : Nat) : Except Fault Nat :=
  if t.seats.length = 0 then .error .divideByZero
  else nextSeatLoop t.seats t.seats.length seat

def nextToActLoop (t : Table) : Nat → Nat → Nat → Except Fault (Option Nat)
  | 0, _, _ => .error .diverges
  | fuel + 1, count, seat =>
    match nextSeat t seat with
    | .error e => .error e
    | .ok seat =>
      match seatAt t.seats seat with
      | none => .error .nilDereference
      | some p =>
        if !p.Acted && !p.AllIn && !p.Folded then .ok (some p.Seat)
        else if ((count + 1 : Nat) : Int) = (occupiedSeats t : Int) - 1 then .ok none
        else nextToActLoop t fuel (count + 1) seat

/-- The result `none` is the `-1` of the Go code.  (With a single occupied seat whose
player cannot act, the Go loop ends only when `count` has wrapped round to zero, after
2^64 passes; the model reports that walk as never ending.) -/
def nextToAct (t : Table) : Except Fault (Option Nat) :=
  match activePlayer t with
  | none => .error .nilDereference
  | some p => nextToActLoop t t.seats.length 0 p.Seat

def owed (t : Table) : Except Fault Int :=
  match activePlayer t with
  | none => .error .nilDereference
  | some p => .ok (t.cost - p.ChipsInPot)

def distanceLoop (t : Table) (target : Nat) : Nat → Nat → Nat → Except Fault Nat
  | 0, _, _ => .error .diverges
  | fuel + 1, seat, dist =>
    match nextSeat t seat with
    | .error e => .error e
    | .ok seat =>
      if target = seat then .ok (dist + 1)
      else distanceLoop t target fuel seat (dist + 1)

def distanceFromButton (t : Table) (p : Player) : Except Fault Nat :=
  distanceLoop t p.Seat t.seats.length t.button 0

/-- The seats (pointers) of the players who have not folded, in seat order. -/
def contesting (t : Table) : List Nat :=
  (List.range t.seats.length).filter fun i =>
    match seatAt t.seats i with
    | some p => p.Folded == false
    | none => false

def resetAction (seats : List (Option Player)) : List (Option Player) :=
  seats.map (Option.map fun p => { p with Acted := false })

/-- Field `ChipsInPot` read through a pointer taken from `contesting`. -/
def chipsInPotAt (t : Table) (i : Nat) : Int :=
  match seatAt t.seats i with
  | some p => p.ChipsInPot
  | none => 0

/-! ## Side pots -/

/-- The loop `for _, seat := range t.seats { pot.chips += max(seat.ChipsInPot-min, 0) }`,
on the integers (`potChipsGo` is the loop on Go `int`s). -/
def potChips (min : Int) : Int → List (Option Player) → Except Fault Int
  | chips, [] => .ok chips
  | _, none :: _ => .error .nilDereference
  | chips, some p :: ss => potChips min (chips + max (p.ChipsInPot - min) 0) ss

def tierCosts (t : Table) (sorted : List Nat) : List Int :=
  sorted.foldl
    (fun costs seat =>
      if contains costs (chipsInPotAt t seat) == false then costs ++ [chipsInPotAt t seat]
      else costs)
    []

/-- The loop `for i, cost := range costs`; `min` is `0` for `i == 0` and `costs[i-1]`
afterwards. -/
def potsLoop (t : Table) (sorted : List Nat) : Int → List Int → Except Fault (List sidePot)
  | _, [] => .ok []
  | min, cost :: rest =>
    match potChips min 0 t.seats with
    | .error e => .error e
    | .ok chips =>
      match potsLoop t sorted cost rest with
      | .error e => .error e
      | .ok ps =>
        .ok ({ contesting := sorted.filter (fun i => chipsInPotAt t i ≥ cost), chips := chips } :: ps)

def pots (t : Table) : Except Fault (List sidePot) :=
  let sorted := sortSlice (fun i j => chipsInPotAt t i < chipsInPotAt t j) (contesting t)
  potsLoop t sorted 0 (tierCosts t sorted)

def chipsInPots (t : Table) : Except Fault Int :=
  match pots t with
  | .error e => .error e
  | .ok ps => .ok (ps.foldl (fun chips pot => chips + pot.chips) 0)

/-! ## Settlement -/

/-- The entry `hands[p]` for the player in seat `i`: `hand.New(append(p.Cards, t.cards...))`. -/
def handAt (t : Table) (i : Nat) : List Card :=
  match seatAt t.seats i with
  | some p => p.Cards ++ t.cards
  | none => []

/-- The first half of the body of the loop over the pots: order the contestants by
hand, best first, and keep the leading run that ties with the first. -/
def selectWinners (h : HandPkg) (t : Table) (pot : sidePot) : Except Fault (List Nat) :=
  let sorted := sortSlice (fun i j => h.CompareTo (handAt t i) (handAt t j) > 0) pot.contesting
  match sorted with
  | [] => .error .indexOutOfRange
  | first :: _ =>
    .ok (sorted.takeWhile fun seat => h.CompareTo (handAt t first) (handAt t seat) == 0)

def distances (t : Table) : List Nat → Except Fault (List (Nat × Nat))
  | [] => .ok []
  | w :: ws =>
    match seatAt t.seats w with
    | none => .error .nilDereference
    | some p =>
      match distanceFromButton t p with
      | .error e => .error e
      | .ok d =>
        match distances t ws with
        | .error e => .error e
        | .ok ds => .ok ((w, d) :: ds)

/-- The second `sort.Slice` of `payout`.  `less` is not called on a slice shorter than
two; on a longer one it is called on every element. -/
def sortByDistance (t : Table) (winners : List Nat) : Except Fault (List Nat) :=
  if winners.length < 2 then .ok winners
  else
    match distances t winners with
    | .error e => .error e
    | .ok ds => .ok ((sortSlice (fun a b => a.2 < b.2) ds).map Prod.fst)

/-- The body of the loop `for i, seat := range winners`: the share `chips / n`, and one
more chip when `chips % n > i`. -/
def Player.credit (p : Player) (chips : Int) (n i : Nat) : Player :=
  let p := { p with Chips := p.Chips + chips.tdiv n }
  if chips.tmod n > i then { p with Chips := p.Chips + 1 } else p

/-- The loop `for i, seat := range winners`, entered at index `i`; `n` is
`len(winners)`. -/
def creditWinners (chips : Int) (n : Nat) :
    Nat → List Nat → List (Option Player) → List (Option Player)
  | _, [], seats => seats
  | i, w :: ws, seats =>
    creditWinners chips n (i + 1) ws (modifySeat (fun p => p.credit chips n i) w seats)

/-- The second half of the body of the loop over the pots: order the winners by their
distance from the button and credit them, the spare chips going to the first ones. -/
def payWinners (t : Table) (chips : Int) (winners : List Nat) : Except Fault Table :=
  match sortByDistance t winners with
  | .error e => .error e
  | .ok winners =>
    .ok { t with seats := creditWinners chips winners.length 0 winners t.seats }

/-- The body of the loop over the pots in `payout`. -/
def settlePot (h : HandPkg) (t : Table) (pot : sidePot) : Except Fault Table :=
  match selectWinners h t pot with
  | .error e => .error e
  | .ok winners => payWinners t pot.chips winners

def settlePots (h : HandPkg) : Table → List sidePot → Except Fault Table
  | t, [] => .ok t
  | t, pot :: ps =>
    match settlePot h t pot with
    | .error e => .error e
    | .ok t => settlePots h t ps

def payout (h : HandPkg) (t : Table) : Except Fault Table :=
  if t.seats.any Option.isNone then .error .nilDereference
  else
    match pots t with
    | .error e => .error e
    | .ok ps => settlePots h t ps

/-! ## Rounds -/

/-- The body of the loop over the seats in the `PreFlop` case of `setupRound`, for an
occupied seat: new hole cards, a fresh `ChipsInPot` and fresh flags, then the ante. -/
def Player.deal (p : Player) (cards : List Card) (ante : Int) : Player :=
  Player.contribute
    { p with Cards := cards, ChipsInPot := 0, Acted := false, Folded := false, AllIn := false }
    ante

/-- The loop over the seats in the `PreFlop` case of `setupRound`. -/
def dealSeats (h : HandPkg) (ante : Int) : Deck → List (Option Player) → Deck × List (Option Player)
  | d, [] => (d, [])
  | d, none :: ss =>
    let r := dealSeats h ante d ss
    (r.1, none :: r.2)
  | d, some p :: ss =>
    let c := PopMulti h d 2
    let r := dealSeats h ante c.2 ss
    (r.1, some (p.deal c.1 ante) :: r.2)

/-- The statement `t.seats[i].contribute(chips)`. -/
def contributeAt (t : Table) (i : Nat) (chips : Int) : Except Fault Table :=
  if t.seats.length ≤ i then .error .indexOutOfRange
  else
    match seatAt t.seats i with
    | none => .error .nilDereference
    | some _ => .ok { t with seats := modifySeat (fun p => p.contribute chips) i t.seats }

/-- The statement `t.active = t.seats[i]`. -/
def setActive (t : Table) (i : Nat) : Except Fault Table :=
  if t.seats.length ≤ i then .error .indexOutOfRange
  else
    match seatAt t.seats i with
    | none => .ok { t with active := none }
    | some _ => .ok { t with active := some i }

/-- The end of the `PreFlop` case of `setupRound`: the blinds are posted by the seats
`sb` and `bb`, the seat after `bb` becomes active and `cost` is the big blind. -/
def postBlinds (t : Table) (sb bb : Nat) : Except Fault Table := do
  let t ← contributeAt t sb t.options.Stakes.SmallBlind
  let t ← contributeAt t bb t.options.Stakes.BigBlind
  let action ← nextSeat t bb
  let t ← setActive t action
  pure { t with cost := t.options.Stakes.BigBlind }

/-- The `PreFlop` case of `setupRound`. -/
def setupPreFlop (h : HandPkg) (t : Table) : Except Fault Table := do
  let button ← nextSeat t t.button
  let t := { t with button := button }
  let sb ← nextSeat t t.button
  let bb ← nextSeat t sb
  let blinds ←
    if occupiedSeats t = 2 then (nextSeat t t.button).map fun bb => (t.button, bb)
    else pure (sb, bb)
  let dealt := dealSeats h t.options.Stakes.Ante { id := t.dealer, pos := 0 } t.seats
  postBlinds { t with dealer := t.dealer + 1, deck := some dealt.1, seats := dealt.2 }
    blinds.1 blinds.2

def setupRound (h : HandPkg) (t : Table) : Except Fault Table :=
  let t := { t with seats := resetAction t.seats }
  match t.round with
  | .PreFlop => setupPreFlop h t
  | .Flop =>
    match t.deck with
    | none => .error .nilDereference
    | some d => do
      let c := PopMulti h d 3
      let t := { t with cards := c.1, deck := some c.2 }
      let action ← nextSeat t t.button
      setActive t action
  | _ =>
    match t.deck with
    | none => .error .nilDereference
    | some d => do
      let c := Pop h d
      let t := { t with cards := t.cards ++ [c.1], deck := some c.2 }
      let action ← nextSeat t t.button
      setActive t action

def Round.next : Round → Round
  | .PreFlop => .Flop
  | .Flop => .Turn
  | .Turn => .River
  | .River => .PreFlop

/-- The test `len(t.contesting()) == 1 || t.round == River` of `update`. -/
def endsHand (t : Table) : Bool :=
  (contesting t).length == 1 || t.round == .River

/-- The part of `update` that runs when `nextToAct` found nobody. -/
def progress (h : HandPkg) (t : Table) : Except Fault Table :=
  if endsHand t then
    match payout h t with
    | .error e => .error e
    | .ok t => setupRound h { t with round := .PreFlop }
  else setupRound h { t with round := t.round.next }

def update (h : HandPkg) (t : Table) : Except Fault Table :=
  match nextToAct t with
  | .error e => .error e
  | .ok (some seat) => setActive t seat
  | .ok none => progress h t

/-! ## The public operations -/

/-- The assignment `p.Seat = seat`. -/
def Player.withSeat (p : Player) (seat : Nat) : Player :=
  { p with Seat := seat }

/-- The method `Sit` for a player object that no seat of the table stores, as `New` calls
it on the `&Player{...}` it has just built: the seat receives the player with `Seat` set.
(`SitPtr` below is `Sit` for any pointer.) -/
def Sit (t : Table) (p : Player) (seat : Int) : Option TableError × Table :=
  if seat < -0 ∨ seat > (t.seats.length : Int) - 1 then (some .InvalidSeat, t)
  else
    match seatAt t.seats seat.toNat with
    | some _ => (some .SeatTaken, t)
    | none => (none, { t with seats := t.seats.set seat.toNat (some (p.withSeat seat.toNat)) })

def Seats (t : Table) : List (Option Player) :=
  t.seats.foldl (fun seats seat => seats ++ [seat]) []

def LegalActions (t : Table) : Except Fault (List ActionType) :=
  match owed t, activePlayer t with
  | .ok owed, some p =>
    if owed = 0 then .ok [.Fold, .Check, .Bet, .AllIn]
    else if owed > p.Chips then .ok [.Fold, .Call]
    else .ok [.Fold, .Call, .Raise, .AllIn]
  | _, _ => .error .nilDereference

/-- The amount `a.Chips` holds when a `Bet` or `Raise` reaches `contribute`;
`chipsInPots` is the value of `t.chipsInPots()`. -/
def betSize (t : Table) (chips : Int) (chipsInPots : Int) : Int :=
  let chips := if chips < t.options.Stakes.BigBlind then t.options.Stakes.BigBlind else chips
  let chips :=
    if t.options.Limit = .Limit then
      if t.round = .Turn ∨ t.round = .River then t.options.Stakes.BigBlind * 2
      else t.options.Stakes.BigBlind
    else chips
  if t.options.Limit = .PotLimit ∧ chips > chipsInPots then chipsInPots else chips

/-- The `switch a.Type_` of `Act`, run on a table whose active player is in seat `i`
and owes `owed`. -/
def applyType (t : Table) (i : Nat) (owed : Int) (a : Action) : Except Fault Table :=
  match a.Type_ with
  | .Fold => .ok { t with seats := modifySeat (fun p => { p with Folded := true }) i t.seats }
  | .Check => .ok t
  | .Call => .ok { t with seats := modifySeat (fun p => p.contribute owed) i t.seats }
  | .AllIn =>
    .ok { t with
          seats := resetAction (modifySeat
            (fun p => (p.contribute owed).contribute (p.contribute owed).Chips) i t.seats) }
  | _ =>
    match chipsInPots t with
    | .error e => .error e
    | .ok total =>
      .ok { t with
            seats := resetAction (modifySeat
              (fun p => (p.contribute owed).contribute (betSize t a.Chips total)) i t.seats) }

/-- The body of `Act` between the two checks and the call of `update`: the switch, then
`t.active.Acted = true` and the raise of `t.cost`. -/
def applyAction (t : Table) (a : Action) : Except Fault Table :=
  match t.active, owed t with
  | some i, .ok owed =>
    match applyType t i owed a with
    | .error e => .error e
    | .ok t =>
      let t := { t with seats := modifySeat (fun p => { p with Acted := true }) i t.seats }
      match seatAt t.seats i with
      | none => .error .nilDereference
      | some p => .ok (if p.ChipsInPot > t.cost then { t with cost := p.ChipsInPot } else t)
  | _, _ => .error .nilDereference

def Act (h : HandPkg) (t : Table) (a : Action) : Except Fault (Option TableError × Table) :=
  match activePlayer t with
  | none => .ok (some .NoActivePlayer, t)
  | some _ =>
    match LegalActions t with
    | .error e => .error e
    | .ok legal =>
      if includes legal [a.Type_] == false then .ok (some .IllegalAction, t)
      else
        match applyAction t a with
        | .error e => .error e
        | .ok t =>
          match update h t with
          | .error e => .error e
          | .ok t => .ok (none, t)

/-- The player `&Player{ID: id, Chips: opts.BuyIn}` built by `New`. -/
def newPlayer (id : String) (buyIn : Int) : Player :=
  { ID := id, Seat := 0, Chips := buyIn, ChipsInPot := 0, Acted := false, Folded := false,
    AllIn := false, Cards := [] }

/-- The loop `for i, id := range playerIDs` of `New`; the error of `Sit` is dropped. -/
def sitAll (buyIn : Int) : Table → Nat → List String → Table
  | t, _, [] => t
  | t, i, id :: ids => sitAll buyIn (Sit t (newPlayer id buyIn) i).2 (i + 1) ids

/-- The table literal `&Table{...}` of `New`, over `make([]*Player, numSeats)`. -/
def newTable (opts : Options) (numSeats : Nat) (status : Status) : Table :=
  { options := opts, seats := List.replicate numSeats none, dealer := 0, deck := none,
    cards := [], active := none, status := status, round := .PreFlop, button := 0, cost := 0 }

def New (h : HandPkg) (opts : Options) (numSeats : Nat) (playerIDs : List String) :
    Except Fault Table :=
  let status := if playerIDs.length < 2 then Status.Waiting else Status.Dealing
  setupRound h (sitAll opts.BuyIn (newTable opts numSeats status) 0 playerIDs)

/-- Run a sequence of actions, each of which must be accepted. -/
def actAll (h : HandPkg) : Table → List Action → Except Fault (Option Table)
  | t, [] => .ok (some t)
  | t, a :: as =>
    match Act h t a with
    | .error e => .error e
    | .ok (some _, _) => .ok none
    | .ok (none, t) => actAll h t as

/-! ## Notions used in the statements -/

/-- What a player owns: the stack plus what the player has put in the pot. -/
def Player.stake (p : Player) : Int :=
  p.Chips + p.ChipsInPot

/-- The chips on the table: the sum of `Chips + ChipsInPot` over the seated players. -/
def tableChips (t : Table) : Int :=
  (t.seats.map fun s => match s with
    | some p => p.stake
    | none => 0).sum

/-- Whether processing `a` on `t` reaches `payout`: the action is applied, `nextToAct`
finds nobody, and the test of `update` sends the hand to settlement. -/
def triggersSettlement (t : Table) (a : Action) : Bool :=
  match applyAction t a with
  | .error _ => false
  | .ok t =>
    match nextToAct t with
    | .ok none => endsHand t
    | _ => false


/-- Whether seat `i` holds a player. -/
def occupied (seats : List (Option Player)) (i : Nat) : Bool :=
  (seatAt seats i).isSome

/-- The occupied seats in the order of a walk round the table that starts just after
seat `s` (and so ends with `s` itself when `s` is in range and occupied). -/
def seatRing (seats : List (Option Player)) (s : Nat) : List Nat :=
  ((List.range seats.length).rotate (s + 1)).filter (occupied seats)

/-- Whether every seated player's field `Seat` is the index of the seat, as `Sit` leaves
it. -/
def seatsLinked (t : Table) : Bool :=
  (List.range t.seats.length).all fun i =>
    match seatAt t.seats i with
    | some p => p.Seat == i
    | none => true

/-- The test `!p.Acted && !p.AllIn && !p.Folded` of `nextToAct`, on the seat `i`. -/
def canActAt (seats : List (Option Player)) (i : Nat) : Bool :=
  match seatAt seats i with
  | some p => !p.Acted && !p.AllIn && !p.Folded
  | none => false

/-- The seats other than `a` of a table with `n` seats, in the order of a walk round the
table that starts just after `a`. -/
def othersAfter (n a : Nat) : List Nat :=
  (List.range (n - 1)).map fun k => (a + 1 + k) % n

/-- The first player after seat `a`, walking round the table, who has neither acted nor
folded nor gone all-in. -/
def firstToAct (t : Table) (a : Nat) : Option Nat :=
  (othersAfter t.seats.length a).find? (canActAt t.seats)

/-- The size of a bet or raise as the specification words it: the request `n`, not
below the big blind, under `NoLimit`; one big blind before the turn and two from the
turn on under `Limit`, whatever `n`; and under `PotLimit` the `NoLimit` size capped at
`total`, the chips of all pots before the action. -/
def specBetAmount (t : Table) (n : Int) (total : Int) : Int :=
  match t.options.Limit with
  | .NoLimit => Max.max n t.options.Stakes.BigBlind
  | .Limit =>
    match t.round with
    | .PreFlop => t.options.Stakes.BigBlind
    | .Flop => t.options.Stakes.BigBlind
    | .Turn => 2 * t.options.Stakes.BigBlind
    | .River => 2 * t.options.Stakes.BigBlind
  | .PotLimit => Min.min (Max.max n t.options.Stakes.BigBlind) total

/-- Whether processing `a` on `t` leaves the betting round open: the action is applied
and `nextToAct` finds a player. -/
def roundStaysOpen (t : Table) (a : Action) : Bool :=
  match applyAction t a with
  | .error _ => false
  | .ok t =>
    match nextToAct t with
    | .ok (some _) => true
    | _ => false

/-- The distance of seat `i` from the button as `distanceFromButton` computes it for the
player in that seat (`0` when there is none or the walk does not end). -/
def buttonDistance (t : Table) (i : Nat) : Nat :=
  match seatAt t.seats i with
  | none => 0
  | some p =>
    match distanceFromButton t p with
    | .ok d => d
    | .error _ => 0

/-- The sum of the stacks `Chips` over the occupied seats. -/
def stackSum (seats : List (Option Player)) : Int :=
  (seats.map fun s => match s with
    | some p => p.Chips
    | none => 0).sum

/-- `Hand.CompareTo` is a total preorder: reflexive, antisymmetric in sign (which makes it
total) and transitive. -/
def IsTotalPreorder (cmp : List Card → List Card → Int) : Prop :=
  (∀ a, cmp a a = 0) ∧ (∀ a b, 0 < cmp a b ↔ cmp b a < 0) ∧
    ∀ a b c, 0 ≤ cmp a b → 0 ≤ cmp b c → 0 ≤ cmp a c

/-- The forced bets of seat `j` in a hand whose blinds are posted by the seats `sb` and
`bb`: the ante, plus the small blind for `sb`, plus the big blind for `bb`. -/
def forcedBets (o : Options) (sb bb j : Nat) : Int :=
  o.Stakes.Ante + (if j = sb then o.Stakes.SmallBlind else 0) +
    (if j = bb then o.Stakes.BigBlind else 0)

/-- The player a seat holds after the `PreFlop` setup, given the one it held before:
dealt in, then charged the small blind in seat `sb` and the big blind in seat `bb`. -/
def Player.posted (p : Player) (c : List Card) (o : Options) (sb bb j : Nat) : Player :=
  let p := p.deal c o.Stakes.Ante
  let p := if j = sb then p.contribute o.Stakes.SmallBlind else p
  if j = bb then p.contribute o.Stakes.BigBlind else p

/-- A player with no negative chip count. -/
def Player.solvent (p : Player) : Prop :=
  0 ≤ p.Chips ∧ 0 ≤ p.ChipsInPot

/-- No stake, no cost and no chip count of the table is negative. -/
def ChipsOK (t : Table) : Prop :=
  0 ≤ t.options.Stakes.Ante ∧ 0 ≤ t.options.Stakes.SmallBlind ∧
    0 ≤ t.options.Stakes.BigBlind ∧ 0 ≤ t.cost ∧
    ∀ j p, seatAt t.seats j = some p → p.solvent

/-- The field `Pot` of the snapshot built by `State()`: the sum of `ChipsInPot` over the
occupied seats. -/
def statePot (t : Table) : Int :=
  t.seats.foldl
    (fun pot seat =>
      match seat with
      | some p => pot + p.ChipsInPot
      | none => pot)
    0

/-! ## Concrete tables -/

/-- A `hand` package whose `k`-th deck holds the cards `52 * k`, `52 * k + 1`, ... and in
which any two hands tie. -/
def plainHands : HandPkg :=
  { shuffle := fun k i => 52 * k + i, CompareTo := fun _ _ => 0 }

/-- A `hand` package in which the hand with the larger sum of card numbers is the
stronger. -/
def sumHands : HandPkg :=
  { shuffle := fun k i => 52 * k + i, CompareTo := fun a b => (a.sum : Int) - (b.sum : Int) }

/-- Options with a negative big blind. -/
def negativeBlindOptions : Options :=
  { BuyIn := 100, Variant := .TexasHoldem,
    Stakes := { BigBlind := -2, SmallBlind := 1, Ante := 0 }, Limit := .NoLimit }

/-- The options of `threePerson100Buyin()` in `table_test.go`. -/
def testOptions : Options :=
  { BuyIn := 100, Variant := .TexasHoldem,
    Stakes := { BigBlind := 2, SmallBlind := 1, Ante := 0 }, Limit := .NoLimit }

/-- The table of `threePerson100Buyin()` in `table_test.go`, as `New` returns it: seat 0
has posted the big blind, seat 2 the small blind, seat 1 is to act. -/
def threePerson100Buyin : Table :=
  { options := testOptions
    seats :=
      [some { ID := "a", Seat := 0, Chips := 98, ChipsInPot := 2, Acted := false,
              Folded := false, AllIn := false, Cards := [0, 1] },
       some { ID := "b", Seat := 1, Chips := 100, ChipsInPot := 0, Acted := false,
              Folded := false, AllIn := false, Cards := [2, 3] },
       some { ID := "c", Seat := 2, Chips := 99, ChipsInPot := 1, Acted := false,
              Folded := false, AllIn := false, Cards := [4, 5] }]
    dealer := 1
    deck := some { id := 0, pos := 6 }
    cards := []
    active := some 1
    status := .Dealing
    round := .PreFlop
    button := 1
    cost := 2 }

/-- The table `threePerson100Buyin` after `Raise(5)`. -/
def afterRaise : Table :=
  { options := testOptions
    seats :=
      [some { ID := "a", Seat := 0, Chips := 98, ChipsInPot := 2, Acted := false,
              Folded := false, AllIn := false, Cards := [0, 1] },
       some { ID := "b", Seat := 1, Chips := 93, ChipsInPot := 7, Acted := true,
              Folded := false, AllIn := false, Cards := [2, 3] },
       some { ID := "c", Seat := 2, Chips := 99, ChipsInPot := 1, Acted := false,
              Folded := false, AllIn := false, Cards := [4, 5] }]
    dealer := 1
    deck := some { id := 0, pos := 6 }
    cards := []
    active := some 2
    status := .Dealing
    round := .PreFlop
    button := 1
    cost := 7 }

/-- The table `threePerson100Buyin` after `Fold`, `Fold`: only seat 0 is left and it is
its turn. -/
def lastToAct : Table :=
  { options := testOptions
    seats :=
      [some { ID := "a", Seat := 0, Chips := 98, ChipsInPot := 2, Acted := false,
              Folded := false, AllIn := false, Cards := [0, 1] },
       some { ID := "b", Seat := 1, Chips := 100, ChipsInPot := 0, Acted := true,
              Folded := true, AllIn := false, Cards := [2, 3] },
       some { ID := "c", Seat := 2, Chips := 99, ChipsInPot := 1, Acted := true,
              Folded := true, AllIn := false, Cards := [4, 5] }]
    dealer := 1
    deck := some { id := 0, pos := 6 }
    cards := []
    active := some 0
    status := .Dealing
    round := .PreFlop
    button := 1
    cost := 2 }

/-- The table `lastToAct` after `Bet(5)`: the pot was paid and the next hand dealt. -/
def afterLastBet : Table :=
  { options := testOptions
    seats :=
      [some { ID := "a", Seat := 0, Chips := 100, ChipsInPot := 1, Acted := false,
              Folded := false, AllIn := false, Cards := [52, 53] },
       some { ID := "b", Seat := 1, Chips := 98, ChipsInPot := 2, Acted := false,
              Folded := false, AllIn := false, Cards := [54, 55] },
       some { ID := "c", Seat := 2, Chips := 99, ChipsInPot := 0, Acted := false,
              Folded := false, AllIn := false, Cards := [56, 57] }]
    dealer := 2
    deck := some { id := 1, pos := 6 }
    cards := []
    active := some 2
    status := .Dealing
    round := .PreFlop
    button := 2
    cost := 2 }

/-- The two-seat table `New` returns for the players "a" and "b" with `testOptions`. -/
def headsUp : Table :=
  { options := testOptions
    seats :=
      [some { ID := "a", Seat := 0, Chips := 98, ChipsInPot := 2, Acted := false,
              Folded := false, AllIn := false, Cards := [0, 1] },
       some { ID := "b", Seat := 1, Chips := 99, ChipsInPot := 1, Acted := false,
              Folded := false, AllIn := false, Cards := [2, 3] }]
    dealer := 1
    deck := some { id := 0, pos := 4 }
    cards := []
    active := some 1
    status := .Dealing
    round := .PreFlop
    button := 1
    cost := 2 }

/-- The table `headsUp` after `Fold`, `Check` (first hand) and `AllIn`, `Call`, `Call`,
`Call` (second hand): both players are all-in on the river, for 101 and for 99. -/
def headsUpRiver : Table :=
  { options := testOptions
    seats :=
      [some { ID := "a", Seat := 0, Chips := 0, ChipsInPot := 101, Acted := false,
              Folded := false, AllIn := true, Cards := [52, 53] },
       some { ID := "b", Seat := 1, Chips := 0, ChipsInPot := 99, Acted := false,
              Folded := false, AllIn := true, Cards := [54, 55] }]
    dealer := 2
    deck := some { id := 1, pos := 9 }
    cards := [56, 57, 58, 59, 60]
    active := some 1
    status := .Dealing
    round := .River
    button := 0
    cost := 101 }

/-- The table `headsUpRiver` after the last `Call`: the pots were paid and the third hand
dealt. -/
def headsUpNext : Table :=
  { options := testOptions
    seats :=
      [some { ID := "a", Seat := 0, Chips := 100, ChipsInPot := 2, Acted := false,
              Folded := false, AllIn := false, Cards := [104, 105] },
       some { ID := "b", Seat := 1, Chips := 99, ChipsInPot := 1, Acted := false,
              Folded := false, AllIn := false, Cards := [106, 107] }]
    dealer := 3
    deck := some { id := 2, pos := 4 }
    cards := [56, 57, 58, 59, 60]
    active := some 1
    status := .Dealing
    round := .PreFlop
    button := 1
    cost := 2 }

/-- The options of the test with an ante of one chip. -/
def anteOptions : Options :=
  { BuyIn := 100, Variant := .TexasHoldem,
    Stakes := { BigBlind := 2, SmallBlind := 1, Ante := 1 }, Limit := .NoLimit }

/-- The table `headsUp`, played with `sumHands`, after `AllIn`, `Call` and two `Check`s:
both players are all-in for 100 on the river and seat 0 is to act. -/
def showdownRiver : Table :=
  { options := testOptions
    seats :=
      [some { ID := "a", Seat := 0, Chips := 0, ChipsInPot := 100, Acted := false,
              Folded := false, AllIn := true, Cards := [0, 1] },
       some { ID := "b", Seat := 1, Chips := 0, ChipsInPot := 100, Acted := false,
              Folded := false, AllIn := true, Cards := [2, 3] }]
    dealer := 1
    deck := some { id := 0, pos := 9 }
    cards := [4, 5, 6, 7, 8]
    active := some 0
    status := .Dealing
    round := .River
    button := 1
    cost := 100 }

/-- The table `showdownRiver` after the `Check` that ends the hand: seat 1 has won the pot
and the next hand is dealt, seat 0 posting the small blind from an empty stack. -/
def afterShowdown : Table :=
  { options := testOptions
    seats :=
      [some { ID := "a", Seat := 0, Chips := 0, ChipsInPot := 0, Acted := false,
              Folded := false, AllIn := true, Cards := [52, 53] },
       some { ID := "b", Seat := 1, Chips := 198, ChipsInPot := 2, Acted := false,
              Folded := false, AllIn := false, Cards := [54, 55] }]
    dealer := 2
    deck := some { id := 1, pos := 4 }
    cards := [4, 5, 6, 7, 8]
    active := some 0
    status := .Dealing
    round := .PreFlop
    button := 0
    cost := 2 }

/-- The table `threePerson100Buyin` after `Call`, `Fold`, `Check`: the flop is dealt and
seat 2, who has folded, is the active seat. -/
def foldedFlop : Table :=
  { options := testOptions
    seats :=
      [some { ID := "a", Seat := 0, Chips := 98, ChipsInPot := 2, Acted := false,
              Folded := false, AllIn := false, Cards := [0, 1] },
       some { ID := "b", Seat := 1, Chips := 98, ChipsInPot := 2, Acted := false,
              Folded := false, AllIn := false, Cards := [2, 3] },
       some { ID := "c", Seat := 2, Chips := 99, ChipsInPot := 1, Acted := false,
              Folded := true, AllIn := false, Cards := [4, 5] }]
    dealer := 1
    deck := some { id := 0, pos := 9 }
    cards := [6, 7, 8]
    active := some 2
    status := .Dealing
    round := .Flop
    button := 1
    cost := 2 }

/-! ## Seating through pointers -/

/-- The seats as Go holds them: the `Player` objects (`objects[a]` is the object at address
`a`) and, for each seat, the pointer it stores (`none` for `nil`). -/
structure SeatHeap where
  objects : List Player
  seats : List (Option Nat)

/-- The pointer seat `j` stores, `none` also for a `j` out of range. -/
def SeatHeap.pointerAt (s : SeatHeap) (j : Nat) : Option Nat :=
  (s.seats.get? j).join

/-- What the seats show: each seat read through its pointer. -/
def SeatHeap.view (s : SeatHeap) : List (Option Player) :=
  s.seats.map fun q => q.bind fun a => s.objects.get? a

/-- Whether every pointer stored in a seat is the address of an object. -/
def SeatHeap.valid (s : SeatHeap) : Bool :=
  s.seats.all fun q =>
    match q with
    | some a => decide (a < s.objects.length)
    | none => true

/-- The method `Sit` on the pointers: `p` is the address of the player (an address of no
object stands for `nil`).  `t.seats[seat] = p` stores the pointer and `p.Seat = seat`
writes through it, so the write shows in every seat that stores `p`. -/
def SitPtr (s : SeatHeap) (p : Nat) (seat : Int) : Except Fault (Option TableError × SeatHeap) :=
  if seat < -0 ∨ seat > (s.seats.length : Int) - 1 then .ok (some .InvalidSeat, s)
  else
    match s.pointerAt seat.toNat with
    | some _ => .ok (some .SeatTaken, s)
    | none =>
      match s.objects.get? p with
      | none => .error .nilDereference
      | some q =>
        .ok (none, { objects := s.objects.set p (q.withSeat seat.toNat)
                     seats := s.seats.set seat.toNat (some p) })

/-- Four empty seats and one player object, "d", not yet seated. -/
def oneObject : SeatHeap :=
  { objects := [newPlayer "d" 100], seats := [none, none, none, none] }

/-- The sum of `ChipsInPot` over the occupied seats. -/
def potSum (seats : List (Option Player)) : Int :=
  (seats.map fun s => match s with
    | some p => p.ChipsInPot
    | none => 0).sum

/-! ## The settlement in Go's arithmetic -/

/-- The value a Go `int` holds after an operation whose mathematical result is `x`, on a
64-bit platform: `x` wrapped into the range from `-2^63` to `2^63 - 1`. -/
def wrap (x : Int) : Int :=
  (x + 9223372036854775808) % 18446744073709551616 - 9223372036854775808

/-- The loop `for _, seat := range t.seats { pot.chips += max(seat.ChipsInPot-min, 0) }`
on Go `int`s. -/
def potChipsGo (min : Int) : Int → List (Option Player) → Except Fault Int
  | chips, [] => .ok chips
  | _, none :: _ => .error .nilDereference
  | chips, some p :: ss =>
    potChipsGo min (wrap (chips + max (wrap (p.ChipsInPot - min)) 0)) ss

/-- The loop `for i, cost := range costs` on Go `int`s. -/
def potsLoopGo (t : Table) (sorted : List Nat) : Int → List Int → Except Fault (List sidePot)
  | _, [] => .ok []
  | min, cost :: rest =>
    match potChipsGo min 0 t.seats with
    | .error e => .error e
    | .ok chips =>
      match potsLoopGo t sorted cost rest with
      | .error e => .error e
      | .ok ps =>
        .ok ({ contesting := sorted.filter (fun i => chipsInPotAt t i ≥ cost), chips := chips } :: ps)

/-- The method `pots` on Go `int`s. -/
def potsGo (t : Table) : Except Fault (List sidePot) :=
  let sorted := sortSlice (fun i j => chipsInPotAt t i < chipsInPotAt t j) (contesting t)
  potsLoopGo t sorted 0 (tierCosts t sorted)

/-- The method `chipsInPots` on Go `int`s. -/
def chipsInPotsGo (t : Table) : Except Fault Int :=
  match potsGo t with
  | .error e => .error e
  | .ok ps => .ok (ps.foldl (fun chips pot => wrap (chips + pot.chips)) 0)

/-- The body of the loop `for i, seat := range winners` on Go `int`s. -/
def Player.creditGo (p : Player) (chips : Int) (n i : Nat) : Player :=
  let p := { p with Chips := wrap (p.Chips + chips.tdiv n) }
  if chips.tmod n > i then { p with Chips := wrap (p.Chips + 1) } else p

/-- The loop `for i, seat := range winners` on Go `int`s. -/
def creditWinnersGo (chips : Int) (n : Nat) :
    Nat → List Nat → List (Option Player) → List (Option Player)
  | _, [], seats => seats
  | i, w :: ws, seats =>
    creditWinnersGo chips n (i + 1) ws (modifySeat (fun p => p.creditGo chips n i) w seats)

def payWinnersGo (t : Table) (chips : Int) (winners : List Nat) : Except Fault Table :=
  match sortByDistance t winners with
  | .error e => .error e
  | .ok winners =>
    .ok { t with seats := creditWinnersGo chips winners.length 0 winners t.seats }

def settlePotGo (h : HandPkg) (t : Table) (pot : sidePot) : Except Fault Table :=
  match selectWinners h t pot with
  | .error e => .error e
  | .ok winners => payWinnersGo t pot.chips winners

def settlePotsGo (h : HandPkg) : Table → List sidePot → Except Fault Table
  | t, [] => .ok t
  | t, pot :: ps =>
    match settlePotGo h t pot with
    | .error e => .error e
    | .ok t => settlePotsGo h t ps

/-- The method `payout` on Go `int`s. -/
def payoutGo (h : HandPkg) (t : Table) : Except Fault Table :=
  if t.seats.any Option.isNone then .error .nilDereference
  else
    match potsGo t with
    | .error e => .error e
    | .ok ps => settlePotsGo h t ps

/-- The tables a run of accepted actions goes through, the first and the last included. -/
def visited (h : HandPkg) : Table → List Action → List Table
  | t, [] => [t]
  | t, a :: as =>
    t :: match Act h t a with
      | .ok (none, t') => visited h t' as
      | _ => []

/-- Whether all the chips on the table, counted once for every seat and once more, stay
below `2^63`: no sum that `pots`, `chipsInPots` and `payout` form then leaves the range of
a Go `int`. -/
def withinInt (t : Table) : Bool :=
  decide (((t.seats.length : Int) + 1) * tableChips t < 9223372036854775808)

/-- The options of the test with a buy-in of `2^62`. -/
def bigOptions : Options :=
  { BuyIn := 4611686018427387904, Variant := .TexasHoldem,
    Stakes := { BigBlind := 2, SmallBlind := 1, Ante := 0 }, Limit := .NoLimit }

/-- The table `New` returns for three players and `bigOptions`, after `AllIn`, `Call`,
`Call` and two `Check`s: the three players are all-in for `2^62` each on the river. -/
def bigRiver : Table :=
  { options := bigOptions
    seats :=
      [some { ID := "a", Seat := 0, Chips := 0, ChipsInPot := 4611686018427387904,
              Acted := false, Folded := false, AllIn := true, Cards := [0, 1] },
       some { ID := "b", Seat := 1, Chips := 0, ChipsInPot := 4611686018427387904,
              Acted := false, Folded := false, AllIn := true, Cards := [2, 3] },
       some { ID := "c", Seat := 2, Chips := 0, ChipsInPot := 4611686018427387904,
              Acted := false, Folded := false, AllIn := true, Cards := [4, 5] }]
    dealer := 1
    deck := some { id := 0, pos := 11 }
    cards := [6, 7, 8, 9, 10]
    active := some 2
    status := .Dealing
    round := .River
    button := 1
    cost := 4611686018427387904 }

/-- The table `bigRiver` once the `Check` of seat 2 is applied, before `update` runs. -/
def bigRiverChecked : Table :=
  { bigRiver with seats := modifySeat (fun p => { p with Acted := true }) 2 bigRiver.seats }

/-! # Theorems -/

/-! ## Seats -/

theorem modifySeat_length (f : Player → Player) (i : Nat) (s : List (Option Player)) :
    (modifySeat f i s).length = s.length := by
  induction s generalizing i with
  | nil => simp [modifySeat]
  | cons x xs ih => cases i <;> simp [modifySeat, ih]

theorem seatAt_nil (i : Nat) : seatAt [] i = none := by
  simp [seatAt]

theorem seatAt_zero (x : Option Player) (xs : List (Option Player)) : seatAt (x :: xs) 0 = x := by
  simp [seatAt]

theorem seatAt_succ (x : Option Player) (xs : List (Option Player)) (i : Nat) :
    seatAt (x :: xs) (i + 1) = seatAt xs i := by
  simp [seatAt]

theorem seatAt_modifySeat (f : Player → Player) (i j : Nat) (s : List (Option Player)) :
    seatAt (modifySeat f i s) j = if j = i then (seatAt s j).map f else seatAt s j := by
  induction s generalizing i j with
  | nil => simp [modifySeat, seatAt_nil]
  | cons x xs ih =>
    cases i with
    | zero =>
      cases j with
      | zero => simp [modifySeat, seatAt_zero]
      | succ j => simp [modifySeat, seatAt_succ]
    | succ i =>
      cases j with
      | zero => simp [modifySeat, seatAt_zero]
      | succ j => simp [modifySeat, seatAt_succ, ih]

theorem seatAt_ge {s : List (Option Player)} {i : Nat} (h : s.length ≤ i) : seatAt s i = none := by
  have : s[i]? = none := List.getElem?_eq_none h
  simp [seatAt, this]

theorem seatAt_lt {s : List (Option Player)} {i : Nat} {p : Player} (h : seatAt s i = some p) :
    i < s.length := by
  by_contra hc
  rw [seatAt_ge (not_lt.mp hc)] at h
  cases h

theorem map_modifySeat {β : Type} (g : Option Player → β) (f : Player → Player)
    (hf : ∀ p, g (some (f p)) = g (some p)) (i : Nat) (s : List (Option Player)) :
    (modifySeat f i s).map g = s.map g := by
  induction s generalizing i with
  | nil => simp [modifySeat]
  | cons x xs ih =>
    cases i with
    | zero => cases x <;> simp [modifySeat, hf]
    | succ i => simp [modifySeat, ih]

theorem map_resetAction {β : Type} (g : Option Player → β)
    (hg : ∀ p : Player, g (some { p with Acted := false }) = g (some p)) (s : List (Option Player)) :
    (resetAction s).map g = s.map g := by
  induction s with
  | nil => simp [resetAction]
  | cons x xs ih =>
    cases x
    · simpa [resetAction] using ih
    · simpa [resetAction, hg] using ih

theorem stake_contribute (p : Player) (n : Int) : (p.contribute n).stake = p.stake := by
  unfold Player.contribute Player.stake
  split <;> (simp; try ring)

/-! ## The frame of an action -/

theorem setActive_seats {t t' : Table} {i : Nat} (h : setActive t i = .ok t') :
    t'.seats = t.seats := by
  unfold setActive at h
  split at h
  · cases h
  · split at h <;> cases h <;> rfl

theorem setupRound_seats_of_ne {h : HandPkg} {t t' : Table} (hr : t.round ≠ .PreFlop)
    (hs : setupRound h t = .ok t') : t'.seats = resetAction t.seats := by
  unfold setupRound at hs
  simp only at hs
  split at hs
  · rename_i heq
    exact absurd heq hr
  · split at hs
    · cases hs
    · simp only [bind, Except.bind] at hs
      split at hs
      · cases hs
      · rw [setActive_seats hs]
  · split at hs
    · cases hs
    · simp only [bind, Except.bind] at hs
      split at hs
      · cases hs
      · rw [setActive_seats hs]



theorem stakes_modifySeat (f : Player → Player) (hf : ∀ p, (f p).stake = p.stake) (i : Nat)
    (s : List (Option Player)) :
    (modifySeat f i s).map (Option.map Player.stake) = s.map (Option.map Player.stake) :=
  map_modifySeat _ f (fun p => by simp [hf]) i s

theorem stakes_resetAction (s : List (Option Player)) :
    (resetAction s).map (Option.map Player.stake) = s.map (Option.map Player.stake) :=
  map_resetAction _ (by intro p; rfl) s

theorem applyType_stakes {t t' : Table} {i : Nat} {o : Int} {a : Action}
    (h : applyType t i o a = .ok t') :
    t'.seats.map (Option.map Player.stake) = t.seats.map (Option.map Player.stake) := by
  unfold applyType at h
  split at h
  · cases h
    exact stakes_modifySeat _ (by intro p; rfl) _ _
  · cases h
    rfl
  · cases h
    exact stakes_modifySeat _ (by intro p; simp [stake_contribute]) _ _
  · cases h
    simp only
    rw [stakes_resetAction]
    exact stakes_modifySeat _ (by intro p; simp [stake_contribute]) _ _
  · split at h
    · cases h
    · cases h
      simp only
      rw [stakes_resetAction]
      exact stakes_modifySeat _ (by intro p; simp [stake_contribute]) _ _

theorem applyAction_stakes {t t' : Table} {a : Action} (h : applyAction t a = .ok t') :
    t'.seats.map (Option.map Player.stake) = t.seats.map (Option.map Player.stake) := by
  unfold applyAction at h
  split at h
  · split at h
    · cases h
    · rename_i t1 h1
      simp only at h
      split at h
      · cases h
      · cases h
        have h2 := applyType_stakes h1
        rw [← h2]
        split
        · exact stakes_modifySeat _ (by intro p; rfl) _ _
        · exact stakes_modifySeat _ (by intro p; rfl) _ _
  · cases h

theorem tableChips_eq_sum (t : Table) :
    tableChips t = ((t.seats.map (Option.map Player.stake)).map fun s => s.getD 0).sum := by
  unfold tableChips
  rw [List.map_map]
  congr 1
  apply List.map_congr_left
  intro s _
  cases s <;> rfl

theorem Round.next_ne_PreFlop {r : Round} (h : r ≠ .River) : r.next ≠ .PreFlop := by
  cases r <;> simp_all [Round.next]

/-- C1. Money conservation within a hand: when `Act` accepts an action whose processing
does not reach settlement, every seat holds the same `Chips + ChipsInPot` as before
(and is occupied exactly when it was), hence the sum over the table is unchanged. -/
theorem money_conserved_within_hand (h : HandPkg) (t t' : Table) (a : Action)
    (hact : Act h t a = .ok (none, t')) (hset : triggersSettlement t a = false) :
    t'.seats.map (Option.map Player.stake) = t.seats.map (Option.map Player.stake) ∧
      tableChips t' = tableChips t := by
  have key : t'.seats.map (Option.map Player.stake) = t.seats.map (Option.map Player.stake) := by
    unfold Act at hact
    split at hact
    · cases hact
    · split at hact
      · cases hact
      · split at hact
        · cases hact
        · split at hact
          · cases hact
          · rename_i t1 h1
            split at hact
            · cases hact
            · rename_i t2 h2
              cases hact
              rw [← applyAction_stakes h1]
              unfold triggersSettlement at hset
              rw [h1] at hset
              simp only at hset
              unfold update at h2
              split at h2
              · cases h2
              · rw [setActive_seats h2]
              · rename_i h3
                rw [h3] at hset
                simp only at hset
                unfold progress at h2
                rw [hset] at h2
                simp only [Bool.false_eq_true, if_false] at h2
                have hr : t1.round ≠ .River := by
                  intro hr
                  simp [endsHand, hr] at hset
                have hs := @setupRound_seats_of_ne h { t1 with round := t1.round.next } _
                  (Round.next_ne_PreFlop hr) h2
                rw [hs]
                exact stakes_resetAction _
  exact ⟨key, by rw [tableChips_eq_sum, tableChips_eq_sum, key]⟩

/-! ## The tests of `table_test.go`, run on the model -/

set_option maxRecDepth 100000 in
theorem New_threePerson100Buyin :
    New plainHands testOptions 3 ["a", "b", "c"] = .ok threePerson100Buyin :=
  rfl

set_option maxRecDepth 100000 in
theorem New_headsUp : New plainHands testOptions 2 ["a", "b"] = .ok headsUp :=
  rfl

set_option maxRecDepth 100000 in
/-- The case "full hand 1" of `table_test.go`: the chips end as 97, 107, 93, seat 2 is
active and holds the button. -/
theorem test_full_hand :
    (actAll plainHands threePerson100Buyin
        [⟨.Raise, 5⟩, ⟨.Call, 0⟩, ⟨.Fold, 0⟩, ⟨.Check, 0⟩, ⟨.Bet, 5⟩, ⟨.Fold, 0⟩]).map
      (Option.map fun t => (t.seats.map (Option.map Player.Chips), t.active, t.button)) =
      .ok (some ([some 97, some 107, some 93], some 2, 2)) :=
  rfl

set_option maxRecDepth 100000 in
/-- Witness of C1: `Raise(5)` on the test table leaves the round open and the 300 chips
in place. -/
theorem money_conserved_within_hand_witness :
    Act plainHands threePerson100Buyin ⟨.Raise, 5⟩ = .ok (none, afterRaise) ∧
      triggersSettlement threePerson100Buyin ⟨.Raise, 5⟩ = false ∧
      afterRaise.seats.map (Option.map Player.stake) =
        threePerson100Buyin.seats.map (Option.map Player.stake) ∧
      tableChips afterRaise = tableChips threePerson100Buyin :=
  ⟨rfl, rfl, money_conserved_within_hand plainHands threePerson100Buyin afterRaise ⟨.Raise, 5⟩ rfl rfl⟩

/-! ## Side pots and settlement on two tiers -/

set_option maxRecDepth 100000 in
/-- C2. Side-pot completeness fails as soon as there are two tiers.  On the table `New`
returns for the test (contributions 2, 0 and 1, nobody folded) `pots` returns pots of 3,
3 and 1 chips, so `chipsInPots` is 7 while the players have put in 3; on `headsUpRiver`
(two players in for 101 and 99) it returns pots of 200 and 2 for 200 chips put in. -/
theorem pots_exceed_contributions :
    pots threePerson100Buyin = .ok [⟨[1, 2, 0], 3⟩, ⟨[2, 0], 3⟩, ⟨[0], 1⟩] ∧
      chipsInPots threePerson100Buyin = .ok 7 ∧ statePot threePerson100Buyin = 3 ∧
      pots headsUpRiver = .ok [⟨[1, 0], 200⟩, ⟨[0], 2⟩] ∧
      chipsInPots headsUpRiver = .ok 202 ∧ statePot headsUpRiver = 200 :=
  ⟨rfl, rfl, rfl, rfl, rfl, rfl⟩

set_option maxRecDepth 100000 in
/-- C3. Money is not conserved across this hand boundary: `headsUpRiver` is reached from
`New` by six accepted actions and holds 200 chips; the `Call` that ends the hand goes
through settlement and leaves 202 chips on the table. -/
theorem settlement_creates_chips :
    actAll plainHands headsUp
        [⟨.Fold, 0⟩, ⟨.Check, 0⟩, ⟨.AllIn, 0⟩, ⟨.Call, 0⟩, ⟨.Call, 0⟩, ⟨.Call, 0⟩] =
        .ok (some headsUpRiver) ∧
      Act plainHands headsUpRiver ⟨.Call, 0⟩ = .ok (none, headsUpNext) ∧
      triggersSettlement headsUpRiver ⟨.Call, 0⟩ = true ∧
      tableChips headsUpRiver = 200 ∧ tableChips headsUpNext = 202 :=
  ⟨rfl, rfl, rfl, rfl, rfl⟩

/-! ## Legal actions -/

theorem owed_eq {t : Table} {p : Player} (hp : activePlayer t = some p) :
    owed t = .ok (t.cost - p.ChipsInPot) := by
  simp [owed, hp]

/-- C4. Turn legality: with `owed = cost - active.ChipsInPot`, `LegalActions` returns
Fold, Check, Bet, AllIn when `owed == 0`; otherwise Fold, Call when `owed > active.Chips`;
and Fold, Call, Raise, AllIn in every other case.  The first two cases can overlap only
on a negative stack: for `0 ≤ active.Chips`, `owed > active.Chips` alone gives Fold,
Call. -/
theorem legalActions_classification (t : Table) (p : Player) (hp : activePlayer t = some p) :
    owed t = .ok (t.cost - p.ChipsInPot) ∧
      (t.cost - p.ChipsInPot = 0 → LegalActions t = .ok [.Fold, .Check, .Bet, .AllIn]) ∧
      (t.cost - p.ChipsInPot ≠ 0 → t.cost - p.ChipsInPot > p.Chips →
        LegalActions t = .ok [.Fold, .Call]) ∧
      (t.cost - p.ChipsInPot ≠ 0 → ¬ t.cost - p.ChipsInPot > p.Chips →
        LegalActions t = .ok [.Fold, .Call, .Raise, .AllIn]) ∧
      (0 ≤ p.Chips → t.cost - p.ChipsInPot > p.Chips → LegalActions t = .ok [.Fold, .Call]) := by
  refine ⟨owed_eq hp, ?_, ?_, ?_, ?_⟩
  · intro h0
    simp [LegalActions, owed_eq hp, hp, h0]
  · intro h0 h1
    simp [LegalActions, owed_eq hp, hp, h0, h1]
  · intro h0 h1
    simp [LegalActions, owed_eq hp, hp, h0, h1]
  · intro hc h1
    have h0 : t.cost - p.ChipsInPot ≠ 0 := by omega
    simp [LegalActions, owed_eq hp, hp, h0, h1]

/-- Witness of C4: on the test table seat 1 owes the big blind and may fold, call, raise
or go all-in. -/
theorem legalActions_classification_witness :
    LegalActions threePerson100Buyin = .ok [.Fold, .Call, .Raise, .AllIn] :=
  (legalActions_classification threePerson100Buyin
    { ID := "b", Seat := 1, Chips := 100, ChipsInPot := 0, Acted := false, Folded := false,
      AllIn := false, Cards := [2, 3] } rfl).2.2.2.1 (by decide) (by decide)

/-! ## Rejected actions -/

theorem foldl_found (a1 : ActionType) (actions : List ActionType) (b : Bool) :
    actions.foldl (fun found a2 => found || a1 == a2) b = (b || decide (a1 ∈ actions)) := by
  induction actions generalizing b with
  | nil => simp
  | cons x xs ih =>
    simp only [List.foldl_cons, ih, List.mem_cons]
    by_cases h1 : a1 = x <;> cases b <;> simp [h1]

theorem includes_single (actions : List ActionType) (a : ActionType) :
    includes actions [a] = decide (a ∈ actions) := by
  simp [includes, foldl_found]

theorem LegalActions_ok {t : Table} {p : Player} (hp : activePlayer t = some p) :
    ∃ legal, LegalActions t = .ok legal := by
  unfold LegalActions
  rw [owed_eq hp, hp]
  simp only
  split
  · exact ⟨_, rfl⟩
  · split <;> exact ⟨_, rfl⟩

theorem Act_some_iff (h : HandPkg) (t : Table) (a : Action) (e : TableError) (t' : Table) :
    Act h t a = .ok (some e, t') ↔
      t' = t ∧ ((e = .NoActivePlayer ∧ activePlayer t = none) ∨
        (e = .IllegalAction ∧ activePlayer t ≠ none ∧
          ∃ legal, LegalActions t = .ok legal ∧ a.Type_ ∉ legal)) := by
  unfold Act
  cases hp : activePlayer t with
  | none =>
    simp only [Except.ok.injEq, Prod.mk.injEq, Option.some.injEq]
    constructor
    · rintro ⟨h1, h2⟩
      exact ⟨h2.symm, Or.inl ⟨h1.symm, trivial⟩⟩
    · rintro ⟨h1, h2 | h2⟩
      · exact ⟨h2.1.symm, h1.symm⟩
      · exact absurd rfl h2.2.1
  | some p =>
    obtain ⟨legal, hl⟩ := LegalActions_ok hp
    simp only [hl, includes_single]
    by_cases hm : a.Type_ ∈ legal
    · have hc : ¬ ((decide (a.Type_ ∈ legal) == false) = true) := by simp [hm]
      rw [if_neg hc]
      constructor
      · intro hact
        split at hact
        · cases hact
        · split at hact <;> cases hact
      · rintro ⟨-, h1 | h1⟩
        · cases h1.2
        · obtain ⟨-, -, l, hl', hn⟩ := h1
          cases hl'
          exact absurd hm hn
    · have hc : (decide (a.Type_ ∈ legal) == false) = true := by simp [hm]
      rw [if_pos hc]
      simp only [Except.ok.injEq, Prod.mk.injEq, Option.some.injEq]
      constructor
      · rintro ⟨h1, h2⟩
        exact ⟨h2.symm, Or.inr ⟨h1.symm, by simp, legal, rfl, hm⟩⟩
      · rintro ⟨h1, h2 | h2⟩
        · cases h2.2
        · exact ⟨h2.1.symm, h1.symm⟩

/-- C5. `Act` returns an error exactly when no seat is active or the type of the action
is not among `LegalActions()` ("No active player" in the first case, "illegal action
attempted" in the second), and a call that returns an error leaves the table as it
was. -/
theorem act_rejects_iff_invalid (h : HandPkg) (t : Table) (a : Action) :
    ((∃ e t', Act h t a = .ok (some e, t')) ↔
        (activePlayer t = none ∨ ∃ legal, LegalActions t = .ok legal ∧ a.Type_ ∉ legal)) ∧
      (Act h t a = .ok (some .NoActivePlayer, t) ↔ activePlayer t = none) ∧
      (Act h t a = .ok (some .IllegalAction, t) ↔
        activePlayer t ≠ none ∧ ∃ legal, LegalActions t = .ok legal ∧ a.Type_ ∉ legal) ∧
      ∀ e t', Act h t a = .ok (some e, t') → t' = t := by
  refine ⟨⟨?_, ?_⟩, ?_, ?_, ?_⟩
  · rintro ⟨e, t', hact⟩
    rcases ((Act_some_iff h t a e t').mp hact).2 with h1 | h1
    · exact Or.inl h1.2
    · exact Or.inr h1.2.2
  · intro hc
    by_cases hp : activePlayer t = none
    · exact ⟨_, t, (Act_some_iff h t a _ t).mpr ⟨rfl, Or.inl ⟨rfl, hp⟩⟩⟩
    · rcases hc with hc | hc
      · exact absurd hc hp
      · exact ⟨_, t, (Act_some_iff h t a _ t).mpr ⟨rfl, Or.inr ⟨rfl, hp, hc⟩⟩⟩
  · rw [Act_some_iff]
    simp
  · rw [Act_some_iff]
    simp
  · intro e t' hact
    exact ((Act_some_iff h t a e t').mp hact).1

/-! ## Walking round the table -/

theorem range_map_eq_rotate (n s : Nat) :
    (List.range n).map (fun k => (s + 1 + k) % n) = (List.range n).rotate (s + 1) := by
  apply List.ext_getElem
  · simp
  · intro k h1 h2
    simp only [List.length_map, List.length_range] at h1
    rw [List.getElem_rotate]
    simp [Nat.add_comm]

theorem nextSeatLoop_eq_find (seats : List (Option Player)) (fuel s : Nat) :
    nextSeatLoop seats fuel s =
      match ((List.range fuel).map fun k => (s + 1 + k) % seats.length).find? (occupied seats) with
      | some x => .ok x
      | none => .error .diverges := by
  induction fuel generalizing s with
  | zero => simp [nextSeatLoop]
  | succ f ih =>
    rw [List.range_succ_eq_map, List.map_cons, List.map_map, List.find?_cons]
    simp only [nextSeatLoop, Nat.add_zero]
    cases hs : seatAt seats ((s + 1) % seats.length) with
    | some p => simp [occupied, hs]
    | none =>
      simp only [occupied, hs, Option.isSome_none]
      rw [ih]
      have : (fun k => ((s + 1) % seats.length + 1 + k) % seats.length) =
          ((fun k => (s + 1 + k) % seats.length) ∘ Nat.succ) := by
        funext k
        simp only [Function.comp, Nat.succ_eq_add_one]
        rw [Nat.add_assoc, Nat.mod_add_mod]
        congr 1
        omega
      rw [this]

theorem nextSeat_eq_ring (t : Table) (s : Nat) (hn : t.seats.length ≠ 0) :
    nextSeat t s =
      match seatRing t.seats s with
      | [] => .error .diverges
      | x :: _ => .ok x := by
  unfold nextSeat
  rw [if_neg hn, nextSeatLoop_eq_find, range_map_eq_rotate, ← List.filter_head?]
  unfold seatRing
  cases ((List.range t.seats.length).rotate (s + 1)).filter (occupied t.seats) <;> rfl

theorem mem_seatRing {seats : List (Option Player)} {s i : Nat} :
    i ∈ seatRing seats s ↔ occupied seats i = true := by
  unfold seatRing
  rw [List.mem_filter, List.mem_rotate, List.mem_range]
  constructor
  · exact fun h => h.2
  · intro h
    refine ⟨?_, h⟩
    unfold occupied at h
    cases hp : seatAt seats i with
    | none => simp [hp] at h
    | some p => exact seatAt_lt hp

theorem seatRing_nodup (seats : List (Option Player)) (s : Nat) : (seatRing seats s).Nodup := by
  unfold seatRing
  apply List.Nodup.filter
  rw [List.nodup_rotate]
  exact List.nodup_range _

theorem seatRing_step {seats : List (Option Player)} {s x : Nat} {xs : List Nat}
    (h : seatRing seats s = x :: xs) : seatRing seats x = xs ++ [x] := by
  unfold seatRing at h
  obtain ⟨l₁, l₂, hl, h1, h2, h3⟩ := List.filter_eq_cons_iff.mp h
  have hlen : l₁.length < seats.length := by
    have := congrArg List.length hl
    simp at this
    omega
  have hx : x = (l₁.length + (s + 1)) % seats.length := by
    have hk : l₁.length < ((List.range seats.length).rotate (s + 1)).length := by simpa using hlen
    have := List.getElem_rotate (List.range seats.length) (s + 1) l₁.length hk
    simp only [List.getElem_range, List.length_range] at this
    rw [← this, List.getElem_of_eq hl hk]
    rw [List.getElem_append_right (le_refl _)]
    simp
  have hrot : (List.range seats.length).rotate (x + 1) = l₂ ++ (l₁ ++ [x]) := by
    have e1 : (List.range seats.length).rotate (x + 1) =
        ((List.range seats.length).rotate (s + 1)).rotate (l₁.length + 1) := by
      rw [List.rotate_rotate, ← List.rotate_mod _ (x + 1), ← List.rotate_mod _ (s + 1 + (l₁.length + 1))]
      congr 1
      simp only [List.length_range]
      rw [hx, Nat.mod_add_mod]
      congr 1
      omega
    rw [e1, hl]
    have : l₁ ++ x :: l₂ = (l₁ ++ [x]) ++ l₂ := by simp
    rw [this]
    have hl' : l₁.length + 1 = (l₁ ++ [x]).length := by simp
    rw [hl', List.rotate_append_length_eq]
  unfold seatRing
  rw [hrot, List.filter_append, List.filter_append, h3]
  have e2 : l₁.filter (occupied seats) = [] := by
    rw [List.filter_eq_nil_iff]
    exact h1
  rw [e2]
  simp [h2]

theorem length_seatRing (seats : List (Option Player)) (s : Nat) :
    (seatRing seats s).length = seats.countP Option.isSome := by
  unfold seatRing
  have hperm : ((List.range seats.length).rotate (s + 1)).Perm (List.range seats.length) :=
    List.rotate_perm _ _
  rw [(hperm.filter _).length_eq, ← List.countP_eq_length_filter]
  have hmap : (List.range seats.length).map (seatAt seats) = seats := by
    apply List.ext_getElem
    · simp
    · intro i h1 h2
      simp [seatAt, List.getElem?_eq_getElem h2]
  conv_rhs => rw [← hmap, List.countP_map]
  rfl

theorem nextSeat_ok {t : Table} {i : Nat} (hi : occupied t.seats i = true) (s : Nat) :
    ∃ x, nextSeat t s = .ok x ∧ occupied t.seats x = true ∧
      ∃ xs, seatRing t.seats s = x :: xs := by
  have hn : t.seats.length ≠ 0 := by
    intro h0
    have : seatAt t.seats i = none := seatAt_ge (by omega)
    simp [occupied, this] at hi
  rw [nextSeat_eq_ring t s hn]
  have hmem : i ∈ seatRing t.seats s := mem_seatRing.mpr hi
  cases hr : seatRing t.seats s with
  | nil => rw [hr] at hmem; cases hmem
  | cons x xs =>
    refine ⟨x, rfl, ?_, xs, rfl⟩
    have hx : x ∈ seatRing t.seats s := by
      rw [hr]
      exact List.mem_cons_self _ _
    exact mem_seatRing.mp hx

theorem nextSeat_occupied {t : Table} {s x : Nat} (h : nextSeat t s = .ok x) :
    occupied t.seats x = true := by
  by_cases hn : t.seats.length = 0
  · simp [nextSeat, hn] at h
  · rw [nextSeat_eq_ring t s hn] at h
    split at h
    · cases h
    · rename_i y ys hr
      have hx : y ∈ seatRing t.seats s := by
        rw [hr]
        exact List.mem_cons_self _ _
      cases h
      exact mem_seatRing.mp hx

theorem nextSeatLoop_congr {s1 s2 : List (Option Player)}
    (h : s1.map Option.isSome = s2.map Option.isSome) (fuel s : Nat) :
    nextSeatLoop s1 fuel s = nextSeatLoop s2 fuel s := by
  have hlen : s1.length = s2.length := by simpa using congrArg List.length h
  have hat : ∀ i, (seatAt s1 i).isSome = (seatAt s2 i).isSome := by
    intro i
    have := congrArg (fun l => l.get? i) h
    simp only [List.get?_eq_getElem?, List.getElem?_map] at this
    unfold seatAt
    simp only [List.get?_eq_getElem?]
    cases h1 : s1[i]? <;> cases h2 : s2[i]? <;> simp_all
  induction fuel generalizing s with
  | zero => rfl
  | succ f ih =>
    simp only [nextSeatLoop, hlen]
    have := hat ((s + 1) % s2.length)
    cases h1 : seatAt s1 ((s + 1) % s2.length) <;> cases h2 : seatAt s2 ((s + 1) % s2.length) <;>
      simp_all

theorem nextSeat_congr {t t' : Table} (h : t.seats.map Option.isSome = t'.seats.map Option.isSome)
    (s : Nat) : nextSeat t s = nextSeat t' s := by
  have hlen : t.seats.length = t'.seats.length := by simpa using congrArg List.length h
  unfold nextSeat
  rw [hlen, nextSeatLoop_congr h]

theorem occupied_congr {s1 s2 : List (Option Player)}
    (h : s1.map Option.isSome = s2.map Option.isSome) (i : Nat) :
    occupied s1 i = occupied s2 i := by
  have := congrArg (fun l => l.get? i) h
  simp only [List.get?_eq_getElem?, List.getElem?_map] at this
  unfold occupied seatAt
  simp only [List.get?_eq_getElem?]
  cases h1 : s1[i]? <;> cases h2 : s2[i]? <;> simp_all

/-! ## Round setup -/

theorem isSome_modifySeat (f : Player → Player) (i : Nat) (s : List (Option Player)) :
    (modifySeat f i s).map Option.isSome = s.map Option.isSome :=
  map_modifySeat _ f (by intro p; rfl) i s

theorem isSome_resetAction (s : List (Option Player)) :
    (resetAction s).map Option.isSome = s.map Option.isSome :=
  map_resetAction _ (by intro p; rfl) s

theorem map_dealSeats {β : Type} (g : Option Player → β) (h : HandPkg) (ante : Int)
    (hg : ∀ (p : Player) (c : List Card), g (some (p.deal c ante)) = g (some p))
    (d : Deck) (s : List (Option Player)) :
    (dealSeats h ante d s).2.map g = s.map g := by
  induction s generalizing d with
  | nil => rfl
  | cons x xs ih =>
    cases x with
    | none => simp [dealSeats, ih]
    | some p => simp [dealSeats, ih, hg]

theorem isSome_dealSeats (h : HandPkg) (ante : Int) (d : Deck) (s : List (Option Player)) :
    (dealSeats h ante d s).2.map Option.isSome = s.map Option.isSome :=
  map_dealSeats _ h ante (by intro p c; rfl) d s

theorem length_eq_of_map_eq {β : Type} {g : Option Player → β} {s1 s2 : List (Option Player)}
    (h : s1.map g = s2.map g) : s1.length = s2.length := by
  simpa using congrArg List.length h

theorem occupied_lt {s : List (Option Player)} {i : Nat} (h : occupied s i = true) :
    i < s.length := by
  unfold occupied at h
  cases hp : seatAt s i with
  | none => simp [hp] at h
  | some p => exact seatAt_lt hp

theorem contributeAt_ok {t : Table} {i : Nat} (hi : occupied t.seats i = true) (chips : Int) :
    contributeAt t i chips =
      .ok { t with seats := modifySeat (fun p => p.contribute chips) i t.seats } := by
  unfold contributeAt
  rw [if_neg (by have := occupied_lt hi; omega)]
  unfold occupied at hi
  cases hp : seatAt t.seats i with
  | none => simp [hp] at hi
  | some p => rfl

theorem setActive_ok {t : Table} {i : Nat} (hi : occupied t.seats i = true) :
    setActive t i = .ok { t with active := some i } := by
  unfold setActive
  rw [if_neg (by have := occupied_lt hi; omega)]
  unfold occupied at hi
  cases hp : seatAt t.seats i with
  | none => simp [hp] at hi
  | some p => rfl

theorem nextSeat_button (t : Table) (b s : Nat) :
    nextSeat { t with button := b } s = nextSeat t s :=
  rfl

theorem occupiedSeats_button (t : Table) (b : Nat) :
    occupiedSeats { t with button := b } = occupiedSeats t :=
  rfl

/-- What the end of the `PreFlop` case does when the seats `sb` and `bb` are occupied. -/
theorem postBlinds_spec (t : Table) {sb bb : Nat} (hsb : occupied t.seats sb = true)
    (hbb : occupied t.seats bb = true) :
    ∃ action,
      nextSeat t bb = .ok action ∧
      postBlinds t sb bb = .ok
        { t with
          seats := modifySeat (fun p => p.contribute t.options.Stakes.BigBlind) bb
            (modifySeat (fun p => p.contribute t.options.Stakes.SmallBlind) sb t.seats)
          active := some action
          cost := t.options.Stakes.BigBlind } := by
  obtain ⟨action, ha, hao, -⟩ := nextSeat_ok hbb bb
  refine ⟨action, ha, ?_⟩
  have hm1 := isSome_modifySeat (fun p => p.contribute t.options.Stakes.SmallBlind) sb t.seats
  have hm2 := isSome_modifySeat (fun p => p.contribute t.options.Stakes.BigBlind) bb
    (modifySeat (fun p => p.contribute t.options.Stakes.SmallBlind) sb t.seats)
  have o2 : occupied (modifySeat (fun p => p.contribute t.options.Stakes.SmallBlind) sb t.seats) bb
      = true := by
    rw [occupied_congr hm1]
    exact hbb
  have o3 : occupied (modifySeat (fun p => p.contribute t.options.Stakes.BigBlind) bb
      (modifySeat (fun p => p.contribute t.options.Stakes.SmallBlind) sb t.seats)) action = true := by
    rw [occupied_congr (hm2.trans hm1)]
    exact hao
  unfold postBlinds
  simp only [bind, Except.bind]
  rw [contributeAt_ok hsb]
  simp only
  rw [contributeAt_ok (by exact o2)]
  simp only
  rw [@nextSeat_congr _ t (by exact hm2.trans hm1), ha]
  simp only
  rw [setActive_ok (by exact o3)]
  rfl

/-- What the `PreFlop` case of `setupRound` does on a table with an occupied seat. -/
theorem setupPreFlop_spec (h : HandPkg) (t : Table) {i : Nat} (hi : occupied t.seats i = true) :
    ∃ button sb bb action,
      nextSeat t t.button = .ok button ∧
      (if occupiedSeats t = 2 then sb = button ∧ nextSeat t button = .ok bb
        else nextSeat t button = .ok sb ∧ nextSeat t sb = .ok bb) ∧
      nextSeat t bb = .ok action ∧
      setupPreFlop h t = .ok
        { t with
          button := button
          dealer := t.dealer + 1
          deck := some (dealSeats h t.options.Stakes.Ante { id := t.dealer, pos := 0 } t.seats).1
          seats := modifySeat (fun p => p.contribute t.options.Stakes.BigBlind) bb
            (modifySeat (fun p => p.contribute t.options.Stakes.SmallBlind) sb
              (dealSeats h t.options.Stakes.Ante { id := t.dealer, pos := 0 } t.seats).2)
          active := some action
          cost := t.options.Stakes.BigBlind } := by
  obtain ⟨button, hb, hbo, -⟩ := nextSeat_ok hi t.button
  obtain ⟨sb0, hsb, hsbo, -⟩ := nextSeat_ok hi button
  obtain ⟨bb0, hbb, hbbo, -⟩ := nextSeat_ok hi sb0
  have hd := isSome_dealSeats h t.options.Stakes.Ante { id := t.dealer, pos := 0 } t.seats
  have key : ∀ sb bb, occupied t.seats sb = true → occupied t.seats bb = true →
      ∃ action, nextSeat t bb = .ok action ∧
        postBlinds { t with
            button := button
            dealer := t.dealer + 1
            deck := some (dealSeats h t.options.Stakes.Ante { id := t.dealer, pos := 0 } t.seats).1
            seats := (dealSeats h t.options.Stakes.Ante { id := t.dealer, pos := 0 } t.seats).2 }
          sb bb = .ok
          { t with
            button := button
            dealer := t.dealer + 1
            deck := some (dealSeats h t.options.Stakes.Ante { id := t.dealer, pos := 0 } t.seats).1
            seats := modifySeat (fun p => p.contribute t.options.Stakes.BigBlind) bb
              (modifySeat (fun p => p.contribute t.options.Stakes.SmallBlind) sb
                (dealSeats h t.options.Stakes.Ante { id := t.dealer, pos := 0 } t.seats).2)
            active := some action
            cost := t.options.Stakes.BigBlind } := by
    intro sb bb osb obb
    have := @postBlinds_spec { t with
        button := button
        dealer := t.dealer + 1
        deck := some (dealSeats h t.options.Stakes.Ante { id := t.dealer, pos := 0 } t.seats).1
        seats := (dealSeats h t.options.Stakes.Ante { id := t.dealer, pos := 0 } t.seats).2 }
      sb bb (by rw [occupied_congr hd]; exact osb) (by rw [occupied_congr hd]; exact obb)
    obtain ⟨action, ha, hp⟩ := this
    refine ⟨action, ?_, hp⟩
    rw [← ha]
    exact (@nextSeat_congr _ t (by exact hd) bb).symm
  by_cases h2 : occupiedSeats t = 2
  · obtain ⟨action, ha, hp⟩ := key button sb0 hbo hsbo
    refine ⟨button, button, sb0, action, hb, ?_, ha, ?_⟩
    · rw [if_pos h2]
      exact ⟨rfl, hsb⟩
    · unfold setupPreFlop
      simp only [bind, Except.bind, hb, nextSeat_button, hsb, hbb, occupiedSeats_button, h2,
        if_true, Except.map]
      exact hp
  · obtain ⟨action, ha, hp⟩ := key sb0 bb0 hsbo hbbo
    refine ⟨button, sb0, bb0, action, hb, ?_, ha, ?_⟩
    · rw [if_neg h2]
      exact ⟨hsb, hbb⟩
    · unfold setupPreFlop
      simp only [bind, Except.bind, hb, nextSeat_button, hsb, hbb, occupiedSeats_button, h2,
        if_false, pure, Except.pure]
      exact hp

theorem setupRound_PreFlop {h : HandPkg} {t : Table} (hr : t.round = .PreFlop) :
    setupRound h t = setupPreFlop h { t with seats := resetAction t.seats } := by
  unfold setupRound
  simp only [hr]

/-- A view of the seats that the flags, the cards and the chips do not show is left as it
is by `setupRound`. -/
theorem setupRound_map {β : Type} (g : Option Player → β)
    (hreset : ∀ p : Player, g (some { p with Acted := false }) = g (some p))
    (hdeal : ∀ (p : Player) (c : List Card) (n : Int), g (some (p.deal c n)) = g (some p))
    (hcontr : ∀ (p : Player) (n : Int), g (some (p.contribute n)) = g (some p))
    {h : HandPkg} {t t' : Table} (hs : setupRound h t = .ok t') :
    t'.seats.map g = t.seats.map g := by
  by_cases hr : t.round = .PreFlop
  · rw [setupRound_PreFlop hr] at hs
    have hb : ∃ b, nextSeat { t with seats := resetAction t.seats } t.button = .ok b := by
      unfold setupPreFlop at hs
      simp only [bind, Except.bind] at hs
      split at hs
      · cases hs
      · exact ⟨_, by assumption⟩
    obtain ⟨b, hb⟩ := hb
    obtain ⟨button, sb, bb, action, -, -, -, hspec⟩ :=
      setupPreFlop_spec h { t with seats := resetAction t.seats } (nextSeat_occupied hb)
    rw [hspec] at hs
    cases hs
    simp only
    rw [map_modifySeat g _ (by intro p; exact hcontr p _), map_modifySeat g _ (by intro p; exact hcontr p _),
      map_dealSeats g h _ (by intro p c; exact hdeal p c _), map_resetAction g hreset]
  · rw [setupRound_seats_of_ne hr hs, map_resetAction g hreset]

theorem contribute_ID (p : Player) (n : Int) : (p.contribute n).ID = p.ID := by
  unfold Player.contribute
  split <;> rfl

theorem contribute_Seat (p : Player) (n : Int) : (p.contribute n).Seat = p.Seat := by
  unfold Player.contribute
  split <;> rfl

theorem setupRound_ident {h : HandPkg} {t t' : Table} (hs : setupRound h t = .ok t') :
    t'.seats.map (Option.map fun p => (p.ID, p.Seat)) =
      t.seats.map (Option.map fun p => (p.ID, p.Seat)) :=
  setupRound_map _ (by intro p; rfl)
    (by intro p c n; simp [Player.deal, contribute_ID, contribute_Seat])
    (by intro p n; simp [contribute_ID, contribute_Seat]) hs

theorem setupRound_isSome {h : HandPkg} {t t' : Table} (hs : setupRound h t = .ok t') :
    t'.seats.map Option.isSome = t.seats.map Option.isSome :=
  setupRound_map _ (by intro p; rfl) (by intro p c n; rfl) (by intro p n; rfl) hs

theorem seatAt_of_map_eq {β : Type} {g : Option Player → β} {s1 s2 : List (Option Player)}
    (hnone : ∀ x, g x = g none → x = none)
    (h : s1.map g = s2.map g) (i : Nat) : g (seatAt s1 i) = g (seatAt s2 i) := by
  have h1 := congrArg (fun l => l.get? i) h
  simp only [List.get?_eq_getElem?, List.getElem?_map] at h1
  unfold seatAt
  simp only [List.get?_eq_getElem?]
  cases e1 : s1[i]? <;> cases e2 : s2[i]? <;> simp_all

theorem Seats_eq (t : Table) : Seats t = t.seats := by
  unfold Seats
  have : ∀ (l acc : List (Option Player)),
      l.foldl (fun seats seat => seats ++ [seat]) acc = acc ++ l := by
    intro l
    induction l with
    | nil => simp
    | cons x xs ih => intro acc; simp [ih]
  simpa using this t.seats []

/-! ## Seating -/

theorem seatAt_set (s : List (Option Player)) (i j : Nat) (x : Option Player) :
    seatAt (s.set i x) j = if j = i ∧ i < s.length then x else seatAt s j := by
  unfold seatAt
  simp only [List.get?_eq_getElem?, List.getElem?_set]
  by_cases hij : i = j
  · subst hij
    by_cases hl : i < s.length
    · simp [hl]
    · simp [hl, List.getElem?_eq_none (not_lt.mp hl)]
  · have : ¬ j = i := fun h => hij h.symm
    simp [hij, this]

theorem Sit_eq (t : Table) (p : Player) (i : Int) :
    Sit t p i =
      if i < 0 ∨ (t.seats.length : Int) ≤ i then (some .InvalidSeat, t)
      else if occupied t.seats i.toNat = true then (some .SeatTaken, t)
      else (none, { t with seats := t.seats.set i.toNat (some (p.withSeat i.toNat)) }) := by
  unfold Sit
  have hc : (i < -0 ∨ i > (t.seats.length : Int) - 1) ↔ (i < 0 ∨ (t.seats.length : Int) ≤ i) := by
    constructor <;> (intro h; omega)
  by_cases h1 : i < 0 ∨ (t.seats.length : Int) ≤ i
  · rw [if_pos (hc.mpr h1), if_pos h1]
  · rw [if_neg (fun h => h1 (hc.mp h)), if_neg h1]
    unfold occupied
    cases hs : seatAt t.seats i.toNat <;> simp

/-- The seats after the loop of `New` over the player IDs, run from index `i` on a table
whose seats from `i` on are empty. -/
theorem sitAll_spec (buyIn : Int) (ids : List String) (t : Table) (i : Nat)
    (hempty : ∀ j, i ≤ j → seatAt t.seats j = none) :
    (sitAll buyIn t i ids).seats.length = t.seats.length ∧
      (sitAll buyIn t i ids).round = t.round ∧
      ∀ j, seatAt (sitAll buyIn t i ids).seats j =
        if i ≤ j ∧ j < i + ids.length ∧ j < t.seats.length then
          (ids[j - i]?).map fun id => (newPlayer id buyIn).withSeat j
        else seatAt t.seats j := by
  induction ids generalizing t i with
  | nil =>
    refine ⟨rfl, rfl, ?_⟩
    intro j
    have : ¬ (i ≤ j ∧ j < i + ([] : List String).length ∧ j < t.seats.length) := by
      simp only [List.length_nil]
      omega
    rw [if_neg this]
    rfl
  | cons id ids ih =>
    simp only [sitAll]
    rw [Sit_eq]
    by_cases h1 : ((i : Nat) : Int) < 0 ∨ (t.seats.length : Int) ≤ (i : Int)
    · rw [if_pos h1]
      have hlen : t.seats.length ≤ i := by omega
      obtain ⟨e1, e2, e3⟩ := ih t (i + 1) (fun j hj => hempty j (by omega))
      refine ⟨e1, e2, ?_⟩
      intro j
      rw [e3 j]
      have c1 : ¬ (i + 1 ≤ j ∧ j < i + 1 + ids.length ∧ j < t.seats.length) := by omega
      have c2 : ¬ (i ≤ j ∧ j < i + (id :: ids).length ∧ j < t.seats.length) := by omega
      rw [if_neg c1, if_neg c2]
    · rw [if_neg h1]
      have hocc : ¬ occupied t.seats (i : Int).toNat = true := by
        simp [occupied, hempty i (le_refl _)]
      rw [if_neg hocc]
      simp only [Int.toNat_ofNat]
      have hlen : i < t.seats.length := by omega
      have hempty' : ∀ j, i + 1 ≤ j →
          seatAt (t.seats.set i (some ((newPlayer id buyIn).withSeat i))) j = none := by
        intro j hj
        rw [seatAt_set, if_neg (by omega)]
        exact hempty j (by omega)
      obtain ⟨e1, e2, e3⟩ :=
        ih { t with seats := t.seats.set i (some ((newPlayer id buyIn).withSeat i)) } (i + 1)
          hempty'
      simp only [List.length_set] at e1 e3
      refine ⟨e1, e2, ?_⟩
      intro j
      rw [e3 j]
      simp only [List.length_cons]
      by_cases hj : j = i
      · subst hj
        have c1 : ¬ (j + 1 ≤ j ∧ j < j + 1 + ids.length ∧ j < t.seats.length) := by omega
        have c2 : j ≤ j ∧ j < j + (ids.length + 1) ∧ j < t.seats.length := by omega
        rw [if_neg c1, if_pos c2, seatAt_set, if_pos ⟨rfl, hlen⟩]
        simp
      · have c0 : ¬ (j = i ∧ i < t.seats.length) := by omega
        rw [seatAt_set, if_neg c0]
        by_cases c1 : i + 1 ≤ j ∧ j < i + 1 + ids.length ∧ j < t.seats.length
        · have c2 : i ≤ j ∧ j < i + (ids.length + 1) ∧ j < t.seats.length := by omega
          rw [if_pos c1, if_pos c2]
          have : j - i = (j - (i + 1)) + 1 := by omega
          rw [this, List.getElem?_cons_succ]
        · have c2 : ¬ (i ≤ j ∧ j < i + (ids.length + 1) ∧ j < t.seats.length) := by omega
          rw [if_neg c1, if_neg c2]

theorem seatAt_replicate_none (n j : Nat) : seatAt (List.replicate n none) j = none := by
  unfold seatAt
  rw [List.get?_eq_getElem?, List.getElem?_replicate]
  split <;> rfl

theorem seatAt_map_eq {β : Type} {g : Player → β} {s1 s2 : List (Option Player)}
    (h : s1.map (Option.map g) = s2.map (Option.map g)) (j : Nat) :
    (seatAt s1 j).map g = (seatAt s2 j).map g := by
  have h1 := congrArg (fun l => l.get? j) h
  simp only [List.get?_eq_getElem?, List.getElem?_map] at h1
  unfold seatAt
  simp only [List.get?_eq_getElem?]
  cases e1 : s1[j]? <;> cases e2 : s2[j]? <;> simp_all

/-- The seats of a table returned by `New` for `k <= numSeats` player IDs. -/
theorem New_seating (h : HandPkg) (opts : Options) (numSeats : Nat) (ids : List String)
    (hk : ids.length ≤ numSeats) (t' : Table) (hnew : New h opts numSeats ids = .ok t') :
    (Seats t').length = numSeats ∧
      ∀ j id, ids[j]? = some id →
        ∃ q, seatAt (Seats t') j = some q ∧ q.ID = id ∧ q.Seat = j := by
  unfold New at hnew
  simp only at hnew
  generalize (if ids.length < 2 then Status.Waiting else Status.Dealing) = st at hnew
  obtain ⟨e1, -, e3⟩ := sitAll_spec opts.BuyIn ids (newTable opts numSeats st) 0
    (fun j _ => seatAt_replicate_none numSeats j)
  have hid := setupRound_ident hnew
  rw [Seats_eq]
  refine ⟨?_, ?_⟩
  · rw [length_eq_of_map_eq hid, e1]
    simp [newTable]
  · intro j id hj
    have hjl : j < ids.length := by
      by_contra hc
      rw [List.getElem?_eq_none (not_lt.mp hc)] at hj
      cases hj
    have hl : (newTable opts numSeats st).seats.length = numSeats := by simp [newTable]
    have h0 := e3 j
    rw [hl, if_pos ⟨Nat.zero_le _, by omega, by omega⟩, Nat.sub_zero, hj] at h0
    have h1 := seatAt_map_eq hid j
    rw [h0] at h1
    cases hq : seatAt t'.seats j with
    | none => rw [hq] at h1; cases h1
    | some q =>
      rw [hq] at h1
      simp only [Option.map_some', Option.some.injEq, Prod.mk.injEq] at h1
      exact ⟨q, rfl, h1.1, h1.2⟩

/-- `New` returns when it is given a player and `k <= numSeats`. -/
theorem New_returns (h : HandPkg) (opts : Options) (numSeats : Nat) (ids : List String)
    (h1 : 1 ≤ ids.length) (hk : ids.length ≤ numSeats) :
    ∃ t', New h opts numSeats ids = .ok t' := by
  unfold New
  simp only
  generalize (if ids.length < 2 then Status.Waiting else Status.Dealing) = st
  obtain ⟨-, e2, e3⟩ := sitAll_spec opts.BuyIn ids (newTable opts numSeats st) 0
    (fun j _ => seatAt_replicate_none numSeats j)
  have hl : (newTable opts numSeats st).seats.length = numSeats := by simp [newTable]
  have h0 := e3 0
  rw [hl, if_pos ⟨le_refl _, by omega, by omega⟩] at h0
  have e2' : (sitAll opts.BuyIn (newTable opts numSeats st) 0 ids).round = .PreFlop := e2
  rw [setupRound_PreFlop e2']
  have hocc : occupied (resetAction (sitAll opts.BuyIn (newTable opts numSeats st) 0 ids).seats) 0
      = true := by
    rw [occupied_congr (isSome_resetAction _)]
    unfold occupied
    rw [h0]
    cases ids with
    | nil => simp at h1
    | cons id ids => simp
  obtain ⟨button, sb, bb, action, -, -, -, hspec⟩ :=
    @setupPreFlop_spec h
      { sitAll opts.BuyIn (newTable opts numSeats st) 0 ids with
        seats := resetAction (sitAll opts.BuyIn (newTable opts numSeats st) 0 ids).seats }
      0 hocc
  exact ⟨_, hspec⟩

/-! ## `Sit` on pointers -/

theorem seatAt_view (s : SeatHeap) (j : Nat) :
    seatAt s.view j = (s.pointerAt j).bind fun a => s.objects.get? a := by
  unfold seatAt SeatHeap.view SeatHeap.pointerAt
  simp only [List.get?_eq_getElem?, List.getElem?_map]
  cases s.seats[j]? with
  | none => rfl
  | some q => cases q <;> rfl

theorem SitPtr_eq (s : SeatHeap) (p : Nat) (q : Player) (i : Int)
    (hq : s.objects.get? p = some q) :
    SitPtr s p i =
      if i < 0 ∨ (s.seats.length : Int) ≤ i then .ok (some .InvalidSeat, s)
      else if (s.pointerAt i.toNat).isSome = true then .ok (some .SeatTaken, s)
      else .ok (none, { objects := s.objects.set p (q.withSeat i.toNat)
                        seats := s.seats.set i.toNat (some p) }) := by
  unfold SitPtr
  have hc : (i < -0 ∨ i > (s.seats.length : Int) - 1) ↔ (i < 0 ∨ (s.seats.length : Int) ≤ i) := by
    constructor <;> (intro h; omega)
  by_cases h1 : i < 0 ∨ (s.seats.length : Int) ≤ i
  · rw [if_pos (hc.mpr h1), if_pos h1]
  · rw [if_neg (fun h => h1 (hc.mp h)), if_neg h1]
    cases hs : s.pointerAt i.toNat with
    | none =>
      simp only [Option.isSome_none, Bool.false_eq_true, if_false]
      rw [hq]
    | some a => simp

theorem pointerAt_set (s : SeatHeap) (objs : List Player) (n j p : Nat) (hn : n < s.seats.length) :
    SeatHeap.pointerAt { objects := objs, seats := s.seats.set n (some p) } j =
      if j = n then some p else s.pointerAt j := by
  unfold SeatHeap.pointerAt
  simp only [List.get?_eq_getElem?, List.getElem?_set]
  by_cases hjn : j = n
  · subst hjn
    simp [hn]
  · have : ¬ n = j := fun h => hjn h.symm
    simp [hjn, this]

theorem get?_set_object (objs : List Player) (p a : Nat) (q q' : Player)
    (hq : objs.get? p = some q) :
    (objs.set p q').get? a = if a = p then some q' else objs.get? a := by
  have hp : p < objs.length := by
    rw [List.get?_eq_getElem?] at hq
    exact (List.getElem?_eq_some.mp hq).1
  simp only [List.get?_eq_getElem?, List.getElem?_set]
  by_cases hap : a = p
  · subst hap
    simp [hp]
  · have : ¬ p = a := fun h => hap h.symm
    simp [hap, this]

/-- What the seats show after a successful `Sit`. -/
theorem seatAt_view_sit (s : SeatHeap) (p : Nat) (q : Player) (n j : Nat)
    (hq : s.objects.get? p = some q) (hn : n < s.seats.length) :
    seatAt (SeatHeap.view { objects := s.objects.set p (q.withSeat n)
                            seats := s.seats.set n (some p) }) j =
      if j = n ∨ s.pointerAt j = some p then some (q.withSeat n) else seatAt s.view j := by
  rw [seatAt_view, pointerAt_set s _ n j p hn, seatAt_view]
  by_cases hjn : j = n
  · rw [if_pos hjn, if_pos (Or.inl hjn)]
    simp only [Option.some_bind]
    rw [get?_set_object _ p p q _ hq, if_pos rfl]
  · rw [if_neg hjn]
    cases hptr : s.pointerAt j with
    | none => simp [hjn]
    | some a =>
      simp only [Option.some_bind]
      rw [get?_set_object _ p a q _ hq]
      by_cases hap : a = p
      · subst hap
        simp
      · have : ¬ (j = n ∨ some a = some p) := by
          rintro (h | h)
          · exact hjn h
          · exact hap (Option.some.inj h)
        rw [if_neg hap, if_neg this]

theorem valid_pointerAt {s : SeatHeap} (hv : s.valid = true) {j a : Nat}
    (ha : s.pointerAt j = some a) : ∃ q, s.objects.get? a = some q := by
  unfold SeatHeap.pointerAt at ha
  unfold SeatHeap.valid at hv
  rw [List.all_eq_true] at hv
  rw [List.get?_eq_getElem?] at ha
  cases hs : s.seats[j]? with
  | none => rw [hs] at ha; cases ha
  | some x =>
    rw [hs] at ha
    have hx : x = some a := ha
    subst hx
    have := hv (some a) (List.getElem?_mem hs)
    simp only [decide_eq_true_eq] at this
    exact ⟨s.objects[a], by rw [List.get?_eq_getElem?, List.getElem?_eq_getElem this]⟩

/-- On a player object that no seat stores, `Sit` on the pointers shows what `Sit` on the
seated values does. -/
theorem SitPtr_unseated (s : SeatHeap) (p : Nat) (q : Player) (i : Int) (t : Table)
    (hq : s.objects.get? p = some q) (hv : s.valid = true)
    (hfree : ∀ j, s.pointerAt j ≠ some p) (ht : t.seats = s.view) :
    (SitPtr s p i).map (fun r => (r.1, r.2.view)) = .ok ((Sit t q i).1, (Sit t q i).2.seats) := by
  have hlen : t.seats.length = s.seats.length := by rw [ht]; simp [SeatHeap.view]
  rw [SitPtr_eq s p q i hq, Sit_eq, hlen]
  by_cases h1 : i < 0 ∨ (s.seats.length : Int) ≤ i
  · rw [if_pos h1, if_pos h1]
    simp only [Except.map, ht]
  · rw [if_neg h1, if_neg h1]
    have hocc : occupied t.seats i.toNat = (s.pointerAt i.toNat).isSome := by
      unfold occupied
      rw [ht, seatAt_view]
      cases hp : s.pointerAt i.toNat with
      | none => rfl
      | some a =>
        obtain ⟨x, hx⟩ := valid_pointerAt hv hp
        rw [Option.some_bind, hx]
        rfl
    rw [hocc]
    by_cases h2 : (s.pointerAt i.toNat).isSome = true
    · rw [if_pos h2, if_pos h2]
      simp only [Except.map, ht]
    · rw [if_neg h2, if_neg h2]
      simp only [Except.map, Except.ok.injEq, Prod.mk.injEq, true_and]
      have hn : i.toNat < s.seats.length := by omega
      have hp : p < s.objects.length := by
        rw [List.get?_eq_getElem?] at hq
        exact (List.getElem?_eq_some.mp hq).1
      rw [ht]
      apply List.ext_getElem?
      intro j
      simp only [SeatHeap.view, List.getElem?_map, List.getElem?_set, List.length_map,
        List.get?_eq_getElem?]
      by_cases hjn : i.toNat = j
      · subst hjn
        simp [hn, hp]
      · simp only [hjn, if_false]
        cases hs : s.seats[j]? with
        | none => rfl
        | some x =>
          cases x with
          | none => rfl
          | some a =>
            have hap : ¬ p = a := by
              intro hc
              apply hfree j
              unfold SeatHeap.pointerAt
              rw [List.get?_eq_getElem?, hs, hc]
              rfl
            simp [hap]

/-- C6, as stated, fails for a player who is already seated.  `Sit` stores the pointer it
is given and writes `p.Seat` through it: after `Sit(d, 2)` and `Sit(d, 3)`, both accepted,
seat 2 shows `d.Seat == 3`, although the second call was for seat 3. -/
theorem sit_rewrites_seated_player :
    (SitPtr oneObject 0 2).map (fun r => (r.1, r.2.view.map (Option.map Player.Seat))) =
        .ok (none, [none, none, some 2, none]) ∧
      ((SitPtr oneObject 0 2).bind fun r => SitPtr r.2 0 3).map
          (fun r => (r.1, r.2.view.map (Option.map Player.Seat))) =
        .ok (none, [none, none, some 3, some 3]) :=
  ⟨rfl, rfl⟩

/-- C6, amended.  For a non-nil `p`, `Sit(p, i)` returns; it returns "Invalid seat
selection" exactly for `i < 0` or `i >= len(seats)` and "Seat is already taken" exactly
for an `i` in range whose seat is occupied, leaving the table unchanged in both cases;
otherwise it succeeds, seat `i` then shows `p` with `p.Seat == i`, every other seat that
does not store `p` shows what it did, and a seat that already stored `p` shows the new
`p.Seat` too.  For a `p` that no seat stores, the seats therefore show what `Sit` on the
seated values, as `New` runs it on its fresh players, computes.  Hence a table returned by
`New` for `k <= numSeats` player IDs has `numSeats` seats, of which seat `j < k` holds the
player with the `j`-th ID and `Seat == j`; and for `1 <= k` `New` does return. -/
theorem sit_and_new_seating (s : SeatHeap) (p : Nat) (q : Player) (i : Int) (t : Table)
    (h : HandPkg) (opts : Options) (numSeats : Nat) (ids : List String)
    (hq : s.objects.get? p = some q) :
    (∃ r, SitPtr s p i = .ok r) ∧
      (SitPtr s p i = .ok (some .InvalidSeat, s) ↔ (i < 0 ∨ (s.seats.length : Int) ≤ i)) ∧
      (SitPtr s p i = .ok (some .SeatTaken, s) ↔
        (0 ≤ i ∧ i < (s.seats.length : Int) ∧ (s.pointerAt i.toNat).isSome = true)) ∧
      (∀ e s', SitPtr s p i = .ok (some e, s') → s' = s) ∧
      ((∃ s', SitPtr s p i = .ok (none, s')) ↔
        (0 ≤ i ∧ i < (s.seats.length : Int) ∧ s.pointerAt i.toNat = none)) ∧
      (∀ s', SitPtr s p i = .ok (none, s') →
        s'.seats.length = s.seats.length ∧
        seatAt s'.view i.toNat = some (q.withSeat i.toNat) ∧
        (q.withSeat i.toNat).Seat = i.toNat ∧
        (∀ j, j ≠ i.toNat → s.pointerAt j ≠ some p → seatAt s'.view j = seatAt s.view j) ∧
        (∀ j, s.pointerAt j = some p → seatAt s'.view j = some (q.withSeat i.toNat))) ∧
      (s.valid = true → (∀ j, s.pointerAt j ≠ some p) → t.seats = s.view →
        (SitPtr s p i).map (fun r => (r.1, r.2.view)) =
          .ok ((Sit t q i).1, (Sit t q i).2.seats)) ∧
      (ids.length ≤ numSeats → ∀ t', New h opts numSeats ids = .ok t' →
        (Seats t').length = numSeats ∧
        ∀ j id, ids[j]? = some id →
          ∃ q, seatAt (Seats t') j = some q ∧ q.ID = id ∧ q.Seat = j) ∧
      (1 ≤ ids.length → ids.length ≤ numSeats → ∃ t', New h opts numSeats ids = .ok t') := by
  have hsit := SitPtr_eq s p q i hq
  refine ⟨?_, ?_, ?_, ?_, ?_, ?_, ?_, ?_, ?_⟩
  · rw [hsit]
    split
    · exact ⟨_, rfl⟩
    · split <;> exact ⟨_, rfl⟩
  · rw [hsit]
    by_cases h1 : i < 0 ∨ (s.seats.length : Int) ≤ i
    · simp [h1]
    · rw [if_neg h1]
      by_cases h2 : (s.pointerAt i.toNat).isSome = true
      · simp [h1, h2]
      · simp [h1, h2]
  · rw [hsit]
    by_cases h1 : i < 0 ∨ (s.seats.length : Int) ≤ i
    · rw [if_pos h1]
      simp only [Except.ok.injEq, Prod.mk.injEq, Option.some.injEq, reduceCtorEq, false_and,
        false_iff]
      omega
    · rw [if_neg h1]
      by_cases h2 : (s.pointerAt i.toNat).isSome = true
      · rw [if_pos h2]
        simp only [true_iff]
        exact ⟨by omega, by omega, h2⟩
      · rw [if_neg h2]
        simp [h2]
  · intro e s' he
    rw [hsit] at he
    by_cases h1 : i < 0 ∨ (s.seats.length : Int) ≤ i
    · rw [if_pos h1] at he
      simp only [Except.ok.injEq, Prod.mk.injEq] at he
      exact he.2.symm
    · rw [if_neg h1] at he
      by_cases h2 : (s.pointerAt i.toNat).isSome = true
      · rw [if_pos h2] at he
        simp only [Except.ok.injEq, Prod.mk.injEq] at he
        exact he.2.symm
      · rw [if_neg h2] at he
        simp at he
  · rw [hsit]
    by_cases h1 : i < 0 ∨ (s.seats.length : Int) ≤ i
    · rw [if_pos h1]
      simp only [Except.ok.injEq, Prod.mk.injEq, reduceCtorEq, false_and, exists_false,
        false_iff]
      omega
    · rw [if_neg h1]
      by_cases h2 : (s.pointerAt i.toNat).isSome = true
      · rw [if_pos h2]
        simp only [Except.ok.injEq, Prod.mk.injEq, reduceCtorEq, false_and, exists_false,
          false_iff]
        intro hc
        rw [hc.2.2] at h2
        cases h2
      · rw [if_neg h2]
        constructor
        · intro _
          refine ⟨by omega, by omega, ?_⟩
          cases hp : s.pointerAt i.toNat with
          | none => rfl
          | some a => simp [hp] at h2
        · intro _
          exact ⟨_, rfl⟩
  · intro s' hs'
    rw [hsit] at hs'
    by_cases h1 : i < 0 ∨ (s.seats.length : Int) ≤ i
    · rw [if_pos h1] at hs'
      simp at hs'
    · rw [if_neg h1] at hs'
      by_cases h2 : (s.pointerAt i.toNat).isSome = true
      · rw [if_pos h2] at hs'
        simp at hs'
      · rw [if_neg h2] at hs'
        simp only [Except.ok.injEq, Prod.mk.injEq, true_and] at hs'
        subst hs'
        have hn : i.toNat < s.seats.length := by omega
        refine ⟨by simp, ?_, rfl, ?_, ?_⟩
        · rw [seatAt_view_sit s p q i.toNat i.toNat hq hn, if_pos (Or.inl rfl)]
        · intro j hj hptr
          rw [seatAt_view_sit s p q i.toNat j hq hn, if_neg]
          rintro (hc | hc)
          · exact hj hc
          · exact hptr hc
        · intro j hptr
          rw [seatAt_view_sit s p q i.toNat j hq hn, if_pos (Or.inr hptr)]
  · intro hv hfree ht
    exact SitPtr_unseated s p q i t hq hv hfree ht
  · intro hk t' hnew
    exact New_seating h opts numSeats ids hk t' hnew
  · intro h1 hk
    exact New_returns h opts numSeats ids h1 hk

/-- Witness of C6: the player "d" takes seat 2 of four empty seats. -/
theorem sit_and_new_seating_witness : ∃ s', SitPtr oneObject 0 2 = .ok (none, s') :=
  (sit_and_new_seating oneObject 0 (newPlayer "d" 100) 2 threePerson100Buyin plainHands
    testOptions 3 ["a", "b", "c"] rfl).2.2.2.2.1.mpr ⟨by decide, by decide, rfl⟩

/-! ## Who acts next -/

theorem rotate_eq_othersAfter {n a : Nat} (ha : a < n) :
    (List.range n).rotate (a + 1) = othersAfter n a ++ [a] := by
  rw [← range_map_eq_rotate]
  obtain ⟨m, rfl⟩ : ∃ m, n = m + 1 := ⟨n - 1, by omega⟩
  rw [List.range_succ, List.map_append]
  unfold othersAfter
  simp only [Nat.add_sub_cancel, List.map_cons, List.map_nil]
  congr 2
  rw [show a + 1 + m = a + (m + 1) by omega, Nat.add_mod_right, Nat.mod_eq_of_lt ha]

theorem mem_othersAfter {n a x : Nat} (ha : a < n) : x ∈ othersAfter n a ↔ x < n ∧ x ≠ a := by
  have hr := rotate_eq_othersAfter ha
  have hnd : (othersAfter n a ++ [a]).Nodup := by
    rw [← hr, List.nodup_rotate]
    exact List.nodup_range n
  have hmem : ∀ y, y ∈ othersAfter n a ++ [a] ↔ y < n := by
    intro y
    rw [← hr, List.mem_rotate, List.mem_range]
  constructor
  · intro hx
    refine ⟨(hmem x).mp (List.mem_append_left _ hx), ?_⟩
    rintro rfl
    rw [List.nodup_append] at hnd
    exact hnd.2.2 hx (List.mem_singleton_self x)
  · rintro ⟨hx, hne⟩
    have := (hmem x).mpr hx
    rw [List.mem_append, List.mem_singleton] at this
    exact this.resolve_right hne

theorem seatRing_self {seats : List (Option Player)} {a : Nat} (ha : occupied seats a = true) :
    seatRing seats a = (othersAfter seats.length a).filter (occupied seats) ++ [a] := by
  unfold seatRing
  rw [rotate_eq_othersAfter (occupied_lt ha), List.filter_append]
  simp [ha]

theorem canActAt_occupied {seats : List (Option Player)} {i : Nat}
    (h : canActAt seats i = true) : occupied seats i = true := by
  unfold canActAt at h
  unfold occupied
  cases hp : seatAt seats i with
  | none => simp [hp] at h
  | some p => rfl

theorem seatsLinked_iff (t : Table) :
    seatsLinked t = true ↔ ∀ i p, seatAt t.seats i = some p → p.Seat = i := by
  unfold seatsLinked
  rw [List.all_eq_true]
  constructor
  · intro h i p hp
    have := h i (List.mem_range.mpr (seatAt_lt hp))
    simpa [hp] using this
  · intro h i _
    cases hp : seatAt t.seats i with
    | none => rfl
    | some p => simpa using h i p hp

theorem nextToActLoop_eq (t : Table) (hlink : seatsLinked t = true) (rest : List Nat) :
    ∀ (done : List Nat) (cur count fuel : Nat),
      seatRing t.seats cur = rest ++ done → rest ≠ [] →
      count + rest.length + 1 = occupiedSeats t → rest.length ≤ fuel →
      nextToActLoop t fuel count cur = .ok (rest.find? (canActAt t.seats)) := by
  induction rest with
  | nil => intro _ _ _ _ _ h; exact absurd rfl h
  | cons x rest ih =>
    intro done cur count fuel hring _ hcount hfuel
    obtain ⟨f, rfl⟩ : ∃ f, fuel = f + 1 := ⟨fuel - 1, by simp at hfuel; omega⟩
    have hxmem : x ∈ seatRing t.seats cur := by rw [hring]; simp
    have hxo : occupied t.seats x = true := mem_seatRing.mp hxmem
    have hn : t.seats.length ≠ 0 := by have := occupied_lt hxo; omega
    have hnext : nextSeat t cur = .ok x := by
      rw [nextSeat_eq_ring t cur hn, hring]
      rfl
    unfold nextToActLoop
    simp only [hnext]
    cases hp : seatAt t.seats x with
    | none => simp [occupied, hp] at hxo
    | some p =>
      simp only
      have hseat : p.Seat = x := (seatsLinked_iff t).mp hlink x p hp
      have hcan : canActAt t.seats x = (!p.Acted && !p.AllIn && !p.Folded) := by
        simp [canActAt, hp]
      by_cases hc : (!p.Acted && !p.AllIn && !p.Folded) = true
      · rw [if_pos hc, List.find?_cons, hcan, hc, hseat]
      · rw [if_neg hc, List.find?_cons, hcan]
        simp only [Bool.not_eq_true] at hc
        rw [hc]
        simp only
        simp only [List.length_cons] at hcount hfuel
        by_cases hlast : ((count + 1 : Nat) : Int) = (occupiedSeats t : Int) - 1
        · rw [if_pos hlast]
          have : rest = [] := by
            apply List.eq_nil_of_length_eq_zero
            omega
          rw [this]
          rfl
        · rw [if_neg hlast]
          have hne : rest ≠ [] := by
            intro h0
            rw [h0] at hcount
            simp only [List.length_nil] at hcount
            apply hlast
            omega
          apply ih (done ++ [x]) x (count + 1) f _ hne (by omega) (by omega)
          have := seatRing_step (show seatRing t.seats cur = x :: (rest ++ done) by rw [hring]; rfl)
          rw [this, List.append_assoc]

theorem nextToAct_eq_firstToAct {t : Table} {a : Nat} (hlink : seatsLinked t = true)
    (hact : t.active = some a) (ha : occupied t.seats a = true) (h2 : 2 ≤ occupiedSeats t) :
    nextToAct t = .ok (firstToAct t a) := by
  have hring := seatRing_self ha
  have hlen := length_seatRing t.seats a
  rw [hring, List.length_append, List.length_singleton] at hlen
  have hp : ∃ p, seatAt t.seats a = some p := by
    unfold occupied at ha
    cases hq : seatAt t.seats a with
    | none => simp [hq] at ha
    | some p => exact ⟨p, rfl⟩
  obtain ⟨p, hp⟩ := hp
  have hseat : p.Seat = a := (seatsLinked_iff t).mp hlink a p hp
  have hle : t.seats.countP Option.isSome ≤ t.seats.length := List.countP_le_length _
  have hap : activePlayer t = some p := by simp [activePlayer, hact, hp]
  unfold nextToAct
  rw [hap]
  simp only [hseat]
  rw [nextToActLoop_eq t hlink _ [a] a 0 t.seats.length hring]
  · unfold firstToAct
    rw [List.find?_filter]
    congr 2
    funext x
    by_cases hx : canActAt t.seats x = true
    · simp [hx, canActAt_occupied hx]
    · simp [hx]
  · intro h0
    rw [h0] at hlen
    simp only [List.length_nil] at hlen
    unfold occupiedSeats at h2
    omega
  · unfold occupiedSeats
    omega
  · omega

theorem applyType_frame {t t' : Table} {i : Nat} {o : Int} {a : Action}
    (h : applyType t i o a = .ok t') : t' = { t with seats := t'.seats } := by
  unfold applyType at h
  split at h
  · cases h; rfl
  · cases h; rfl
  · cases h; rfl
  · cases h; rfl
  · split at h
    · cases h
    · cases h; rfl

theorem applyType_map {β : Type} (g : Option Player → β)
    (hfold : ∀ p : Player, g (some { p with Folded := true }) = g (some p))
    (hreset : ∀ p : Player, g (some { p with Acted := false }) = g (some p))
    (hcontr : ∀ (p : Player) (n : Int), g (some (p.contribute n)) = g (some p))
    {t t' : Table} {i : Nat} {o : Int} {a : Action} (h : applyType t i o a = .ok t') :
    t'.seats.map g = t.seats.map g := by
  unfold applyType at h
  split at h
  · cases h
    exact map_modifySeat g _ (by intro p; exact hfold p) _ _
  · cases h
    rfl
  · cases h
    exact map_modifySeat g _ (by intro p; exact hcontr p _) _ _
  · cases h
    simp only
    rw [map_resetAction g hreset]
    exact map_modifySeat g _ (by intro p; rw [hcontr, hcontr]) _ _
  · split at h
    · cases h
    · cases h
      simp only
      rw [map_resetAction g hreset]
      exact map_modifySeat g _ (by intro p; rw [hcontr, hcontr]) _ _

/-- What `applyAction` leaves behind: the actor has acted, and only seats and `cost` may
have changed. -/
theorem applyAction_spec {t t1 : Table} {a : Action} (h : applyAction t a = .ok t1) :
    ∃ i p o t2 p1, t.active = some i ∧ seatAt t.seats i = some p ∧
      o = t.cost - p.ChipsInPot ∧ applyType t i o a = .ok t2 ∧
      seatAt (modifySeat (fun p => { p with Acted := true }) i t2.seats) i = some p1 ∧
      p1.Acted = true ∧
      t1 = { t with
        seats := modifySeat (fun p => { p with Acted := true }) i t2.seats
        cost := if p1.ChipsInPot > t.cost then p1.ChipsInPot else t.cost } := by
  unfold applyAction at h
  split at h
  · rename_i i o hact howed
    have hp : ∃ p, seatAt t.seats i = some p ∧ o = t.cost - p.ChipsInPot := by
      cases hq : seatAt t.seats i with
      | none => simp [owed, activePlayer, hact, hq] at howed
      | some p =>
        have hap : activePlayer t = some p := by simp [activePlayer, hact, hq]
        rw [owed_eq hap] at howed
        cases howed
        exact ⟨p, rfl, rfl⟩
    obtain ⟨p, hp, ho⟩ := hp
    split at h
    · cases h
    · rename_i t2 h2
      simp only at h
      split at h
      · cases h
      · rename_i p1 hp1
        have hfr := applyType_frame h2
        have hacted : p1.Acted = true := by
          rw [seatAt_modifySeat, if_pos rfl] at hp1
          cases hq : seatAt t2.seats i with
          | none => rw [hq] at hp1; cases hp1
          | some q => rw [hq] at hp1; cases hp1; rfl
        refine ⟨i, p, o, t2, p1, hact, hp, ho, h2, hp1, hacted, ?_⟩
        cases h
        rw [hfr]
        split <;> rfl
  · cases h

theorem Act_accepted {h : HandPkg} {t t' : Table} {a : Action}
    (hacc : Act h t a = .ok (none, t')) :
    ∃ t1, applyAction t a = .ok t1 ∧ update h t1 = .ok t' := by
  unfold Act at hacc
  split at hacc
  · cases hacc
  · split at hacc
    · cases hacc
    · split at hacc
      · cases hacc
      · split at hacc
        · cases hacc
        · rename_i t1 h1
          split at hacc
          · cases hacc
          · rename_i t2 h2
            cases hacc
            exact ⟨t1, h1, h2⟩

theorem seatsLinked_congr {t t' : Table}
    (h : t'.seats.map (Option.map Player.Seat) = t.seats.map (Option.map Player.Seat)) :
    seatsLinked t = true → seatsLinked t' = true := by
  rw [seatsLinked_iff, seatsLinked_iff]
  intro hl i p hp
  have h1 := seatAt_map_eq h i
  rw [hp] at h1
  cases hq : seatAt t.seats i with
  | none => rw [hq] at h1; cases h1
  | some q =>
    rw [hq] at h1
    simp only [Option.map_some', Option.some.injEq] at h1
    rw [h1]
    exact hl i q hq

theorem occupiedSeats_congr {t t' : Table}
    (h : t'.seats.map Option.isSome = t.seats.map Option.isSome) :
    occupiedSeats t' = occupiedSeats t := by
  unfold occupiedSeats
  have e : ∀ l : List (Option Player), l.countP Option.isSome = (l.map Option.isSome).countP id := by
    intro l
    rw [List.countP_map]
    rfl
  rw [e, e, h]

theorem isSome_of_map_eq {β : Type} {g : Player → β} {s1 s2 : List (Option Player)}
    (h : s1.map (Option.map g) = s2.map (Option.map g)) :
    s1.map Option.isSome = s2.map Option.isSome := by
  have := congrArg (List.map Option.isSome) h
  simpa [List.map_map, Function.comp_def] using this

/-- C10. Round closure and next to act, on a table with at least two occupied seats whose
players carry their seat index.  Let `t1` be the table once the accepted action is
applied (actor marked as having acted).  `nextToAct` returns the first player met
walking round the table from the actor's seat who has neither acted nor folded nor gone
all-in; such a player is found exactly when some seat other than the actor's holds one,
and then `Act` ends with that seat active and nothing else changed; otherwise
`nextToAct` returns `-1` and `Act` ends with the round progression.  The round closes
exactly when every player who has neither folded nor gone all-in has acted. -/
theorem round_closure_and_next_to_act (h : HandPkg) (t t' : Table) (a : Action) (i : Nat)
    (hlink : seatsLinked t = true) (hocc : 2 ≤ occupiedSeats t) (hact : t.active = some i)
    (hacc : Act h t a = .ok (none, t')) :
    ∃ t1, applyAction t a = .ok t1 ∧ update h t1 = .ok t' ∧
      nextToAct t1 = .ok (firstToAct t1 i) ∧
      (firstToAct t1 i ≠ none ↔ ∃ j, j ≠ i ∧ canActAt t1.seats j = true) ∧
      (∀ s, firstToAct t1 i = some s → t' = { t1 with active := some s }) ∧
      (firstToAct t1 i = none → progress h t1 = .ok t') ∧
      (firstToAct t1 i = none ↔
        ∀ j p, seatAt t1.seats j = some p → p.Folded = false → p.AllIn = false →
          p.Acted = true) := by
  obtain ⟨t1, happ, hupd⟩ := Act_accepted hacc
  obtain ⟨i', p, o, t2, p1, hact', hp, -, h2, hp1, hacted, ht1⟩ := applyAction_spec happ
  rw [hact] at hact'
  cases hact'
  have hseats : t1.seats = modifySeat (fun p => { p with Acted := true }) i t2.seats := by
    rw [ht1]
  have hactive : t1.active = some i := by rw [ht1]; exact hact
  have hmapSeat : t1.seats.map (Option.map Player.Seat) = t.seats.map (Option.map Player.Seat) := by
    rw [hseats, map_modifySeat _ _ (by intro p; rfl)]
    exact applyType_map _ (by intro p; rfl) (by intro p; rfl)
      (by intro p n; simp [contribute_Seat]) h2
  have hlink1 : seatsLinked t1 = true := seatsLinked_congr hmapSeat hlink
  have hocc1 : 2 ≤ occupiedSeats t1 := by
    rw [occupiedSeats_congr (isSome_of_map_eq hmapSeat)]
    exact hocc
  have hp1' : seatAt t1.seats i = some p1 := by rw [hseats]; exact hp1
  have hoi : occupied t1.seats i = true := by simp [occupied, hp1']
  have hnext := nextToAct_eq_firstToAct hlink1 hactive hoi hocc1
  have hilt : i < t1.seats.length := occupied_lt hoi
  have hsome : firstToAct t1 i ≠ none ↔ ∃ j, j ≠ i ∧ canActAt t1.seats j = true := by
    unfold firstToAct
    rw [← Option.isSome_iff_ne_none, List.find?_isSome]
    constructor
    · rintro ⟨x, hx, hc⟩
      exact ⟨x, ((mem_othersAfter hilt).mp hx).2, hc⟩
    · rintro ⟨j, hj, hc⟩
      exact ⟨j, (mem_othersAfter hilt).mpr ⟨occupied_lt (canActAt_occupied hc), hj⟩, hc⟩
  refine ⟨t1, happ, hupd, hnext, hsome, ?_, ?_, ?_⟩
  · intro s hs
    unfold update at hupd
    rw [hnext, hs] at hupd
    simp only at hupd
    have hso : occupied t1.seats s = true := by
      apply canActAt_occupied
      unfold firstToAct at hs
      exact List.find?_some hs
    rw [setActive_ok hso] at hupd
    cases hupd
    rfl
  · intro hs
    unfold update at hupd
    rw [hnext, hs] at hupd
    exact hupd
  · have hnone : firstToAct t1 i = none ↔ ∀ j, j ≠ i → canActAt t1.seats j = false := by
      constructor
      · intro h0 j hj
        by_contra hc
        exact (hsome.mpr ⟨j, hj, by simpa using hc⟩) h0
      · intro hall
        by_contra hc
        obtain ⟨j, hj, hcj⟩ := hsome.mp hc
        rw [hall j hj] at hcj
        cases hcj
    rw [hnone]
    constructor
    · intro hall j q hq hf ha
      by_cases hj : j = i
      · subst hj
        rw [hp1'] at hq
        cases hq
        exact hacted
      · have := hall j hj
        simp only [canActAt, hq, hf, ha, Bool.not_false, Bool.and_true, Bool.not_eq_false'] at this
        simpa using this
    · intro hall j _
      unfold canActAt
      cases hq : seatAt t1.seats j with
      | none => rfl
      | some q =>
        simp only
        cases hf : q.Folded
        · cases ha : q.AllIn
          · simp [hall j q hq hf ha]
          · simp
        · simp

set_option maxRecDepth 100000 in
/-- Witness of C10: after `Raise(5)` on the test table seat 2 is the next to act. -/
theorem round_closure_and_next_to_act_witness :
    ∃ t1, applyAction threePerson100Buyin ⟨.Raise, 5⟩ = .ok t1 ∧
      update plainHands t1 = .ok afterRaise ∧
      nextToAct t1 = .ok (firstToAct t1 1) ∧
      (firstToAct t1 1 ≠ none ↔ ∃ j, j ≠ 1 ∧ canActAt t1.seats j = true) ∧
      (∀ s, firstToAct t1 1 = some s → afterRaise = { t1 with active := some s }) ∧
      (firstToAct t1 1 = none → progress plainHands t1 = .ok afterRaise) ∧
      (firstToAct t1 1 = none ↔
        ∀ j p, seatAt t1.seats j = some p → p.Folded = false → p.AllIn = false →
          p.Acted = true) :=
  round_closure_and_next_to_act plainHands threePerson100Buyin afterRaise ⟨.Raise, 5⟩ 1 rfl
    (by decide) rfl rfl

/-! ## The size of a bet -/

theorem max_nonneg_right (a : Int) : 0 ≤ max a 0 := by
  unfold max
  split <;> omega

theorem potChips_nonneg (min : Int) (seats : List (Option Player)) :
    ∀ (acc c : Int), 0 ≤ acc → potChips min acc seats = .ok c → 0 ≤ c := by
  induction seats with
  | nil =>
    intro acc c h0 h
    simp only [potChips] at h
    cases h
    exact h0
  | cons x xs ih =>
    intro acc c h0 h
    cases x with
    | none => simp [potChips] at h
    | some p =>
      simp only [potChips] at h
      exact ih _ c (by have := max_nonneg_right (p.ChipsInPot - min); omega) h

theorem potsLoop_nonneg (t : Table) (sorted : List Nat) (costs : List Int) :
    ∀ (min : Int) (ps : List sidePot), potsLoop t sorted min costs = .ok ps →
      ∀ pot ∈ ps, 0 ≤ pot.chips := by
  induction costs with
  | nil =>
    intro min ps h pot hpot
    simp only [potsLoop] at h
    cases h
    cases hpot
  | cons c cs ih =>
    intro min ps h pot hpot
    simp only [potsLoop] at h
    split at h
    · cases h
    · rename_i chips hchips
      split at h
      · cases h
      · rename_i ps' hps'
        cases h
        rcases List.mem_cons.mp hpot with rfl | hmem
        · exact potChips_nonneg min t.seats 0 chips (le_refl _) hchips
        · exact ih c ps' hps' pot hmem

theorem foldl_chips_nonneg (ps : List sidePot) (hps : ∀ pot ∈ ps, 0 ≤ pot.chips) :
    ∀ acc : Int, 0 ≤ acc → 0 ≤ ps.foldl (fun chips pot => chips + pot.chips) acc := by
  induction ps with
  | nil => intro acc h; exact h
  | cons x xs ih =>
    intro acc h
    simp only [List.foldl_cons]
    apply ih (fun pot hp => hps pot (List.mem_cons_of_mem _ hp))
    have := hps x (List.mem_cons_self _ _)
    omega

theorem chipsInPots_nonneg {t : Table} {total : Int} (h : chipsInPots t = .ok total) :
    0 ≤ total := by
  unfold chipsInPots at h
  split at h
  · cases h
  · rename_i ps hps
    cases h
    exact foldl_chips_nonneg ps (potsLoop_nonneg t _ _ 0 ps hps) 0 (le_refl _)

theorem betSize_eq_spec (t : Table) (n total : Int) :
    betSize t n total = specBetAmount t n total := by
  unfold betSize specBetAmount
  cases hl : t.options.Limit <;> cases hr : t.round <;> simp <;> omega

theorem specBetAmount_nonneg {t : Table} (n : Int) {total : Int}
    (hbb : 0 ≤ t.options.Stakes.BigBlind) (ht : 0 ≤ total) : 0 ≤ specBetAmount t n total := by
  unfold specBetAmount
  cases hl : t.options.Limit <;> cases hr : t.round <;> simp <;> omega

theorem contribute_lt {p : Player} {n : Int} (h : n < p.Chips) :
    p.contribute n = { p with ChipsInPot := p.ChipsInPot + n, Chips := p.Chips - n } := by
  unfold Player.contribute
  rw [if_neg (by omega)]

theorem seatAt_resetAction (s : List (Option Player)) (j : Nat) :
    seatAt (resetAction s) j = (seatAt s j).map fun p => { p with Acted := false } := by
  unfold seatAt resetAction
  simp only [List.get?_eq_getElem?, List.getElem?_map]
  cases s[j]? with
  | none => rfl
  | some x => cases x <;> rfl

theorem setActive_frame {t t' : Table} {i : Nat} (h : setActive t i = .ok t') :
    t' = { t with active := t'.active } := by
  unfold setActive at h
  split at h
  · cases h
  · split at h <;> cases h <;> rfl

theorem applyType_bet {t : Table} {i : Nat} {o total : Int} {a : Action}
    (htype : a.Type_ = .Bet ∨ a.Type_ = .Raise) (htotal : chipsInPots t = .ok total) :
    applyType t i o a = .ok { t with
      seats := resetAction (modifySeat
        (fun p => (p.contribute o).contribute (betSize t a.Chips total)) i t.seats) } := by
  unfold applyType
  rcases htype with h | h <;> simp only [h, htotal]

theorem contribute_twice {p : Player} {o n : Int} (h1 : o < p.Chips) (h2 : n < p.Chips - o) :
    (p.contribute o).contribute n =
      { p with ChipsInPot := p.ChipsInPot + o + n, Chips := p.Chips - o - n } := by
  rw [contribute_lt h1, contribute_lt (by simpa using h2)]

/-- C9, as amended.  An accepted `Bet` or `Raise` of `n` chips on a table with a
non-negative big blind, by a player who owes `owed >= 0` and whose stack exceeds
`owed + amt`, and that does not send the hand to settlement, takes exactly `owed + amt`
from the actor's `Chips` and adds it to the actor's `ChipsInPot`, where `amt` is the
specified size `specBetAmount` (`total` being `chipsInPots()` before the action); when
the round stays open, `cost` afterwards is the old `cost` plus `amt`.  (The proof makes
no use of `owed >= 0`.) -/
theorem bet_raise_sizing (h : HandPkg) (t t' : Table) (a : Action) (i : Nat) (p : Player)
    (total : Int) (hact : t.active = some i) (hp : seatAt t.seats i = some p)
    (htype : a.Type_ = .Bet ∨ a.Type_ = .Raise) (hacc : Act h t a = .ok (none, t'))
    (hbb : 0 ≤ t.options.Stakes.BigBlind) (_howed : 0 ≤ t.cost - p.ChipsInPot)
    (htotal : chipsInPots t = .ok total)
    (hstack : t.cost - p.ChipsInPot + specBetAmount t a.Chips total < p.Chips)
    (hset : triggersSettlement t a = false) :
    ∃ p', seatAt t'.seats i = some p' ∧
      p'.Chips = p.Chips - (t.cost - p.ChipsInPot + specBetAmount t a.Chips total) ∧
      p'.ChipsInPot = p.ChipsInPot + (t.cost - p.ChipsInPot + specBetAmount t a.Chips total) ∧
      (roundStaysOpen t a = true → t'.cost = t.cost + specBetAmount t a.Chips total) := by
  obtain ⟨t1, happ, hupd⟩ := Act_accepted hacc
  obtain ⟨i', q, o, t2, p1, hact', hq, ho, h2, hp1, -, ht1⟩ := applyAction_spec happ
  rw [hact] at hact'
  cases hact'
  rw [hp] at hq
  cases hq
  have hamt := specBetAmount_nonneg a.Chips hbb (chipsInPots_nonneg htotal)
  rw [applyType_bet htype htotal, betSize_eq_spec] at h2
  cases h2
  simp only at hp1 ht1
  rw [seatAt_modifySeat, if_pos rfl, seatAt_resetAction, seatAt_modifySeat, if_pos rfl, hp] at hp1
  simp only [Option.map_some', Option.some.injEq] at hp1
  have htw : (p.contribute o).contribute (specBetAmount t a.Chips total) =
      { p with ChipsInPot := p.ChipsInPot + o + specBetAmount t a.Chips total,
               Chips := p.Chips - o - specBetAmount t a.Chips total } :=
    contribute_twice (by omega) (by omega)
  rw [htw] at hp1
  have hc1 : p1.Chips = p.Chips - (t.cost - p.ChipsInPot + specBetAmount t a.Chips total) := by
    rw [← hp1, ho]
    simp only
    omega
  have hc2 : p1.ChipsInPot =
      p.ChipsInPot + (t.cost - p.ChipsInPot + specBetAmount t a.Chips total) := by
    rw [← hp1, ho]
    simp only
    omega
  have hs1 : seatAt t1.seats i = some p1 := by
    rw [ht1]
    simp only
    rw [seatAt_modifySeat, if_pos rfl, seatAt_resetAction, seatAt_modifySeat, if_pos rfl, hp]
    simp only [Option.map_some', Option.some.injEq]
    rw [htw]
    exact hp1
  have hcost : t1.cost = t.cost + specBetAmount t a.Chips total := by
    rw [ht1]
    simp only
    split <;> omega
  unfold triggersSettlement at hset
  unfold roundStaysOpen
  rw [happ] at hset ⊢
  simp only at hset ⊢
  unfold update at hupd
  split at hupd
  · cases hupd
  · rename_i s hs
    refine ⟨p1, ?_, hc1, hc2, ?_⟩
    · rw [setActive_seats hupd]
      exact hs1
    · intro _
      rw [setActive_frame hupd]
      exact hcost
  · rename_i hs
    rw [hs] at hset ⊢
    simp only at hset
    unfold progress at hupd
    rw [hset] at hupd
    simp only [Bool.false_eq_true, if_false] at hupd
    have hr : t1.round ≠ .River := by
      intro hr
      simp [endsHand, hr] at hset
    have hseats := @setupRound_seats_of_ne h { t1 with round := t1.round.next } _
      (Round.next_ne_PreFlop hr) hupd
    refine ⟨{ p1 with Acted := false }, ?_, hc1, hc2, ?_⟩
    · rw [hseats]
      simp only
      rw [seatAt_resetAction, hs1]
      rfl
    · intro hc
      cases hc

set_option maxRecDepth 100000 in
/-- Witness of C9, the case "preflop raise" of `table_test.go`: `Raise(5)` by seat 1, who
owes 2, moves 7 chips and lifts `cost` to 7. -/
theorem bet_raise_sizing_witness :
    (seatAt afterRaise.seats 1).map (fun p => (p.Chips, p.ChipsInPot)) = some (93, 7) ∧
      afterRaise.cost = 7 := by
  obtain ⟨p', h1, h2, h3, h4⟩ :=
    bet_raise_sizing plainHands threePerson100Buyin afterRaise ⟨.Raise, 5⟩ 1
      { ID := "b", Seat := 1, Chips := 100, ChipsInPot := 0, Acted := false, Folded := false,
        AllIn := false, Cards := [2, 3] }
      7 rfl rfl (Or.inr rfl) rfl (by decide) (by decide) rfl (by decide) rfl
  have hamt : specBetAmount threePerson100Buyin 5 7 = 5 := by decide
  rw [hamt] at h2 h3 h4
  refine ⟨?_, ?_⟩
  · rw [h1]
    simp only [Option.map_some', h2, h3]
    rfl
  · rw [h4 rfl]
    rfl

set_option maxRecDepth 100000 in
/-- C9 fails as stated when the bet ends the hand: on `lastToAct` seat 0 owes nothing
and holds 98 chips; the accepted `Bet(5)` is sized 5, yet `Act` returns with 100 chips in
that seat, not 93, because the pot was paid and the next hand's small blind posted. -/
theorem bet_sizing_fails_on_settlement :
    lastToAct.active = some 0 ∧ owed lastToAct = .ok 0 ∧ chipsInPots lastToAct = .ok 3 ∧
      specBetAmount lastToAct 5 3 = 5 ∧
      (seatAt lastToAct.seats 0).map Player.Chips = some 98 ∧
      Act plainHands lastToAct ⟨.Bet, 5⟩ = .ok (none, afterLastBet) ∧
      (seatAt afterLastBet.seats 0).map Player.Chips = some 100 ∧
      (seatAt afterLastBet.seats 0).map Player.Chips ≠ some (98 - (0 + 5)) :=
  ⟨rfl, rfl, rfl, by decide, rfl, rfl, rfl, by decide⟩

set_option maxRecDepth 100000 in
/-- Why C9 asks for a non-negative big blind: with a big blind of -2, after two calls
seat 0 owes nothing and bets; the bet is sized -2 and accepted, the round stays open,
and `cost` is still -2, not -4. -/
theorem negative_blind_bet_keeps_cost :
    ((New plainHands negativeBlindOptions 3 ["a", "b", "c"]).bind fun t =>
        actAll plainHands t [⟨.Call, 0⟩, ⟨.Call, 0⟩, ⟨.Bet, -5⟩]).map
      (Option.map fun t => (t.active, t.cost, t.round)) = .ok (some (some 1, -2, .PreFlop)) :=
  rfl

/-! ## `sort.Slice` -/

theorem insertLess_perm {α : Type} (less : α → α → Bool) (x : α) (l : List α) :
    (insertLess less x l).Perm (x :: l) := by
  induction l with
  | nil => exact List.Perm.refl _
  | cons y ys ih =>
    unfold insertLess
    split
    · exact (List.Perm.cons y ih).trans (List.Perm.swap x y ys)
    · exact List.Perm.refl _

theorem foldl_insertLess_perm {α : Type} (less : α → α → Bool) (l : List α) :
    ∀ acc : List α, (l.foldl (fun sorted x => insertLess less x sorted) acc).Perm (l ++ acc) := by
  induction l with
  | nil => intro acc; exact List.Perm.refl _
  | cons x xs ih =>
    intro acc
    simp only [List.foldl_cons, List.cons_append]
    refine (ih _).trans ?_
    refine (List.Perm.append_left xs (insertLess_perm less x acc)).trans ?_
    exact List.perm_middle

theorem sortSlice_perm {α : Type} (less : α → α → Bool) (l : List α) :
    (sortSlice less l).Perm l := by
  unfold sortSlice
  refine (List.reverse_perm _).trans ?_
  simpa using foldl_insertLess_perm less l []

theorem insertLess_pairwise {α : Type} {less : α → α → Bool}
    (hasym : ∀ a b, less a b = true → less b a = false)
    (hneg : ∀ a b c, less a b = false → less b c = false → less a c = false)
    (x : α) {l : List α} (hl : l.Pairwise fun a b => less a b = false) :
    (insertLess less x l).Pairwise fun a b => less a b = false := by
  induction l with
  | nil => simp [insertLess]
  | cons y ys ih =>
    rw [List.pairwise_cons] at hl
    unfold insertLess
    split
    · rename_i hxy
      rw [List.pairwise_cons]
      refine ⟨?_, ih hl.2⟩
      intro w hw
      rcases List.mem_cons.mp ((insertLess_perm less x ys).mem_iff.mp hw) with rfl | hw
      · exact hasym _ _ hxy
      · exact hl.1 w hw
    · rename_i hxy
      simp only [Bool.not_eq_true] at hxy
      rw [List.pairwise_cons]
      refine ⟨?_, List.pairwise_cons.mpr hl⟩
      intro w hw
      rcases List.mem_cons.mp hw with rfl | hw
      · exact hxy
      · exact hneg _ _ _ hxy (hl.1 w hw)

theorem sortSlice_pairwise {α : Type} {less : α → α → Bool}
    (hasym : ∀ a b, less a b = true → less b a = false)
    (hneg : ∀ a b c, less a b = false → less b c = false → less a c = false) (l : List α) :
    (sortSlice less l).Pairwise fun a b => less b a = false := by
  unfold sortSlice
  rw [List.pairwise_reverse]
  have : ∀ acc : List α, (acc.Pairwise fun a b => less a b = false) →
      (l.foldl (fun sorted x => insertLess less x sorted) acc).Pairwise
        fun a b => less a b = false := by
    induction l with
    | nil => intro acc h; exact h
    | cons x xs ih =>
      intro acc h
      exact ih _ (insertLess_pairwise hasym hneg x h)
  exact this [] List.Pairwise.nil

/-! ## The winners of a pot -/

theorem IsTotalPreorder.nonneg_of_nonpos {cmp : List Card → List Card → Int}
    (hc : IsTotalPreorder cmp) {a b : List Card} (h : cmp b a ≤ 0) : 0 ≤ cmp a b := by
  by_contra hn
  have := (hc.2.1 b a).mpr (by omega)
  omega

theorem IsTotalPreorder.nonpos_of_nonneg {cmp : List Card → List Card → Int}
    (hc : IsTotalPreorder cmp) {a b : List Card} (h : 0 ≤ cmp b a) : cmp a b ≤ 0 := by
  by_contra hn
  have := (hc.2.1 a b).mp (by omega)
  omega

theorem mem_takeWhile_of_pairwise {α : Type} {R : α → α → Prop} {p : α → Bool}
    (hR : ∀ a b, R a b → p b = true → p a = true) {l : List α} (hl : l.Pairwise R) {s : α}
    (hs : s ∈ l) (hp : p s = true) : s ∈ l.takeWhile p := by
  induction l with
  | nil => cases hs
  | cons y ys ih =>
    rw [List.pairwise_cons] at hl
    rcases List.mem_cons.mp hs with rfl | hmem
    · rw [List.takeWhile_cons, hp]
      exact List.mem_cons_self _ _
    · have hy : p y = true := hR y s (hl.1 s hmem) hp
      rw [List.takeWhile_cons, hy]
      exact List.mem_cons_of_mem _ (ih hl.2 hmem)

/-- C8. Winner selection: when `Hand.CompareTo` is a total preorder and the pot has a
contestant, the winners `payout` selects are exactly the contestants whose hand is at
least as strong as every contestant's, that is, those that compare equal to a strongest
hand `m` of the pot. -/
theorem winners_are_the_strongest (h : HandPkg) (t : Table) (pot : sidePot)
    (hcmp : IsTotalPreorder h.CompareTo) (hne : pot.contesting ≠ []) :
    ∃ ws, selectWinners h t pot = .ok ws ∧ ws ≠ [] ∧
      (∀ s, s ∈ ws ↔ s ∈ pot.contesting ∧
        ∀ c ∈ pot.contesting, 0 ≤ h.CompareTo (handAt t s) (handAt t c)) ∧
      ∀ m ∈ pot.contesting,
        (∀ c ∈ pot.contesting, 0 ≤ h.CompareTo (handAt t m) (handAt t c)) →
        ∀ s, s ∈ ws ↔ s ∈ pot.contesting ∧ h.CompareTo (handAt t s) (handAt t m) = 0 := by
  have hperm := sortSlice_perm
    (fun i j => decide (h.CompareTo (handAt t i) (handAt t j) > 0)) pot.contesting
  have hasym : ∀ a b : Nat, decide (h.CompareTo (handAt t a) (handAt t b) > 0) = true →
      decide (h.CompareTo (handAt t b) (handAt t a) > 0) = false := by
    intro a b hab
    simp only [gt_iff_lt, decide_eq_true_eq, decide_eq_false_iff_not, not_lt] at hab ⊢
    exact hcmp.nonpos_of_nonneg (by omega)
  have hneg : ∀ a b c : Nat, decide (h.CompareTo (handAt t a) (handAt t b) > 0) = false →
      decide (h.CompareTo (handAt t b) (handAt t c) > 0) = false →
      decide (h.CompareTo (handAt t a) (handAt t c) > 0) = false := by
    intro a b c hab hbc
    simp only [gt_iff_lt, decide_eq_false_iff_not, not_lt] at hab hbc ⊢
    exact hcmp.nonpos_of_nonneg
      (hcmp.2.2 _ _ _ (hcmp.nonneg_of_nonpos hbc) (hcmp.nonneg_of_nonpos hab))
  have hsorted := sortSlice_pairwise hasym hneg pot.contesting
  unfold selectWinners
  simp only
  generalize sortSlice (fun i j => decide (h.CompareTo (handAt t i) (handAt t j) > 0))
    pot.contesting = sorted at hperm hsorted
  cases sorted with
  | nil => exact absurd hperm.symm.eq_nil hne
  | cons first rest =>
    simp only
    have hmem : ∀ s, s ∈ first :: rest ↔ s ∈ pot.contesting := fun s => hperm.mem_iff
    have hmax : ∀ c ∈ first :: rest, 0 ≤ h.CompareTo (handAt t first) (handAt t c) := by
      intro c hc
      rcases List.mem_cons.mp hc with rfl | hc
      · rw [hcmp.1]
      · have := (List.pairwise_cons.mp hsorted).1 c hc
        simp only [gt_iff_lt, decide_eq_false_iff_not, not_lt] at this
        exact hcmp.nonneg_of_nonpos this
    have hzero : ∀ {a b : List Card}, h.CompareTo a b = 0 → h.CompareTo b a = 0 := by
      intro a b hab
      have h1 := hcmp.nonpos_of_nonneg (le_of_eq hab.symm)
      have h2 := hcmp.nonneg_of_nonpos (le_of_eq hab)
      omega
    have hws : ∀ s, s ∈ (first :: rest).takeWhile
          (fun seat => h.CompareTo (handAt t first) (handAt t seat) == 0) ↔
        s ∈ first :: rest ∧ h.CompareTo (handAt t first) (handAt t s) = 0 := by
      intro s
      constructor
      · intro hs
        have h1 := List.mem_takeWhile_imp hs
        exact ⟨(List.takeWhile_sublist _).subset hs, by simpa using h1⟩
      · rintro ⟨hs, h0⟩
        have hpw : (first :: rest).Pairwise fun a b =>
            h.CompareTo (handAt t b) (handAt t a) ≤ 0 ∧
              0 ≤ h.CompareTo (handAt t first) (handAt t a) := by
          refine List.Pairwise.imp_of_mem ?_ hsorted
          intro a b ha _ hab
          simp only [gt_iff_lt, decide_eq_false_iff_not, not_lt] at hab
          exact ⟨hab, hmax a ha⟩
        refine mem_takeWhile_of_pairwise ?_ hpw hs (by simpa using h0)
        intro a b hab hb
        simp only [beq_iff_eq] at hb ⊢
        have h1 : 0 ≤ h.CompareTo (handAt t a) (handAt t b) := hcmp.nonneg_of_nonpos hab.1
        have h2 : 0 ≤ h.CompareTo (handAt t b) (handAt t first) := le_of_eq (hzero hb).symm
        have h3 := hcmp.nonpos_of_nonneg (hcmp.2.2 _ _ _ h1 h2)
        have h4 := hab.2
        omega
    have hbest : ∀ s, s ∈ first :: rest →
        (h.CompareTo (handAt t first) (handAt t s) = 0 ↔
          ∀ c ∈ pot.contesting, 0 ≤ h.CompareTo (handAt t s) (handAt t c)) := by
      intro s hs
      constructor
      · intro h0 c hc
        exact hcmp.2.2 _ _ _ (le_of_eq (hzero h0).symm) (hmax c ((hmem c).mpr hc))
      · intro hall
        have h1 := hcmp.nonpos_of_nonneg (hall first ((hmem first).mp (List.mem_cons_self _ _)))
        have h2 := hmax s hs
        omega
    refine ⟨_, rfl, ?_, ?_, ?_⟩
    · intro hnil
      have : first ∈ (first :: rest).takeWhile
          (fun seat => h.CompareTo (handAt t first) (handAt t seat) == 0) :=
        (hws first).mpr ⟨List.mem_cons_self _ _, hcmp.1 _⟩
      rw [hnil] at this
      cases this
    · intro s
      rw [hws s]
      constructor
      · rintro ⟨hs, h0⟩
        exact ⟨(hmem s).mp hs, (hbest s hs).mp h0⟩
      · rintro ⟨hs, hall⟩
        exact ⟨(hmem s).mpr hs, (hbest s ((hmem s).mpr hs)).mpr hall⟩
    · intro m hm hmbest s
      rw [hws s]
      constructor
      · rintro ⟨hs, h0⟩
        refine ⟨(hmem s).mp hs, ?_⟩
        have h1 := (hbest s hs).mp h0 m hm
        have h2 := hcmp.nonpos_of_nonneg (hmbest s ((hmem s).mp hs))
        omega
      · rintro ⟨hs, h0⟩
        refine ⟨(hmem s).mpr hs, (hbest s ((hmem s).mpr hs)).mpr ?_⟩
        intro c hc
        exact hcmp.2.2 _ _ _ (le_of_eq h0.symm) (hmbest c hc)

/-! ## Distance from the button -/

theorem distanceLoop_eq (t : Table) (target : Nat) (rest : List Nat) :
    ∀ (done : List Nat) (cur d fuel : Nat),
      seatRing t.seats cur = rest ++ done → target ∈ rest → rest.length ≤ fuel →
      distanceLoop t target fuel cur d = .ok (d + 1 + rest.indexOf target) := by
  induction rest with
  | nil => intro _ _ _ _ _ h; cases h
  | cons x rest ih =>
    intro done cur d fuel hring hmem hfuel
    obtain ⟨f, rfl⟩ : ∃ f, fuel = f + 1 := ⟨fuel - 1, by simp at hfuel; omega⟩
    have hxmem : x ∈ seatRing t.seats cur := by rw [hring]; simp
    have hxo : occupied t.seats x = true := mem_seatRing.mp hxmem
    have hn : t.seats.length ≠ 0 := by have := occupied_lt hxo; omega
    have hnext : nextSeat t cur = .ok x := by
      rw [nextSeat_eq_ring t cur hn, hring]
      rfl
    unfold distanceLoop
    simp only [hnext]
    by_cases hx : target = x
    · rw [if_pos hx, hx, List.indexOf_cons_self]
    · rw [if_neg hx, List.indexOf_cons_ne _ (fun hc => hx hc.symm)]
      have hmem' : target ∈ rest := by
        rcases List.mem_cons.mp hmem with h | h
        · exact absurd h hx
        · exact h
      simp only [List.length_cons] at hfuel
      rw [ih (done ++ [x]) x (d + 1) f _ hmem' (by omega)]
      · congr 1
        omega
      · have := seatRing_step (show seatRing t.seats cur = x :: (rest ++ done) by rw [hring]; rfl)
        rw [this, List.append_assoc]

/-- The distance from the button of an occupied seat whose player carries the seat's
index: one more than its position in the walk that starts after the button. -/
theorem buttonDistance_eq {t : Table} (hlink : seatsLinked t = true) {w : Nat}
    (hw : occupied t.seats w = true) :
    ∃ p, seatAt t.seats w = some p ∧
      distanceFromButton t p = .ok (1 + (seatRing t.seats t.button).indexOf w) ∧
      buttonDistance t w = 1 + (seatRing t.seats t.button).indexOf w := by
  have hp : ∃ p, seatAt t.seats w = some p := by
    unfold occupied at hw
    cases hq : seatAt t.seats w with
    | none => simp [hq] at hw
    | some p => exact ⟨p, rfl⟩
  obtain ⟨p, hp⟩ := hp
  have hseat : p.Seat = w := (seatsLinked_iff t).mp hlink w p hp
  have hlen := length_seatRing t.seats t.button
  have hle : t.seats.countP Option.isSome ≤ t.seats.length := List.countP_le_length _
  have hd : distanceFromButton t p = .ok (1 + (seatRing t.seats t.button).indexOf w) := by
    unfold distanceFromButton
    rw [hseat, distanceLoop_eq t w (seatRing t.seats t.button) [] t.button 0 t.seats.length
      (by simp) (mem_seatRing.mpr hw) (by omega)]
  refine ⟨p, hp, hd, ?_⟩
  unfold buttonDistance
  rw [hp]
  simp only [hd]

theorem buttonDistance_inj {t : Table} (hlink : seatsLinked t = true) {a b : Nat}
    (ha : occupied t.seats a = true) (hb : occupied t.seats b = true)
    (h : buttonDistance t a = buttonDistance t b) : a = b := by
  obtain ⟨_, _, _, ea⟩ := buttonDistance_eq hlink ha
  obtain ⟨_, _, _, eb⟩ := buttonDistance_eq hlink hb
  rw [ea, eb] at h
  have hidx : (seatRing t.seats t.button).indexOf a = (seatRing t.seats t.button).indexOf b := by
    omega
  exact (List.indexOf_inj (mem_seatRing.mpr ha) (mem_seatRing.mpr hb)).mp hidx

theorem distances_eq {t : Table} (hlink : seatsLinked t = true) (ws : List Nat)
    (hocc : ∀ w ∈ ws, occupied t.seats w = true) :
    distances t ws = .ok (ws.map fun w => (w, buttonDistance t w)) := by
  induction ws with
  | nil => rfl
  | cons w ws ih =>
    obtain ⟨p, hp, hd, hb⟩ := buttonDistance_eq hlink (hocc w (List.mem_cons_self _ _))
    unfold distances
    rw [hp]
    simp only [hd, ih (fun x hx => hocc x (List.mem_cons_of_mem _ hx)), List.map_cons, hb]

/-- The winners come out of the second `sort.Slice` of `payout` in the order of their
distance from the button. -/
theorem sortByDistance_spec {t : Table} (hlink : seatsLinked t = true) {ws : List Nat}
    (hnd : ws.Nodup) (hocc : ∀ w ∈ ws, occupied t.seats w = true) :
    ∃ order, sortByDistance t ws = .ok order ∧ order.Perm ws ∧
      order.Pairwise fun a b => buttonDistance t a < buttonDistance t b := by
  unfold sortByDistance
  by_cases hlen : ws.length < 2
  · rw [if_pos hlen]
    refine ⟨ws, rfl, List.Perm.refl _, ?_⟩
    match ws, hlen with
    | [], _ => exact List.Pairwise.nil
    | [x], _ => exact List.pairwise_singleton _ _
    | _ :: _ :: _, h => simp only [List.length_cons] at h; omega
  · rw [if_neg hlen, distances_eq hlink ws hocc]
    simp only
    have hperm := sortSlice_perm (fun a b : Nat × Nat => decide (a.2 < b.2))
      (ws.map fun w => (w, buttonDistance t w))
    have hasym : ∀ a b : Nat × Nat, decide (a.2 < b.2) = true → decide (b.2 < a.2) = false := by
      intro a b hab
      simp only [decide_eq_true_eq, decide_eq_false_iff_not] at hab ⊢
      omega
    have hneg : ∀ a b c : Nat × Nat, decide (a.2 < b.2) = false → decide (b.2 < c.2) = false →
        decide (a.2 < c.2) = false := by
      intro a b c hab hbc
      simp only [decide_eq_false_iff_not] at hab hbc ⊢
      omega
    have hsorted := sortSlice_pairwise hasym hneg (ws.map fun w => (w, buttonDistance t w))
    generalize sortSlice (fun a b : Nat × Nat => decide (a.2 < b.2))
      (ws.map fun w => (w, buttonDistance t w)) = sorted at hperm hsorted
    have hpo : (sorted.map Prod.fst).Perm ws := by
      have := hperm.map Prod.fst
      simpa [List.map_map, Function.comp_def] using this
    refine ⟨_, rfl, hpo, ?_⟩
    have hform : ∀ x ∈ sorted, x.2 = buttonDistance t x.1 := by
      intro x hx
      have := hperm.mem_iff.mp hx
      rw [List.mem_map] at this
      obtain ⟨w, _, rfl⟩ := this
      rfl
    have hndo : (sorted.map Prod.fst).Nodup := hpo.nodup_iff.mpr hnd
    rw [List.pairwise_map]
    unfold List.Nodup at hndo
    rw [List.pairwise_map] at hndo
    refine List.Pairwise.imp_of_mem ?_ (hsorted.and hndo)
    intro a b ha hb hab
    obtain ⟨h1, h2⟩ := hab
    simp only [decide_eq_false_iff_not, not_lt] at h1
    rw [hform a ha, hform b hb] at h1
    have hoa : occupied t.seats a.1 = true :=
      hocc _ (hpo.mem_iff.mp (List.mem_map_of_mem _ ha))
    have hob : occupied t.seats b.1 = true :=
      hocc _ (hpo.mem_iff.mp (List.mem_map_of_mem _ hb))
    have hne : buttonDistance t a.1 ≠ buttonDistance t b.1 :=
      fun hc => h2 (buttonDistance_inj hlink hoa hob hc)
    omega

/-! ## Splitting a pot -/

theorem credit_eq (p : Player) (chips : Int) (n i : Nat) :
    p.credit chips n i =
      { p with Chips := p.Chips + chips.tdiv n + if chips.tmod n > i then 1 else 0 } := by
  unfold Player.credit
  simp only
  split <;> simp

theorem seatAt_creditWinners (chips : Int) (n : Nat) (ws : List Nat) :
    ∀ (i : Nat) (seats : List (Option Player)) (x : Nat), ws.Nodup →
      seatAt (creditWinners chips n i ws seats) x =
        if x ∈ ws then (seatAt seats x).map fun p => p.credit chips n (i + ws.indexOf x)
        else seatAt seats x := by
  induction ws with
  | nil => intro i seats x _; simp [creditWinners]
  | cons w ws ih =>
    intro i seats x hnd
    rw [List.nodup_cons] at hnd
    unfold creditWinners
    rw [ih (i + 1) _ x hnd.2, seatAt_modifySeat]
    by_cases hx : x = w
    · subst hx
      rw [if_neg hnd.1, if_pos rfl, if_pos (List.mem_cons_self _ _), List.indexOf_cons_self]
      rfl
    · rw [if_neg hx]
      by_cases hm : x ∈ ws
      · rw [if_pos hm, if_pos (List.mem_cons_of_mem _ hm),
          List.indexOf_cons_ne _ (fun hc => hx hc.symm)]
        congr 2
        funext p
        congr 1
        omega
      · rw [if_neg hm, if_neg (by simp [hx, hm])]

theorem stackSum_modifySeat (f : Player → Player) {w : Nat} {seats : List (Option Player)}
    {p : Player} (hp : seatAt seats w = some p) :
    stackSum (modifySeat f w seats) = stackSum seats + ((f p).Chips - p.Chips) := by
  induction seats generalizing w with
  | nil => simp [seatAt_nil] at hp
  | cons x xs ih =>
    cases w with
    | zero =>
      rw [seatAt_zero] at hp
      subst hp
      simp only [modifySeat, stackSum, Option.map_some', List.map_cons, List.sum_cons]
      omega
    | succ w =>
      rw [seatAt_succ] at hp
      have := ih hp
      simp only [modifySeat, stackSum, List.map_cons, List.sum_cons] at this ⊢
      omega

theorem stackSum_creditWinners (chips : Int) (n : Nat) (ws : List Nat) :
    ∀ (i : Nat) (seats : List (Option Player)), (∀ w ∈ ws, occupied seats w = true) →
      stackSum (creditWinners chips n i ws seats) =
        stackSum seats + ws.length * chips.tdiv n +
          ((List.range ws.length).map fun j =>
            if chips.tmod n > ((i + j : Nat) : Int) then (1 : Int) else 0).sum := by
  induction ws with
  | nil => intro i seats _; simp [creditWinners]
  | cons w ws ih =>
    intro i seats hocc
    have hw := hocc w (List.mem_cons_self _ _)
    have hp : ∃ p, seatAt seats w = some p := by
      unfold occupied at hw
      cases hq : seatAt seats w with
      | none => simp [hq] at hw
      | some p => exact ⟨p, rfl⟩
    obtain ⟨p, hp⟩ := hp
    unfold creditWinners
    have hocc' : ∀ x ∈ ws, occupied (modifySeat (fun p => p.credit chips n i) w seats) x = true := by
      intro x hx
      rw [occupied_congr (isSome_modifySeat _ _ _)]
      exact hocc x (List.mem_cons_of_mem _ hx)
    rw [ih (i + 1) _ hocc', stackSum_modifySeat _ hp, credit_eq]
    simp only [List.length_cons, List.range_succ_eq_map, List.map_cons, List.map_map,
      List.sum_cons, Nat.add_zero, Function.comp_def, Nat.succ_eq_add_one]
    have e : ∀ j : Nat, i + 1 + j = i + (j + 1) := by intro j; omega
    simp only [e]
    push_cast
    ring

theorem sum_extra (r : Int) (hr : 0 ≤ r) (m : Nat) :
    ((List.range m).map fun j => if r > ((0 + j : Nat) : Int) then (1 : Int) else 0).sum =
      Min.min r m := by
  induction m with
  | zero => simp [hr]
  | succ m ih =>
    rw [List.range_succ, List.map_append, List.sum_append, ih]
    simp only [Nat.zero_add, List.map_cons, List.map_nil, List.sum_cons, List.sum_nil]
    split <;> omega

/-- C7. Split-pot fairness: a pot of `c >= 0` chips with `k >= 1` winners (distinct
occupied seats whose players carry their seat index) is paid without fault; with the
winners put in the order of their distance from the button, each winner's `Chips` grow
by `c / k` rounded down, plus one chip for the first `c mod k` of them, `ChipsInPot`
and every other seat stay as they are, and the stacks grow by exactly `c` in total. -/
theorem split_pot_fairness (t : Table) (c : Int) (ws : List Nat)
    (hlink : seatsLinked t = true) (hc : 0 ≤ c) (hk : ws ≠ []) (hnd : ws.Nodup)
    (hocc : ∀ w ∈ ws, occupied t.seats w = true) :
    ∃ (order : List Nat) (t' : Table), payWinners t c ws = .ok t' ∧ order.Perm ws ∧
      (order.Pairwise fun a b => buttonDistance t a < buttonDistance t b) ∧
      t' = { t with seats := t'.seats } ∧
      (∀ w p, w ∈ ws → seatAt t.seats w = some p →
        seatAt t'.seats w = some { p with
          Chips := p.Chips + c / (ws.length : Int) +
            if (order.indexOf w : Int) < c % (ws.length : Int) then 1 else 0 }) ∧
      (∀ x, x ∉ ws → seatAt t'.seats x = seatAt t.seats x) ∧
      stackSum t'.seats = stackSum t.seats + c := by
  obtain ⟨order, hsort, hperm, hpw⟩ := sortByDistance_spec hlink hnd hocc
  have hlen : order.length = ws.length := hperm.length_eq
  have hkpos : 0 < ws.length := List.length_pos.mpr hk
  have hq : c.tdiv (ws.length : Int) = c / (ws.length : Int) :=
    Int.tdiv_eq_ediv hc (by omega)
  have hr : c.tmod (ws.length : Int) = c % (ws.length : Int) :=
    Int.tmod_eq_emod hc (by omega)
  have hr0 : 0 ≤ c % (ws.length : Int) := Int.emod_nonneg _ (by omega)
  have hr1 : c % (ws.length : Int) < ws.length := Int.emod_lt_of_pos _ (by omega)
  have hndo : order.Nodup := hperm.nodup_iff.mpr hnd
  refine ⟨order, { t with seats := creditWinners c order.length 0 order t.seats }, ?_, hperm,
    hpw, rfl, ?_, ?_, ?_⟩
  · unfold payWinners
    rw [hsort]
  · intro w p hw hp
    simp only
    rw [seatAt_creditWinners c order.length order 0 t.seats w hndo,
      if_pos (hperm.mem_iff.mpr hw), hp, Option.map_some', credit_eq, hlen, hq, hr, Nat.zero_add]
  · intro x hx
    simp only
    rw [seatAt_creditWinners c order.length order 0 t.seats x hndo,
      if_neg (fun hm => hx (hperm.mem_iff.mp hm))]
  · simp only
    rw [stackSum_creditWinners c order.length order 0 t.seats
      (fun w hw => hocc w (hperm.mem_iff.mp hw)), hlen, hq, hr, sum_extra _ hr0]
    have hmin : Min.min (c % (ws.length : Int)) (ws.length : Int) = c % (ws.length : Int) := by
      omega
    rw [hmin]
    have := Int.ediv_add_emod c (ws.length : Int)
    linarith

set_option maxRecDepth 100000 in
/-- Witness of C7: five chips split between the seats 0 and 2 of the test table, whose
button is seat 1: seat 2 comes first after the button and gets three chips, seat 0
two. -/
theorem split_pot_fairness_witness :
    (payWinners threePerson100Buyin 5 [0, 2]).map
        (fun t => t.seats.map (Option.map Player.Chips)) =
        .ok [some 100, some 100, some 102] ∧
      ∃ (order : List Nat) (t' : Table),
        payWinners threePerson100Buyin 5 [0, 2] = .ok t' ∧ order.Perm [0, 2] ∧
        (order.Pairwise fun a b =>
          buttonDistance threePerson100Buyin a < buttonDistance threePerson100Buyin b) ∧
        t' = { threePerson100Buyin with seats := t'.seats } ∧
        (∀ w p, w ∈ [0, 2] → seatAt threePerson100Buyin.seats w = some p →
          seatAt t'.seats w = some { p with
            Chips := p.Chips + 5 / (([0, 2] : List Nat).length : Int) +
              if (order.indexOf w : Int) < 5 % (([0, 2] : List Nat).length : Int) then 1
              else 0 }) ∧
        (∀ x, x ∉ [0, 2] → seatAt t'.seats x = seatAt threePerson100Buyin.seats x) ∧
        stackSum t'.seats = stackSum threePerson100Buyin.seats + 5 :=
  ⟨rfl, split_pot_fairness threePerson100Buyin 5 [0, 2] rfl (by decide) (by decide) (by decide)
    (by decide)⟩

theorem sumHands_preorder : IsTotalPreorder sumHands.CompareTo := by
  refine ⟨?_, ?_, ?_⟩
  · intro a
    simp [sumHands]
  · intro a b
    simp only [sumHands]
    omega
  · intro a b c
    simp only [sumHands]
    omega

set_option maxRecDepth 100000 in
/-- Witness of C8: with `sumHands`, seat 2 of the test table holds the strongest hand and
is the only winner of a pot contested by all three seats. -/
theorem winners_are_the_strongest_witness :
    selectWinners sumHands threePerson100Buyin ⟨[0, 1, 2], 3⟩ = .ok [2] ∧
      ∃ ws, selectWinners sumHands threePerson100Buyin ⟨[0, 1, 2], 3⟩ = .ok ws ∧ ws ≠ [] ∧
        (∀ s, s ∈ ws ↔ s ∈ [0, 1, 2] ∧
          ∀ c ∈ [0, 1, 2], 0 ≤ sumHands.CompareTo (handAt threePerson100Buyin s)
            (handAt threePerson100Buyin c)) ∧
        ∀ m ∈ [0, 1, 2],
          (∀ c ∈ [0, 1, 2], 0 ≤ sumHands.CompareTo (handAt threePerson100Buyin m)
            (handAt threePerson100Buyin c)) →
          ∀ s, s ∈ ws ↔ s ∈ [0, 1, 2] ∧
            sumHands.CompareTo (handAt threePerson100Buyin s) (handAt threePerson100Buyin m) = 0 :=
  ⟨rfl, winners_are_the_strongest sumHands threePerson100Buyin ⟨[0, 1, 2], 3⟩ sumHands_preorder
    (by decide)⟩

/-! ## The winners `payout` hands to the distribution -/

theorem contesting_nodup (t : Table) : (contesting t).Nodup :=
  List.Nodup.filter _ (List.nodup_range _)

theorem contesting_occupied {t : Table} {i : Nat} (h : i ∈ contesting t) :
    occupied t.seats i = true := by
  unfold contesting at h
  rw [List.mem_filter] at h
  unfold occupied
  cases hp : seatAt t.seats i with
  | none => simp [hp] at h
  | some p => rfl

theorem potsLoop_sublist (t : Table) (sorted : List Nat) (costs : List Int) :
    ∀ (min : Int) (ps : List sidePot), potsLoop t sorted min costs = .ok ps →
      ∀ pot ∈ ps, pot.contesting.Sublist sorted := by
  induction costs with
  | nil =>
    intro min ps h pot hpot
    simp only [potsLoop] at h
    cases h
    cases hpot
  | cons c cs ih =>
    intro min ps h pot hpot
    simp only [potsLoop] at h
    split at h
    · cases h
    · split at h
      · cases h
      · rename_i ps' hps'
        cases h
        rcases List.mem_cons.mp hpot with rfl | hmem
        · exact List.filter_sublist _
        · exact ih c ps' hps' pot hmem

/-- The winners selected for a pot of `pots()` are distinct occupied seats, also once
earlier pots have been paid (which changes no seat's occupancy). -/
theorem winners_distinct_occupied (h : HandPkg) (t0 t : Table) (ps : List sidePot)
    (pot : sidePot) (ws : List Nat) (hps : pots t0 = .ok ps) (hpot : pot ∈ ps)
    (hsame : t.seats.map Option.isSome = t0.seats.map Option.isSome)
    (hws : selectWinners h t pot = .ok ws) :
    ws.Nodup ∧ ∀ w ∈ ws, occupied t.seats w = true := by
  unfold pots at hps
  simp only at hps
  have hsub := potsLoop_sublist t0 _ _ 0 ps hps pot hpot
  have hperm := sortSlice_perm
    (fun i j => decide (chipsInPotAt t0 i < chipsInPotAt t0 j)) (contesting t0)
  have hnd : pot.contesting.Nodup := hsub.nodup (hperm.nodup_iff.mpr (contesting_nodup t0))
  have hocc : ∀ i ∈ pot.contesting, occupied t.seats i = true := by
    intro i hi
    rw [occupied_congr hsame]
    exact contesting_occupied (hperm.mem_iff.mp (hsub.subset hi))
  unfold selectWinners at hws
  simp only at hws
  have hperm2 := sortSlice_perm
    (fun i j => decide (h.CompareTo (handAt t i) (handAt t j) > 0)) pot.contesting
  generalize sortSlice (fun i j => decide (h.CompareTo (handAt t i) (handAt t j) > 0))
    pot.contesting = sorted at hws hperm2
  cases sorted with
  | nil => cases hws
  | cons first rest =>
    simp only at hws
    cases hws
    have hsub2 : ((first :: rest).takeWhile fun seat =>
        h.CompareTo (handAt t first) (handAt t seat) == 0).Sublist (first :: rest) :=
      List.takeWhile_sublist _
    exact ⟨hsub2.nodup (hperm2.nodup_iff.mpr hnd),
      fun w hw => hocc w (hperm2.mem_iff.mp (hsub2.subset hw))⟩

/-! ## Runs that end where the specification says they cannot -/

set_option maxRecDepth 100000 in
/-- C13. `New` runs the `PreFlop` setup whatever the number of players.  Without a player
it does not return (the walk of `nextSeat` never ends, or divides by zero on a table
without seats).  With one player it returns a table in status `Waiting` on which that
player has posted both blinds and is the active seat: `Act` answers a `Check` with
"illegal action attempted", not with "No active player", and a `Fold` never returns. -/
theorem new_short_handed_starts_hand :
    New plainHands testOptions 3 [] = .error .diverges ∧
      New plainHands testOptions 0 [] = .error .divideByZero ∧
      (New plainHands testOptions 3 ["a"]).map
          (fun t => (t.status, t.active, t.cost,
            t.seats.map (Option.map fun p => (p.Chips, p.ChipsInPot)))) =
        .ok (.Waiting, some 0, 2, [some (97, 3), none, none]) ∧
      ((New plainHands testOptions 3 ["a"]).bind fun t => Act plainHands t ⟨.Check, 0⟩).map
          Prod.fst = .ok (some .IllegalAction) ∧
      ((New plainHands testOptions 3 ["a"]).bind fun t => Act plainHands t ⟨.Fold, 0⟩) =
        .error .diverges :=
  ⟨rfl, rfl, rfl, rfl, rfl⟩

set_option maxRecDepth 100000 in
/-- C15. With an ante `cost` is not the highest contribution: on the table `New` returns
for `anteOptions` the big blind has 3 chips in the pot and `cost` is 2; after `Call` and
`Check` the big blind is to act and owes -1. -/
theorem cost_below_contribution_with_ante :
    (New plainHands anteOptions 3 ["a", "b", "c"]).map
        (fun t => (t.cost, t.seats.map (Option.map Player.ChipsInPot))) =
        .ok (2, [some 3, some 1, some 2]) ∧
      ((New plainHands anteOptions 3 ["a", "b", "c"]).bind fun t =>
          actAll plainHands t [⟨.Call, 0⟩, ⟨.Check, 0⟩]).map
        (Option.map fun t => (t.active, t.cost, t.seats.map (Option.map Player.ChipsInPot),
          (owed t).toOption)) =
        .ok (some (some 0, 2, [some 3, some 2, some 2], some (-1))) :=
  ⟨rfl, rfl⟩

set_option maxRecDepth 100000 in
/-- C16. The board outlives the hand: after the hand of the case "full hand 1" of
`table_test.go`, the next hand is in `PreFlop` and the three cards of the old flop are
still the community cards. -/
theorem board_survives_next_preflop :
    (actAll plainHands threePerson100Buyin
        [⟨.Raise, 5⟩, ⟨.Call, 0⟩, ⟨.Fold, 0⟩, ⟨.Check, 0⟩, ⟨.Bet, 5⟩, ⟨.Fold, 0⟩]).map
      (Option.map fun t => (t.round, t.cards, t.cards.length)) =
      .ok (some (.PreFlop, [6, 7, 8], 3)) :=
  rfl

set_option maxRecDepth 100000 in
/-- C18. A raise on a table with an empty seat panics: on the table `New` returns for two
players and three seats `Raise` is legal, under `NoLimit`, and `Act` dereferences the
empty seat in `pots()`. -/
theorem raise_faults_with_empty_seat :
    (New plainHands testOptions 3 ["a", "b"]).map
        (fun t => (t.options.Limit, t.seats.map Option.isSome, (LegalActions t).toOption)) =
        .ok (.NoLimit, [true, true, false], some [.Fold, .Call, .Raise, .AllIn]) ∧
      ((New plainHands testOptions 3 ["a", "b"]).bind fun t => chipsInPots t) =
        .error .nilDereference ∧
      ((New plainHands testOptions 3 ["a", "b"]).bind fun t => Act plainHands t ⟨.Raise, 5⟩) =
        .error .nilDereference :=
  ⟨rfl, rfl, rfl⟩

set_option maxRecDepth 100000 in
/-- C19. The active player need not be able to act: after `Call`, `Fold`, `Check` on the
test table the flop is dealt and the active seat is seat 2, the first after the button,
who folded before the flop; and on `afterShowdown`, reached from `New` by five accepted
actions, the active player is all-in. -/
theorem active_player_folded_or_allIn :
    actAll plainHands threePerson100Buyin [⟨.Call, 0⟩, ⟨.Fold, 0⟩, ⟨.Check, 0⟩] =
        .ok (some foldedFlop) ∧
      foldedFlop.round = .Flop ∧ foldedFlop.active = some 2 ∧
      (activePlayer foldedFlop).map Player.Folded = some true ∧
      New sumHands testOptions 2 ["a", "b"] = .ok headsUp ∧
      actAll sumHands headsUp
          [⟨.AllIn, 0⟩, ⟨.Call, 0⟩, ⟨.Check, 0⟩, ⟨.Check, 0⟩, ⟨.Check, 0⟩] =
        .ok (some afterShowdown) ∧
      (activePlayer afterShowdown).map Player.AllIn = some true :=
  ⟨rfl, rfl, rfl, rfl, rfl, rfl, rfl⟩

/-! ## `nextSeat` -/

theorem map_range_getElem? (n k : Nat) (f : Nat → Nat) (hk : k < n) :
    ((List.range n).map f)[k]? = some (f k) := by
  rw [List.getElem?_map, List.getElem?_range hk]
  rfl

/-- C12. On a table with an occupied seat, `nextSeat(start)` returns for every index
`start` of a seat: it returns the seat `s` reached after `k + 1` steps round the table,
`s` is occupied, the seats passed on the way are empty, and `s == start` exactly when
`start` is the only occupied seat. -/
theorem nextSeat_total_and_correct (t : Table) (start i : Nat)
    (hi : occupied t.seats i = true) (hstart : start < t.seats.length) :
    ∃ s k, nextSeat t start = .ok s ∧ occupied t.seats s = true ∧ k < t.seats.length ∧
      s = (start + 1 + k) % t.seats.length ∧
      (∀ k', k' < k → occupied t.seats ((start + 1 + k') % t.seats.length) = false) ∧
      (s = start ↔ ∀ j, occupied t.seats j = true → j = start) := by
  obtain ⟨s, hs, hso, -⟩ := nextSeat_ok hi start
  have hn : t.seats.length ≠ 0 := by omega
  have hfind : ((List.range t.seats.length).map fun k => (start + 1 + k) % t.seats.length).find?
      (occupied t.seats) = some s := by
    have h1 := hs
    unfold nextSeat at h1
    rw [if_neg hn, nextSeatLoop_eq_find] at h1
    split at h1
    · rename_i x hx
      cases h1
      exact hx
    · cases h1
  obtain ⟨-, as, bs, hl, has⟩ := List.find?_eq_some.mp hfind
  have hlen : as.length < t.seats.length := by
    have := congrArg List.length hl
    simp at this
    omega
  have hget : ∀ k, k < t.seats.length →
      (as ++ s :: bs)[k]? = some ((start + 1 + k) % t.seats.length) := by
    intro k hk
    rw [← hl]
    exact map_range_getElem? _ _ _ hk
  have hsk : s = (start + 1 + as.length) % t.seats.length := by
    have := hget as.length hlen
    rw [List.getElem?_append_right (le_refl _)] at this
    simpa using this
  have hbefore : ∀ k', k' < as.length →
      occupied t.seats ((start + 1 + k') % t.seats.length) = false := by
    intro k' hk'
    have h1 := hget k' (by omega)
    rw [List.getElem?_append_left hk'] at h1
    have hmem : (start + 1 + k') % t.seats.length ∈ as := List.getElem?_mem h1
    simpa using has _ hmem
  refine ⟨s, as.length, hs, hso, hlen, hsk, hbefore, ?_⟩
  constructor
  · intro hst j hj
    by_contra hne
    have hjm : j ∈ othersAfter t.seats.length start :=
      (mem_othersAfter hstart).mpr ⟨occupied_lt hj, hne⟩
    unfold othersAfter at hjm
    rw [List.mem_map] at hjm
    obtain ⟨k', hk', hjk⟩ := hjm
    rw [List.mem_range] at hk'
    by_cases hlt : k' < as.length
    · rw [← hjk, hbefore k' hlt] at hj
      cases hj
    · have hsm : s ∈ othersAfter t.seats.length start := by
        unfold othersAfter
        rw [List.mem_map]
        exact ⟨as.length, List.mem_range.mpr (by omega), hsk.symm⟩
      exact ((mem_othersAfter hstart).mp hsm).2 hst
  · intro hall
    exact hall s hso

set_option maxRecDepth 100000 in
/-- Witness of C12: on the test table the seat after seat 2 is seat 0. -/
theorem nextSeat_total_and_correct_witness :
    nextSeat threePerson100Buyin 2 = .ok 0 ∧
      ∃ s k, nextSeat threePerson100Buyin 2 = .ok s ∧
        occupied threePerson100Buyin.seats s = true ∧ k < threePerson100Buyin.seats.length ∧
        s = (2 + 1 + k) % threePerson100Buyin.seats.length ∧
        (∀ k', k' < k →
          occupied threePerson100Buyin.seats ((2 + 1 + k') % threePerson100Buyin.seats.length) =
            false) ∧
        (s = 2 ↔ ∀ j, occupied threePerson100Buyin.seats j = true → j = 2) :=
  ⟨rfl, nextSeat_total_and_correct threePerson100Buyin 2 0 rfl (by decide)⟩

/-! ## The seats after the `PreFlop` setup -/

theorem dealSeats_seatAt (h : HandPkg) (ante : Int) (seats : List (Option Player)) :
    ∀ (d : Deck) (j : Nat),
      (seatAt seats j = none → seatAt (dealSeats h ante d seats).2 j = none) ∧
      ∀ p, seatAt seats j = some p →
        ∃ c, seatAt (dealSeats h ante d seats).2 j = some (p.deal c ante) := by
  induction seats with
  | nil =>
    intro d j
    refine ⟨fun _ => by simp [dealSeats, seatAt_nil], ?_⟩
    intro p hp
    simp [seatAt_nil] at hp
  | cons x xs ih =>
    intro d j
    cases x with
    | none =>
      cases j with
      | zero =>
        refine ⟨fun _ => by simp [dealSeats, seatAt_zero], ?_⟩
        intro p hp
        simp [seatAt_zero] at hp
      | succ j =>
        simp only [dealSeats, seatAt_succ]
        exact ih d j
    | some q =>
      cases j with
      | zero =>
        refine ⟨fun hc => by simp [seatAt_zero] at hc, ?_⟩
        intro p hp
        rw [seatAt_zero] at hp
        cases hp
        refine ⟨(PopMulti h d 2).1, ?_⟩
        simp [dealSeats, seatAt_zero]
      | succ j =>
        simp only [dealSeats, seatAt_succ]
        exact ih _ j

theorem contribute_Folded (p : Player) (n : Int) : (p.contribute n).Folded = p.Folded := by
  unfold Player.contribute
  split <;> rfl

theorem contribute_Acted (p : Player) (n : Int) : (p.contribute n).Acted = p.Acted := by
  unfold Player.contribute
  split <;> rfl

theorem posted_flags (p : Player) (c : List Card) (o : Options) (sb bb j : Nat) :
    (p.posted c o sb bb j).Folded = false ∧ (p.posted c o sb bb j).Acted = false ∧
      (p.posted c o sb bb j).stake = p.Chips ∧ (p.posted c o sb bb j).ID = p.ID ∧
      (p.posted c o sb bb j).Seat = p.Seat := by
  unfold Player.posted
  simp only
  have hd : (p.deal c o.Stakes.Ante).Folded = false ∧ (p.deal c o.Stakes.Ante).Acted = false ∧
      (p.deal c o.Stakes.Ante).stake = p.Chips ∧ (p.deal c o.Stakes.Ante).ID = p.ID ∧
      (p.deal c o.Stakes.Ante).Seat = p.Seat := by
    unfold Player.deal
    refine ⟨by rw [contribute_Folded], by rw [contribute_Acted], ?_, by rw [contribute_ID],
      by rw [contribute_Seat]⟩
    rw [stake_contribute]
    simp [Player.stake]
  split <;> split <;>
    (try simp only [contribute_Folded, contribute_Acted, stake_contribute, contribute_ID,
      contribute_Seat]) <;> exact hd

theorem posted_exact (p : Player) (c : List Card) (o : Options) {sb bb j : Nat} (hne : sb ≠ bb)
    (hante : o.Stakes.Ante < p.Chips) (hforced : forcedBets o sb bb j < p.Chips) :
    (p.posted c o sb bb j).Chips = p.Chips - forcedBets o sb bb j ∧
      (p.posted c o sb bb j).ChipsInPot = forcedBets o sb bb j ∧
      (p.posted c o sb bb j).AllIn = false := by
  unfold Player.posted forcedBets at *
  simp only
  have hd : p.deal c o.Stakes.Ante =
      { p with Cards := c, ChipsInPot := 0 + o.Stakes.Ante, Acted := false, Folded := false,
               AllIn := false, Chips := p.Chips - o.Stakes.Ante } := by
    unfold Player.deal
    rw [contribute_lt (by simpa using hante)]
  rw [hd]
  by_cases h1 : j = sb
  · have h2 : ¬ j = bb := fun hc => hne (h1.symm.trans hc)
    rw [if_pos h1, if_neg h2] at hforced ⊢
    rw [if_neg h2, contribute_lt (by simp only; omega)]
    simp only
    exact ⟨by omega, by omega, trivial⟩
  · rw [if_neg h1] at hforced ⊢
    by_cases h2 : j = bb
    · rw [if_pos h2] at hforced ⊢
      rw [contribute_lt (by simp only; omega)]
      simp only
      exact ⟨by omega, by omega, trivial⟩
    · rw [if_neg h2] at hforced ⊢
      simp only
      exact ⟨by omega, by omega, trivial⟩

theorem nextSeat_ne_self {t : Table} {s x : Nat} (hs : occupied t.seats s = true)
    (h2 : 2 ≤ occupiedSeats t) (hx : nextSeat t s = .ok x) : x ≠ s := by
  have hn : t.seats.length ≠ 0 := by have := occupied_lt hs; omega
  have hring := seatRing_self hs
  have hlen := length_seatRing t.seats s
  rw [nextSeat_eq_ring t s hn, hring] at hx
  rw [hring, List.length_append, List.length_singleton] at hlen
  unfold occupiedSeats at h2
  cases hf : (othersAfter t.seats.length s).filter (occupied t.seats) with
  | nil =>
    rw [hf] at hlen
    simp at hlen
    omega
  | cons y ys =>
    rw [hf] at hx
    simp only [List.cons_append, Except.ok.injEq] at hx
    subst hx
    have hy : y ∈ (othersAfter t.seats.length s).filter (occupied t.seats) := by
      rw [hf]
      exact List.mem_cons_self _ _
    exact ((mem_othersAfter (occupied_lt hs)).mp (List.mem_filter.mp hy).1).2

theorem occupied_of_two {t : Table} (h2 : 2 ≤ occupiedSeats t) : ∃ i, occupied t.seats i = true := by
  unfold occupiedSeats at h2
  have hpos : 0 < t.seats.countP Option.isSome := by omega
  obtain ⟨x, hx, hsome⟩ := List.countP_pos_iff.mp hpos
  obtain ⟨i, hi, hget⟩ := List.getElem_of_mem hx
  refine ⟨i, ?_⟩
  unfold occupied seatAt
  rw [List.get?_eq_getElem?, List.getElem?_eq_getElem hi, hget]
  exact hsome

/-- What the `PreFlop` case of `setupRound` does on a table with two or more players. -/
theorem setupRound_PreFlop_posted (h : HandPkg) (t : Table) (hr : t.round = .PreFlop)
    (h2 : 2 ≤ occupiedSeats t) :
    ∃ button sb bb action t',
      setupRound h t = .ok t' ∧
      nextSeat t t.button = .ok button ∧
      (if occupiedSeats t = 2 then sb = button ∧ nextSeat t button = .ok bb
        else nextSeat t button = .ok sb ∧ nextSeat t sb = .ok bb) ∧
      sb ≠ bb ∧
      nextSeat t bb = .ok action ∧
      t'.button = button ∧ t'.active = some action ∧ t'.cost = t.options.Stakes.BigBlind ∧
      t'.round = .PreFlop ∧ t'.options = t.options ∧
      ∀ j, (seatAt t.seats j = none → seatAt t'.seats j = none) ∧
        ∀ p, seatAt t.seats j = some p →
          ∃ c, seatAt t'.seats j = some (p.posted c t.options sb bb j) := by
  have hiso := isSome_resetAction t.seats
  have hocc : occupiedSeats { t with seats := resetAction t.seats } = occupiedSeats t :=
    occupiedSeats_congr hiso
  have hns : ∀ s, nextSeat { t with seats := resetAction t.seats } s = nextSeat t s :=
    fun s => nextSeat_congr hiso s
  have h2r : 2 ≤ occupiedSeats { t with seats := resetAction t.seats } := by rw [hocc]; exact h2
  obtain ⟨i, hi⟩ := occupied_of_two h2r
  obtain ⟨button, sb, bb, action, hb, hblinds, ha, hset⟩ :=
    setupPreFlop_spec h { t with seats := resetAction t.seats } hi
  rw [hocc] at hblinds
  simp only [hns] at hb hblinds ha
  have hbo : occupied t.seats button = true := nextSeat_occupied hb
  have hne : sb ≠ bb := by
    by_cases hc : occupiedSeats t = 2
    · rw [if_pos hc] at hblinds
      obtain ⟨rfl, hbb⟩ := hblinds
      exact (nextSeat_ne_self hbo h2 hbb).symm
    · rw [if_neg hc] at hblinds
      obtain ⟨hsb, hbb⟩ := hblinds
      exact (nextSeat_ne_self (nextSeat_occupied hsb) h2 hbb).symm
  refine ⟨button, sb, bb, action, _, (setupRound_PreFlop hr).trans hset, hb, hblinds, hne, ha,
    rfl, rfl, rfl, hr, rfl, ?_⟩
  intro j
  simp only [seatAt_modifySeat]
  obtain ⟨hnone, hsome⟩ := dealSeats_seatAt h t.options.Stakes.Ante (resetAction t.seats)
    { id := t.dealer, pos := 0 } j
  constructor
  · intro hj
    have := hnone (by rw [seatAt_resetAction, hj]; rfl)
    rw [this]
    simp
  · intro p hp
    obtain ⟨c, hc⟩ := hsome { p with Acted := false } (by rw [seatAt_resetAction, hp]; rfl)
    refine ⟨c, ?_⟩
    rw [hc]
    unfold Player.posted
    have hdeal : Player.deal { p with Acted := false } c t.options.Stakes.Ante =
        p.deal c t.options.Stakes.Ante := rfl
    rw [hdeal]
    simp only
    split_ifs <;> rfl

/-- The table after the `PreFlop` case of `setupRound`, seat by seat, on a table with two
or more players. -/
theorem setupRound_PreFlop_players (h : HandPkg) (t : Table) (hr : t.round = .PreFlop)
    (h2 : 2 ≤ occupiedSeats t) :
    ∃ button sb bb action t',
      setupRound h t = .ok t' ∧
      nextSeat t t.button = .ok button ∧
      (if occupiedSeats t = 2 then sb = button ∧ nextSeat t button = .ok bb
        else nextSeat t button = .ok sb ∧ nextSeat t sb = .ok bb) ∧
      sb ≠ bb ∧
      nextSeat t bb = .ok action ∧
      t'.button = button ∧ t'.active = some action ∧ t'.cost = t.options.Stakes.BigBlind ∧
      t'.round = .PreFlop ∧
      ∀ j p', seatAt t'.seats j = some p' →
        p'.Folded = false ∧ p'.Acted = false ∧
        ∃ p, seatAt t.seats j = some p ∧ p'.Chips + p'.ChipsInPot = p.Chips ∧
          (t.options.Stakes.Ante < p.Chips → forcedBets t.options sb bb j < p.Chips →
            p'.Chips = p.Chips - forcedBets t.options sb bb j ∧
            p'.ChipsInPot = forcedBets t.options sb bb j ∧ p'.AllIn = false) := by
  obtain ⟨button, sb, bb, action, t', hs, hb, hblinds, hne, ha, e1, e2, e3, e4, -, hseat⟩ :=
    setupRound_PreFlop_posted h t hr h2
  refine ⟨button, sb, bb, action, t', hs, hb, hblinds, hne, ha, e1, e2, e3, e4, ?_⟩
  intro j p' hp'
  obtain ⟨hnone, hsome⟩ := hseat j
  cases hp : seatAt t.seats j with
  | none =>
    rw [hnone hp] at hp'
    cases hp'
  | some p =>
    obtain ⟨c, hc⟩ := hsome p hp
    rw [hc] at hp'
    cases hp'
    obtain ⟨f1, f2, f3, -, -⟩ := posted_flags p c t.options sb bb j
    refine ⟨f1, f2, p, rfl, f3, ?_⟩
    intro hante hforced
    exact posted_exact p c t.options hne hante hforced

theorem sitAll_frame (buyIn : Int) (ids : List String) :
    ∀ (t : Table) (i : Nat),
      (sitAll buyIn t i ids).button = t.button ∧ (sitAll buyIn t i ids).options = t.options := by
  induction ids with
  | nil => intro t i; exact ⟨rfl, rfl⟩
  | cons id ids ih =>
    intro t i
    unfold sitAll
    have hs : (Sit t (newPlayer id buyIn) (i : Int)).2.button = t.button ∧
        (Sit t (newPlayer id buyIn) (i : Int)).2.options = t.options := by
      rw [Sit_eq]
      split
      · exact ⟨rfl, rfl⟩
      · split <;> exact ⟨rfl, rfl⟩
    obtain ⟨h1, h2⟩ := ih (Sit t (newPlayer id buyIn) (i : Int)).2 (i + 1)
    exact ⟨h1.trans hs.1, h2.trans hs.2⟩

theorem countP_lt_range (k n : Nat) (hk : k ≤ n) :
    (List.range n).countP (fun j => decide (j < k)) = k := by
  induction n with
  | zero =>
    have : k = 0 := by omega
    subst this
    rfl
  | succ n ih =>
    rw [List.range_succ, List.countP_append]
    by_cases hkn : k ≤ n
    · rw [ih hkn]
      simp
      omega
    · have hk1 : k = n + 1 := by omega
      subst hk1
      have hall : (List.range n).countP (fun j => decide (j < n + 1)) = (List.range n).length := by
        rw [List.countP_eq_length]
        intro a ha
        have := List.mem_range.mp ha
        simp
        omega
      rw [hall]
      simp

/-- The table `New` hands to `setupRound`: the first `k` seats hold the `k` players with
the buy-in as their stack. -/
theorem sitAll_new (opts : Options) (numSeats : Nat) (st : Status) (ids : List String)
    (hk : ids.length ≤ numSeats) :
    (sitAll opts.BuyIn (newTable opts numSeats st) 0 ids).round = .PreFlop ∧
      (sitAll opts.BuyIn (newTable opts numSeats st) 0 ids).button = 0 ∧
      (sitAll opts.BuyIn (newTable opts numSeats st) 0 ids).options = opts ∧
      occupiedSeats (sitAll opts.BuyIn (newTable opts numSeats st) 0 ids) = ids.length ∧
      (∀ j, j < ids.length →
        ∃ p, seatAt (sitAll opts.BuyIn (newTable opts numSeats st) 0 ids).seats j = some p ∧
          p.Chips = opts.BuyIn) := by
  obtain ⟨hlen, hround, hseat⟩ := sitAll_spec opts.BuyIn ids (newTable opts numSeats st) 0
    (fun j _ => seatAt_replicate_none numSeats j)
  have hframe := sitAll_frame opts.BuyIn ids (newTable opts numSeats st) 0
  have hN : (newTable opts numSeats st).seats.length = numSeats := by simp [newTable]
  rw [hN] at hlen
  simp only [hN, Nat.zero_le, true_and, Nat.zero_add, Nat.sub_zero] at hseat
  refine ⟨hround, ?_, ?_, ?_, ?_⟩
  · exact hframe.1
  · exact hframe.2
  · unfold occupiedSeats
    have hmap : (List.range numSeats).map
        (seatAt (sitAll opts.BuyIn (newTable opts numSeats st) 0 ids).seats) =
        (sitAll opts.BuyIn (newTable opts numSeats st) 0 ids).seats := by
      apply List.ext_getElem
      · simp [hlen]
      · intro i h1 h2
        simp [seatAt, List.getElem?_eq_getElem h2]
    conv_lhs => rw [← hmap, List.countP_map]
    rw [← countP_lt_range ids.length numSeats hk]
    apply List.countP_congr
    intro j hj
    have hjN := List.mem_range.mp hj
    simp only [Function.comp, hseat j]
    by_cases hjk : j < ids.length
    · simp [hjk, hjN, List.getElem?_eq_getElem hjk]
    · have : seatAt (newTable opts numSeats st).seats j = none := seatAt_replicate_none numSeats j
      simp [hjk, this]
  · intro j hj
    rw [hseat j, if_pos ⟨hj, by omega⟩, List.getElem?_eq_getElem hj]
    exact ⟨_, rfl, rfl⟩

/-- C11. The `PreFlop` setup on a table with two or more players returns, moves the button
to the next occupied seat after the previous button, has the small blind posted by the next
occupied seat after the button and the big blind by the next one after that when three or
more players are seated, and by the button and the other player when exactly two are; the
two blinds are posted by different seats, the active seat is the next occupied seat after
the big blind and `cost` is the big blind.  Every player comes out with the flags `Folded`
and `Acted` cleared and with `Chips + ChipsInPot` equal to the stack before; a player
whose stack is larger than the ante and than all the forced bets of the seat holds the
stack less those bets, has exactly them in `ChipsInPot` and is not all-in.  Hence in a
table returned by `New` for two or more players whose buy-in is larger than the forced
bets, the small-blind player holds `BuyIn - Ante - SmallBlind`, the big-blind player
`BuyIn - Ante - BigBlind` and every other player `BuyIn - Ante`; in the test table the
chips are 98, 100, 99 and seat 1 is active. -/
theorem preflop_setup_posts_blinds (h : HandPkg) (t : Table) (opts : Options) (numSeats : Nat)
    (ids : List String) :
    (t.round = .PreFlop → 2 ≤ occupiedSeats t →
      ∃ button sb bb action t',
        setupRound h t = .ok t' ∧
        nextSeat t t.button = .ok button ∧
        (if occupiedSeats t = 2 then sb = button ∧ nextSeat t button = .ok bb
          else nextSeat t button = .ok sb ∧ nextSeat t sb = .ok bb) ∧
        sb ≠ bb ∧
        nextSeat t bb = .ok action ∧
        t'.button = button ∧ t'.active = some action ∧ t'.cost = t.options.Stakes.BigBlind ∧
        t'.round = .PreFlop ∧
        ∀ j p', seatAt t'.seats j = some p' →
          p'.Folded = false ∧ p'.Acted = false ∧
          ∃ p, seatAt t.seats j = some p ∧ p'.Chips + p'.ChipsInPot = p.Chips ∧
            (t.options.Stakes.Ante < p.Chips → forcedBets t.options sb bb j < p.Chips →
              p'.Chips = p.Chips - forcedBets t.options sb bb j ∧
              p'.ChipsInPot = forcedBets t.options sb bb j ∧ p'.AllIn = false)) ∧
    (2 ≤ ids.length → ids.length ≤ numSeats → opts.Stakes.Ante < opts.BuyIn →
      opts.Stakes.Ante + opts.Stakes.SmallBlind < opts.BuyIn →
      opts.Stakes.Ante + opts.Stakes.BigBlind < opts.BuyIn →
      ∃ sb bb action t',
        New h opts numSeats ids = .ok t' ∧
        nextSeat t' 0 = .ok t'.button ∧
        (if ids.length = 2 then sb = t'.button ∧ nextSeat t' t'.button = .ok bb
          else nextSeat t' t'.button = .ok sb ∧ nextSeat t' sb = .ok bb) ∧
        sb ≠ bb ∧
        nextSeat t' bb = .ok action ∧ t'.active = some action ∧
        t'.cost = opts.Stakes.BigBlind ∧
        ∀ j, j < ids.length →
          ∃ p, seatAt t'.seats j = some p ∧
            p.Chips =
              if j = sb then opts.BuyIn - opts.Stakes.Ante - opts.Stakes.SmallBlind
              else if j = bb then opts.BuyIn - opts.Stakes.Ante - opts.Stakes.BigBlind
              else opts.BuyIn - opts.Stakes.Ante) ∧
    (∃ t', New plainHands testOptions 3 ["a", "b", "c"] = .ok t' ∧
      t'.seats.map (Option.map fun p => p.Chips) = [some 98, some 100, some 99] ∧
      t'.active = some 1) := by
  refine ⟨fun hr h2 => setupRound_PreFlop_players h t hr h2, ?_,
    ⟨_, New_threePerson100Buyin, rfl, rfl⟩⟩
  intro hk2 hkN hante hsmall hbig
  obtain ⟨hround, hbutton, hopts, hocc, hseat⟩ := sitAll_new opts numSeats
    (if ids.length < 2 then Status.Waiting else Status.Dealing) ids hkN
  have hnew : New h opts numSeats ids = setupRound h (sitAll opts.BuyIn
      (newTable opts numSeats (if ids.length < 2 then Status.Waiting else Status.Dealing))
      0 ids) := rfl
  obtain ⟨button, sb, bb, action, t', hs, hb, hblinds, hne, ha, e1, e2, e3, -, hplayers⟩ :=
    setupRound_PreFlop_players h _ hround (by rw [hocc]; exact hk2)
  have hiso := setupRound_isSome hs
  have hns : ∀ s, nextSeat t' s = nextSeat (sitAll opts.BuyIn
      (newTable opts numSeats (if ids.length < 2 then Status.Waiting else Status.Dealing))
      0 ids) s := fun s => nextSeat_congr hiso s
  rw [hocc] at hblinds
  rw [hbutton] at hb
  rw [hopts] at e3 hplayers
  refine ⟨sb, bb, action, t', hnew.trans hs, ?_, ?_, hne, ?_, e2, e3, ?_⟩
  · rw [hns, e1]
    exact hb
  · simp only [hns, e1]
    exact hblinds
  · rw [hns]
    exact ha
  · intro j hj
    obtain ⟨p, hp, hchips⟩ := hseat j hj
    have hocc' : occupied t'.seats j = true := by
      rw [occupied_congr hiso]
      simp [occupied, hp]
    cases hp' : seatAt t'.seats j with
    | none => simp [occupied, hp'] at hocc'
    | some p' =>
      obtain ⟨-, -, q, hq, -, hexact⟩ := hplayers j p' hp'
      rw [hp] at hq
      cases hq
      rw [hchips] at hexact
      have hforced : forcedBets opts sb bb j < opts.BuyIn := by
        unfold forcedBets
        split_ifs with c1 c2
        · exact absurd (c1.symm.trans c2) hne
        · omega
        · omega
        · omega
      obtain ⟨hc, -, -⟩ := hexact hante hforced
      refine ⟨p', rfl, ?_⟩
      rw [hc]
      unfold forcedBets
      split_ifs with c1 c2
      · exact absurd (c1.symm.trans c2) hne
      · omega
      · omega
      · omega

/-- Witness of C11: three players at the test stakes. -/
theorem preflop_setup_posts_blinds_witness :
    ∃ sb bb action t',
      New plainHands testOptions 3 ["a", "b", "c"] = .ok t' ∧
      nextSeat t' 0 = .ok t'.button ∧
      (if ["a", "b", "c"].length = 2 then sb = t'.button ∧ nextSeat t' t'.button = .ok bb
        else nextSeat t' t'.button = .ok sb ∧ nextSeat t' sb = .ok bb) ∧
      sb ≠ bb ∧
      nextSeat t' bb = .ok action ∧ t'.active = some action ∧
      t'.cost = testOptions.Stakes.BigBlind ∧
      ∀ j, j < ["a", "b", "c"].length →
        ∃ p, seatAt t'.seats j = some p ∧
          p.Chips =
            if j = sb then testOptions.BuyIn - testOptions.Stakes.Ante - testOptions.Stakes.SmallBlind
            else if j = bb then
              testOptions.BuyIn - testOptions.Stakes.Ante - testOptions.Stakes.BigBlind
            else testOptions.BuyIn - testOptions.Stakes.Ante :=
  (preflop_setup_posts_blinds plainHands threePerson100Buyin testOptions 3 ["a", "b", "c"]).2.1
    (by decide) (by decide) (by decide) (by decide) (by decide)

/-! ## The frame of the settlement and of a round change -/

theorem map_creditWinners {β : Type} (g : Option Player → β)
    (hg : ∀ (p : Player) (c : Int) (n i : Nat), g (some (p.credit c n i)) = g (some p))
    (chips : Int) (n : Nat) (ws : List Nat) :
    ∀ (i : Nat) (seats : List (Option Player)),
      (creditWinners chips n i ws seats).map g = seats.map g := by
  induction ws with
  | nil => intro i seats; rfl
  | cons w ws ih =>
    intro i seats
    unfold creditWinners
    rw [ih, map_modifySeat g _ (by intro p; exact hg p chips n i)]

theorem settlePot_frame {h : HandPkg} {t t' : Table} {pot : sidePot}
    (hs : settlePot h t pot = .ok t') :
    ∃ order, t' = { t with seats := creditWinners pot.chips order.length 0 order t.seats } := by
  unfold settlePot at hs
  split at hs
  · cases hs
  · unfold payWinners at hs
    split at hs
    · cases hs
    · rename_i order _
      cases hs
      exact ⟨order, rfl⟩

theorem settlePots_frame {β : Type} (g : Option Player → β)
    (hg : ∀ (p : Player) (c : Int) (n i : Nat), g (some (p.credit c n i)) = g (some p))
    (h : HandPkg) (ps : List sidePot) :
    ∀ (t t' : Table), settlePots h t ps = .ok t' →
      t' = { t with seats := t'.seats } ∧ t'.seats.map g = t.seats.map g := by
  induction ps with
  | nil =>
    intro t t' hs
    simp only [settlePots] at hs
    cases hs
    exact ⟨rfl, rfl⟩
  | cons pot ps ih =>
    intro t t' hs
    simp only [settlePots] at hs
    split at hs
    · cases hs
    · rename_i t1 h1
      obtain ⟨order, rfl⟩ := settlePot_frame h1
      obtain ⟨e1, e2⟩ := ih _ t' hs
      refine ⟨e1, ?_⟩
      rw [e2]
      exact map_creditWinners g hg _ _ _ _ _

theorem payout_frame {β : Type} (g : Option Player → β)
    (hg : ∀ (p : Player) (c : Int) (n i : Nat), g (some (p.credit c n i)) = g (some p))
    {h : HandPkg} {t t' : Table} (hp : payout h t = .ok t') :
    t' = { t with seats := t'.seats } ∧ t'.seats.map g = t.seats.map g := by
  unfold payout at hp
  split at hp
  · cases hp
  · split at hp
    · cases hp
    · exact settlePots_frame g hg h _ t t' hp

theorem payout_isSome {h : HandPkg} {t t' : Table} (hp : payout h t = .ok t') :
    t' = { t with seats := t'.seats } ∧ t'.seats.map Option.isSome = t.seats.map Option.isSome :=
  payout_frame _ (by intro p c n i; rfl) hp

theorem applyAction_frame {t t1 : Table} {a : Action} (h : applyAction t a = .ok t1) :
    t1.button = t.button ∧ t1.round = t.round ∧ t1.options = t.options ∧
      t1.seats.map Option.isSome = t.seats.map Option.isSome := by
  obtain ⟨i, p, o, t2, p1, -, -, -, h2, -, -, ht1⟩ := applyAction_spec h
  refine ⟨by rw [ht1], by rw [ht1], by rw [ht1], ?_⟩
  have hseats : t1.seats = modifySeat (fun p => { p with Acted := true }) i t2.seats := by
    rw [ht1]
  rw [hseats, map_modifySeat _ _ (by intro p; rfl)]
  exact applyType_map _ (by intro p; rfl) (by intro p; rfl) (by intro p n; rfl) h2

theorem nextToActLoop_none (t : Table) :
    ∀ (fuel count seat : Nat), nextToActLoop t fuel count seat = .ok none →
      2 ≤ occupiedSeats t := by
  intro fuel
  induction fuel with
  | zero =>
    intro count seat h
    simp [nextToActLoop] at h
  | succ f ih =>
    intro count seat h
    unfold nextToActLoop at h
    split at h
    · cases h
    · split at h
      · cases h
      · split at h
        · cases h
        · split at h
          · rename_i hc
            omega
          · exact ih _ _ h

theorem nextToAct_none {t : Table} (h : nextToAct t = .ok none) : 2 ≤ occupiedSeats t := by
  unfold nextToAct at h
  split at h
  · cases h
  · exact nextToActLoop_none t _ _ _ h

/-- What `setupRound` does in a round other than `PreFlop`. -/
theorem setupRound_of_ne {h : HandPkg} {t t' : Table} (hr : t.round ≠ .PreFlop)
    (hs : setupRound h t = .ok t') :
    t'.seats = resetAction t.seats ∧ t'.button = t.button ∧ t'.round = t.round ∧
      t'.cost = t.cost ∧ t'.options = t.options := by
  refine ⟨setupRound_seats_of_ne hr hs, ?_⟩
  unfold setupRound at hs
  simp only at hs
  split at hs
  · rename_i heq
    exact absurd heq hr
  · split at hs
    · cases hs
    · simp only [bind, Except.bind] at hs
      split at hs
      · cases hs
      · rw [setActive_frame hs]
        exact ⟨rfl, rfl, rfl, rfl⟩
  · split at hs
    · cases hs
    · simp only [bind, Except.bind] at hs
      split at hs
      · cases hs
      · rw [setActive_frame hs]
        exact ⟨rfl, rfl, rfl, rfl⟩

/-! ## The round transition -/

set_option maxRecDepth 100000 in
/-- C14, as stated, fails on a player who cannot cover the forced bets.  Two players go
all-in for 100 each and check the hand down; the `Check` on the river closes the round and
ends the hand, seat 1 wins both stacks, and in the hand dealt next seat 0 (stack 0, small
blind 1) is all-in with nothing in `ChipsInPot`. -/
theorem closure_leaves_broke_player_allIn :
    actAll sumHands headsUp [⟨.AllIn, 0⟩, ⟨.Call, 0⟩, ⟨.Check, 0⟩, ⟨.Check, 0⟩] =
        .ok (some showdownRiver) ∧
      Act sumHands showdownRiver ⟨.Check, 0⟩ = .ok (none, afterShowdown) ∧
      roundStaysOpen showdownRiver ⟨.Check, 0⟩ = false ∧
      showdownRiver.round = .River ∧ afterShowdown.round = .PreFlop ∧
      afterShowdown.button = 0 ∧
      (seatAt afterShowdown.seats 0).map (fun p => (p.AllIn, p.Chips, p.ChipsInPot)) =
        some (true, 0, 0) ∧
      forcedBets afterShowdown.options 0 1 0 = 1 :=
  ⟨rfl, rfl, rfl, rfl, rfl, rfl, rfl, rfl⟩

/-- C14, amended.  When an accepted action closes the betting round (`nextToAct` finds
nobody on the table `t1` the action leaves), then: if exactly one player has not folded or
the round is River, the settlement runs on `t1`, the round becomes PreFlop, the button
moves to the next occupied seat after the old button and a new hand is dealt from the
settled table: every seated player has `Folded` cleared and `Chips + ChipsInPot` equal to
the stack after the settlement, and a player whose stack is larger than the ante and than
the forced bets of the seat has `AllIn` cleared and exactly the forced bets in
`ChipsInPot`.  Otherwise the round becomes the next of PreFlop, Flop, Turn, River, no
settlement runs, and the button and every player are as the action left them but for the
flag `Acted`.  In both cases every seated player's flag `Acted` is false afterwards. -/
theorem round_transition_on_closure (h : HandPkg) (t t' : Table) (a : Action)
    (hacc : Act h t a = .ok (none, t')) (hclose : roundStaysOpen t a = false) :
    ∃ t1, applyAction t a = .ok t1 ∧ nextToAct t1 = .ok none ∧
      (endsHand t1 = true →
        ∃ t2 sb bb,
          payout h t1 = .ok t2 ∧ setupRound h { t2 with round := .PreFlop } = .ok t' ∧
          t'.round = .PreFlop ∧ nextSeat t t.button = .ok t'.button ∧
          (if occupiedSeats t = 2 then sb = t'.button ∧ nextSeat t t'.button = .ok bb
            else nextSeat t t'.button = .ok sb ∧ nextSeat t sb = .ok bb) ∧
          ∀ j p', seatAt t'.seats j = some p' →
            p'.Folded = false ∧
            ∃ p2, seatAt t2.seats j = some p2 ∧ p'.Chips + p'.ChipsInPot = p2.Chips ∧
              (t.options.Stakes.Ante < p2.Chips → forcedBets t.options sb bb j < p2.Chips →
                p'.AllIn = false ∧ p'.ChipsInPot = forcedBets t.options sb bb j)) ∧
      (endsHand t1 = false →
        setupRound h { t1 with round := t1.round.next } = .ok t' ∧
        t.round ≠ .River ∧ t'.round = t.round.next ∧ t'.button = t.button ∧
        ∀ j, seatAt t'.seats j = (seatAt t1.seats j).map fun p => { p with Acted := false }) ∧
      ∀ j p', seatAt t'.seats j = some p' → p'.Acted = false := by
  obtain ⟨t1, happ, hupd⟩ := Act_accepted hacc
  obtain ⟨hbut1, hround1, hopts1, hiso1⟩ := applyAction_frame happ
  have hnone : nextToAct t1 = .ok none := by
    unfold roundStaysOpen at hclose
    rw [happ] at hclose
    unfold update at hupd
    cases hn : nextToAct t1 with
    | error e => rw [hn] at hupd; cases hupd
    | ok r =>
      cases r with
      | none => rfl
      | some s =>
        simp only [hn] at hclose
        cases hclose
  have hprog : progress h t1 = .ok t' := by
    unfold update at hupd
    rw [hnone] at hupd
    exact hupd
  have hocc1 : 2 ≤ occupiedSeats t1 := nextToAct_none hnone
  have hends : endsHand t1 = true →
      ∃ t2 sb bb,
        payout h t1 = .ok t2 ∧ setupRound h { t2 with round := .PreFlop } = .ok t' ∧
        t'.round = .PreFlop ∧ nextSeat t t.button = .ok t'.button ∧
        (if occupiedSeats t = 2 then sb = t'.button ∧ nextSeat t t'.button = .ok bb
          else nextSeat t t'.button = .ok sb ∧ nextSeat t sb = .ok bb) ∧
        ∀ j p', seatAt t'.seats j = some p' →
          (p'.Folded = false ∧
          ∃ p2, seatAt t2.seats j = some p2 ∧ p'.Chips + p'.ChipsInPot = p2.Chips ∧
            (t.options.Stakes.Ante < p2.Chips → forcedBets t.options sb bb j < p2.Chips →
              p'.AllIn = false ∧ p'.ChipsInPot = forcedBets t.options sb bb j)) ∧
          p'.Acted = false := by
    intro he
    unfold progress at hprog
    rw [if_pos he] at hprog
    cases hp : payout h t1 with
    | error e => rw [hp] at hprog; cases hprog
    | ok t2 =>
      rw [hp] at hprog
      simp only at hprog
      obtain ⟨hframe2, hiso2⟩ := payout_isSome hp
      have hiso : t2.seats.map Option.isSome = t.seats.map Option.isSome := hiso2.trans hiso1
      have hbut2 : t2.button = t.button := by rw [hframe2]; exact hbut1
      have hopts2 : t2.options = t.options := by rw [hframe2]; exact hopts1
      have hoccEq : occupiedSeats { t2 with round := .PreFlop } = occupiedSeats t :=
        occupiedSeats_congr hiso
      have hns : ∀ s, nextSeat { t2 with round := .PreFlop } s = nextSeat t s :=
        fun s => nextSeat_congr hiso s
      have hocc2 : 2 ≤ occupiedSeats { t2 with round := .PreFlop } := by
        rw [hoccEq, ← occupiedSeats_congr hiso1]
        exact hocc1
      obtain ⟨button, sb, bb, action, t'', hs, hb, hblinds, -, -, e1, -, -, e4, hplayers⟩ :=
        setupRound_PreFlop_players h { t2 with round := .PreFlop } rfl hocc2
      rw [hs] at hprog
      cases hprog
      rw [hoccEq] at hblinds
      simp only [hns] at hb hblinds
      simp only [hbut2] at hb
      simp only [hopts2] at hplayers
      refine ⟨t2, sb, bb, rfl, hs, e4, ?_, ?_, ?_⟩
      · rw [e1]
        exact hb
      · rw [e1]
        exact hblinds
      · intro j p' hp'
        obtain ⟨f1, f2, p2, hp2, hsum, hexact⟩ := hplayers j p' hp'
        refine ⟨⟨f1, p2, hp2, hsum, ?_⟩, f2⟩
        intro hante hforced
        obtain ⟨-, c2, c3⟩ := hexact hante hforced
        exact ⟨c3, c2⟩
  have hgoes : endsHand t1 = false →
      setupRound h { t1 with round := t1.round.next } = .ok t' ∧
      t.round ≠ .River ∧ t'.round = t.round.next ∧ t'.button = t.button ∧
      ∀ j, seatAt t'.seats j = (seatAt t1.seats j).map fun p => { p with Acted := false } := by
    intro he
    have hriver : t1.round ≠ .River := by
      intro hc
      simp [endsHand, hc] at he
    unfold progress at hprog
    rw [if_neg (by rw [he]; simp)] at hprog
    have hne : ({ t1 with round := t1.round.next } : Table).round ≠ .PreFlop := by
      show t1.round.next ≠ .PreFlop
      cases hr : t1.round
      · simp [Round.next]
      · simp [Round.next]
      · simp [Round.next]
      · exact absurd hr hriver
    obtain ⟨s1, s2, s3, -, -⟩ := setupRound_of_ne hne hprog
    refine ⟨hprog, by rw [← hround1]; exact hriver, by rw [s3, ← hround1],
      by rw [s2, ← hbut1], ?_⟩
    intro j
    rw [s1]
    exact seatAt_resetAction _ j
  refine ⟨t1, happ, hnone, ?_, hgoes, ?_⟩
  · intro he
    obtain ⟨t2, sb, bb, c1, c2, c3, c4, c5, c6⟩ := hends he
    exact ⟨t2, sb, bb, c1, c2, c3, c4, c5, fun j p' hp' => (c6 j p' hp').1⟩
  · intro j p' hp'
    cases he : endsHand t1 with
    | true =>
      obtain ⟨t2, sb, bb, -, -, -, -, -, c6⟩ := hends he
      exact (c6 j p' hp').2
    | false =>
      obtain ⟨-, -, -, -, c5⟩ := hgoes he
      rw [c5 j] at hp'
      cases hq : seatAt t1.seats j with
      | none => rw [hq] at hp'; cases hp'
      | some q =>
        rw [hq] at hp'
        cases hp'
        rfl

set_option maxRecDepth 100000 in
/-- Witness of C14: the `Check` that ends the hand on `showdownRiver`. -/
theorem round_transition_on_closure_witness :
    ∃ t1, applyAction showdownRiver ⟨.Check, 0⟩ = .ok t1 ∧ nextToAct t1 = .ok none ∧
      (endsHand t1 = true →
        ∃ t2 sb bb,
          payout sumHands t1 = .ok t2 ∧
          setupRound sumHands { t2 with round := .PreFlop } = .ok afterShowdown ∧
          afterShowdown.round = .PreFlop ∧
          nextSeat showdownRiver showdownRiver.button = .ok afterShowdown.button ∧
          (if occupiedSeats showdownRiver = 2 then
              sb = afterShowdown.button ∧ nextSeat showdownRiver afterShowdown.button = .ok bb
            else nextSeat showdownRiver afterShowdown.button = .ok sb ∧
              nextSeat showdownRiver sb = .ok bb) ∧
          ∀ j p', seatAt afterShowdown.seats j = some p' →
            p'.Folded = false ∧
            ∃ p2, seatAt t2.seats j = some p2 ∧ p'.Chips + p'.ChipsInPot = p2.Chips ∧
              (showdownRiver.options.Stakes.Ante < p2.Chips →
                forcedBets showdownRiver.options sb bb j < p2.Chips →
                p'.AllIn = false ∧ p'.ChipsInPot = forcedBets showdownRiver.options sb bb j)) ∧
      (endsHand t1 = false →
        setupRound sumHands { t1 with round := t1.round.next } = .ok afterShowdown ∧
        showdownRiver.round ≠ .River ∧ afterShowdown.round = showdownRiver.round.next ∧
        afterShowdown.button = showdownRiver.button ∧
        ∀ j, seatAt afterShowdown.seats j =
          (seatAt t1.seats j).map fun p => { p with Acted := false }) ∧
      ∀ j p', seatAt afterShowdown.seats j = some p' → p'.Acted = false :=
  round_transition_on_closure sumHands showdownRiver afterShowdown ⟨.Check, 0⟩ rfl rfl

/-! ## Chip counts stay non-negative -/

theorem contribute_solvent {p : Player} {n : Int} (hp : p.solvent) (hn : 0 ≤ p.ChipsInPot + n) :
    (p.contribute n).solvent := by
  unfold Player.solvent at *
  unfold Player.contribute
  split
  · simp only
    omega
  · simp only
    omega

theorem solvent_modifySeat {f : Player → Player} {i : Nat} {s : List (Option Player)}
    (hs : ∀ j p, seatAt s j = some p → p.solvent)
    (hf : ∀ p, seatAt s i = some p → (f p).solvent) :
    ∀ j p, seatAt (modifySeat f i s) j = some p → p.solvent := by
  intro j p hp
  rw [seatAt_modifySeat] at hp
  split at hp
  · rename_i hji
    subst hji
    cases hq : seatAt s j with
    | none => rw [hq] at hp; cases hp
    | some q =>
      rw [hq] at hp
      cases hp
      exact hf q hq
  · exact hs j p hp

theorem solvent_resetAction {s : List (Option Player)}
    (hs : ∀ j p, seatAt s j = some p → p.solvent) :
    ∀ j p, seatAt (resetAction s) j = some p → p.solvent := by
  intro j p hp
  rw [seatAt_resetAction] at hp
  cases hq : seatAt s j with
  | none => rw [hq] at hp; cases hp
  | some q =>
    rw [hq] at hp
    cases hp
    exact hs j q hq

theorem solvent_creditWinners {chips : Int} (hc : 0 ≤ chips) (n : Nat) (ws : List Nat) :
    ∀ (i : Nat) (s : List (Option Player)), (∀ j p, seatAt s j = some p → p.solvent) →
      ∀ j p, seatAt (creditWinners chips n i ws s) j = some p → p.solvent := by
  induction ws with
  | nil => intro i s hs; exact hs
  | cons w ws ih =>
    intro i s hs
    unfold creditWinners
    apply ih
    apply solvent_modifySeat hs
    intro p hp
    have hsol := hs w p hp
    rw [credit_eq]
    unfold Player.solvent at *
    have hdiv : 0 ≤ chips.tdiv n := Int.tdiv_nonneg hc (Int.ofNat_nonneg n)
    simp only
    split <;> omega

theorem settlePots_ChipsOK (h : HandPkg) (ps : List sidePot) :
    ∀ (t t' : Table), (∀ pot ∈ ps, 0 ≤ pot.chips) → ChipsOK t → settlePots h t ps = .ok t' →
      ChipsOK t' := by
  induction ps with
  | nil =>
    intro t t' _ hok hs
    simp only [settlePots] at hs
    cases hs
    exact hok
  | cons pot ps ih =>
    intro t t' hps hok hs
    simp only [settlePots] at hs
    split at hs
    · cases hs
    · rename_i t1 h1
      obtain ⟨order, rfl⟩ := settlePot_frame h1
      refine ih _ t' (fun q hq => hps q (List.mem_cons_of_mem _ hq)) ?_ hs
      obtain ⟨a1, a2, a3, a4, a5⟩ := hok
      exact ⟨a1, a2, a3, a4,
        solvent_creditWinners (hps pot (List.mem_cons_self _ _)) _ _ _ _ a5⟩

theorem payout_ChipsOK {h : HandPkg} {t t' : Table} (hok : ChipsOK t)
    (hp : payout h t = .ok t') : ChipsOK t' := by
  unfold payout at hp
  split at hp
  · cases hp
  · split at hp
    · cases hp
    · rename_i ps hps
      unfold pots at hps
      exact settlePots_ChipsOK h ps t t' (potsLoop_nonneg t _ _ 0 ps hps) hok hp

theorem deal_solvent {p : Player} (c : List Card) {ante : Int} (hp : p.solvent)
    (hante : 0 ≤ ante) : (p.deal c ante).solvent := by
  unfold Player.deal
  apply contribute_solvent
  · exact ⟨hp.1, le_refl _⟩
  · simp only
    omega

theorem setupRound_ChipsOK {h : HandPkg} {t t' : Table}
    (hante : 0 ≤ t.options.Stakes.Ante) (hsb : 0 ≤ t.options.Stakes.SmallBlind)
    (hbb : 0 ≤ t.options.Stakes.BigBlind) (hcost : t.round ≠ .PreFlop → 0 ≤ t.cost)
    (hseats : ∀ j p, seatAt t.seats j = some p → p.solvent)
    (hs : setupRound h t = .ok t') : ChipsOK t' := by
  by_cases hr : t.round = .PreFlop
  · rw [setupRound_PreFlop hr] at hs
    have hb : ∃ b, nextSeat { t with seats := resetAction t.seats } t.button = .ok b := by
      unfold setupPreFlop at hs
      simp only [bind, Except.bind] at hs
      split at hs
      · cases hs
      · rename_i b hb
        exact ⟨b, hb⟩
    obtain ⟨b, hb⟩ := hb
    obtain ⟨button, sb, bb, action, -, -, -, hset⟩ :=
      setupPreFlop_spec h { t with seats := resetAction t.seats } (nextSeat_occupied hb)
    rw [hset] at hs
    cases hs
    refine ⟨hante, hsb, hbb, hbb, ?_⟩
    have hdealt : ∀ j p, seatAt (dealSeats h t.options.Stakes.Ante { id := t.dealer, pos := 0 }
        (resetAction t.seats)).2 j = some p → p.solvent := by
      intro j p hp
      obtain ⟨hnone, hsome⟩ := dealSeats_seatAt h t.options.Stakes.Ante (resetAction t.seats)
        { id := t.dealer, pos := 0 } j
      cases hq : seatAt (resetAction t.seats) j with
      | none => rw [hnone hq] at hp; cases hp
      | some q =>
        obtain ⟨c, hc⟩ := hsome q hq
        rw [hc] at hp
        cases hp
        exact deal_solvent c (solvent_resetAction hseats j q hq) hante
    apply solvent_modifySeat
    · apply solvent_modifySeat hdealt
      intro p hp
      have := hdealt sb p hp
      exact contribute_solvent this
        (by have := this.2; show 0 ≤ p.ChipsInPot + t.options.Stakes.SmallBlind; omega)
    · intro p hp
      have := solvent_modifySeat hdealt
        (fun q hq => contribute_solvent (hdealt sb q hq)
          (by have := (hdealt sb q hq).2; show 0 ≤ q.ChipsInPot + t.options.Stakes.SmallBlind; omega))
        bb p hp
      exact contribute_solvent this
        (by have := this.2; show 0 ≤ p.ChipsInPot + t.options.Stakes.BigBlind; omega)
  · obtain ⟨s1, -, -, s4, s5⟩ := setupRound_of_ne hr hs
    refine ⟨by rw [s5]; exact hante, by rw [s5]; exact hsb, by rw [s5]; exact hbb,
      by rw [s4]; exact hcost hr, ?_⟩
    rw [s1]
    exact solvent_resetAction hseats

theorem applyType_solvent {t t2 : Table} {i : Nat} {p : Player} {a : Action}
    (hok : ChipsOK t) (hp : seatAt t.seats i = some p)
    (h2 : applyType t i (t.cost - p.ChipsInPot) a = .ok t2) :
    ∀ j q, seatAt t2.seats j = some q → q.solvent := by
  obtain ⟨-, -, hbb, hcost, hseats⟩ := hok
  have hfirst : ∀ q, seatAt t.seats i = some q →
      (q.contribute (t.cost - p.ChipsInPot)).solvent := by
    intro q hq
    rw [hp] at hq
    cases hq
    exact contribute_solvent (hseats i p hp) (by omega)
  unfold applyType at h2
  split at h2
  · cases h2
    apply solvent_modifySeat hseats
    intro q hq
    exact hseats i q hq
  · cases h2
    exact hseats
  · cases h2
    exact solvent_modifySeat hseats hfirst
  · cases h2
    apply solvent_resetAction
    apply solvent_modifySeat hseats
    intro q hq
    have h1 := hfirst q hq
    exact contribute_solvent h1 (by have := h1.1; have := h1.2; omega)
  · split at h2
    · cases h2
    · rename_i total htotal
      cases h2
      apply solvent_resetAction
      apply solvent_modifySeat hseats
      intro q hq
      have h1 := hfirst q hq
      have hsize : 0 ≤ betSize t a.Chips total := by
        rw [betSize_eq_spec]
        exact specBetAmount_nonneg _ hbb (chipsInPots_nonneg htotal)
      exact contribute_solvent h1 (by have := h1.2; omega)

theorem applyAction_ChipsOK {t t1 : Table} {a : Action} (hok : ChipsOK t)
    (h : applyAction t a = .ok t1) : ChipsOK t1 := by
  obtain ⟨i, p, o, t2, p1, -, hp, ho, h2, hp1, -, ht1⟩ := applyAction_spec h
  subst ho
  have hs2 := applyType_solvent hok hp h2
  obtain ⟨a1, a2, a3, a4, -⟩ := hok
  have hs1 : ∀ j q, seatAt (modifySeat (fun p => { p with Acted := true }) i t2.seats) j =
      some q → q.solvent := by
    apply solvent_modifySeat hs2
    intro q hq
    exact hs2 i q hq
  rw [ht1]
  refine ⟨a1, a2, a3, ?_, hs1⟩
  show 0 ≤ (if p1.ChipsInPot > t.cost then p1.ChipsInPot else t.cost)
  split
  · exact (hs1 i p1 hp1).2
  · exact a4

theorem progress_ChipsOK {h : HandPkg} {t t' : Table} (hok : ChipsOK t)
    (hp : progress h t = .ok t') : ChipsOK t' := by
  unfold progress at hp
  split at hp
  · split at hp
    · cases hp
    · rename_i t2 h2
      obtain ⟨a1, a2, a3, a4, a5⟩ := payout_ChipsOK hok h2
      exact @setupRound_ChipsOK h { t2 with round := .PreFlop } t' a1 a2 a3 (fun _ => a4) a5 hp
  · obtain ⟨a1, a2, a3, a4, a5⟩ := hok
    exact @setupRound_ChipsOK h { t with round := t.round.next } t' a1 a2 a3 (fun _ => a4) a5 hp

theorem update_ChipsOK {h : HandPkg} {t t' : Table} (hok : ChipsOK t)
    (hu : update h t = .ok t') : ChipsOK t' := by
  unfold update at hu
  split at hu
  · cases hu
  · rw [setActive_frame hu]
    exact hok
  · exact progress_ChipsOK hok hu

theorem Act_ChipsOK {h : HandPkg} {t t' : Table} {a : Action} {e : Option TableError}
    (hok : ChipsOK t) (hact : Act h t a = .ok (e, t')) : ChipsOK t' := by
  cases e with
  | some e =>
    obtain ⟨rfl, -⟩ := (Act_some_iff h t a e t').mp hact
    exact hok
  | none =>
    obtain ⟨t1, happ, hupd⟩ := Act_accepted hact
    exact update_ChipsOK (applyAction_ChipsOK hok happ) hupd

theorem actAll_ChipsOK (h : HandPkg) (as : List Action) :
    ∀ (t t' : Table), ChipsOK t → actAll h t as = .ok (some t') → ChipsOK t' := by
  induction as with
  | nil =>
    intro t t' hok hrun
    simp only [actAll] at hrun
    cases hrun
    exact hok
  | cons a as ih =>
    intro t t' hok hrun
    simp only [actAll] at hrun
    split at hrun
    · cases hrun
    · cases hrun
    · rename_i t1 h1
      exact ih t1 t' (Act_ChipsOK hok h1) hrun

theorem sitAll_ChipsOK {h : HandPkg} {opts : Options} {numSeats : Nat} {ids : List String}
    {t : Table} (st : Status) (hbuy : 0 ≤ opts.BuyIn) (hante : 0 ≤ opts.Stakes.Ante)
    (hsb : 0 ≤ opts.Stakes.SmallBlind) (hbb : 0 ≤ opts.Stakes.BigBlind)
    (hnew : setupRound h (sitAll opts.BuyIn (newTable opts numSeats st) 0 ids) = .ok t) :
    ChipsOK t := by
  have hframe := sitAll_frame opts.BuyIn ids (newTable opts numSeats st) 0
  obtain ⟨-, hround, hseat⟩ := sitAll_spec opts.BuyIn ids (newTable opts numSeats st) 0
    (fun j _ => seatAt_replicate_none numSeats j)
  have hopts : (sitAll opts.BuyIn (newTable opts numSeats st) 0 ids).options = opts := hframe.2
  refine setupRound_ChipsOK (by rw [hopts]; exact hante) (by rw [hopts]; exact hsb)
    (by rw [hopts]; exact hbb) (fun hne => absurd hround hne) ?_ hnew
  intro j p hp
  rw [hseat j] at hp
  by_cases hc : 0 ≤ j ∧ j < 0 + ids.length ∧ j < (newTable opts numSeats st).seats.length
  · rw [if_pos hc] at hp
    cases hid : ids[j - 0]? with
    | none => rw [hid] at hp; cases hp
    | some id =>
      rw [hid] at hp
      cases hp
      exact ⟨hbuy, le_refl _⟩
  · rw [if_neg hc] at hp
    have : seatAt (newTable opts numSeats st).seats j = none :=
      seatAt_replicate_none numSeats j
    rw [this] at hp
    cases hp

theorem New_ChipsOK {h : HandPkg} {opts : Options} {numSeats : Nat} {ids : List String}
    {t : Table} (hbuy : 0 ≤ opts.BuyIn) (hante : 0 ≤ opts.Stakes.Ante)
    (hsb : 0 ≤ opts.Stakes.SmallBlind) (hbb : 0 ≤ opts.Stakes.BigBlind)
    (hnew : New h opts numSeats ids = .ok t) : ChipsOK t :=
  sitAll_ChipsOK (if ids.length < 2 then Status.Waiting else Status.Dealing) hbuy hante hsb hbb
    hnew

/-! ## The settlement on a full table -/

theorem potChips_ok (min : Int) (seats : List (Option Player))
    (hfull : seats.any Option.isNone = false) :
    ∀ acc : Int, ∃ c, potChips min acc seats = .ok c := by
  induction seats with
  | nil => intro acc; exact ⟨acc, rfl⟩
  | cons x xs ih =>
    intro acc
    cases x with
    | none => simp at hfull
    | some p =>
      simp only [potChips]
      exact ih (by simpa using hfull) _

theorem potsLoop_ok (t : Table) (sorted : List Nat) (hfull : t.seats.any Option.isNone = false)
    (costs : List Int) : ∀ min : Int, ∃ ps, potsLoop t sorted min costs = .ok ps := by
  induction costs with
  | nil => intro min; exact ⟨[], rfl⟩
  | cons c cs ih =>
    intro min
    obtain ⟨chips, hchips⟩ := potChips_ok min t.seats hfull 0
    obtain ⟨ps, hps⟩ := ih c
    simp only [potsLoop, hchips, hps]
    exact ⟨_, rfl⟩

theorem potsLoop_mem (t : Table) (sorted : List Nat) (costs : List Int) :
    ∀ (min : Int) (ps : List sidePot), potsLoop t sorted min costs = .ok ps →
      ∀ pot ∈ ps, ∃ cost ∈ costs,
        pot.contesting = sorted.filter (fun i => chipsInPotAt t i ≥ cost) := by
  induction costs with
  | nil =>
    intro min ps h pot hpot
    simp only [potsLoop] at h
    cases h
    cases hpot
  | cons c cs ih =>
    intro min ps h pot hpot
    simp only [potsLoop] at h
    split at h
    · cases h
    · split at h
      · cases h
      · rename_i ps' hps'
        cases h
        rcases List.mem_cons.mp hpot with rfl | hmem
        · exact ⟨c, List.mem_cons_self _ _, rfl⟩
        · obtain ⟨cost, hcost, hc⟩ := ih c ps' hps' pot hmem
          exact ⟨cost, List.mem_cons_of_mem _ hcost, hc⟩

theorem tierCosts_foldl_mem (t : Table) (l : List Nat) :
    ∀ (acc : List Int) (c : Int),
      c ∈ l.foldl
        (fun costs seat =>
          if contains costs (chipsInPotAt t seat) == false then costs ++ [chipsInPotAt t seat]
          else costs)
        acc →
      c ∈ acc ∨ ∃ i ∈ l, chipsInPotAt t i = c := by
  induction l with
  | nil =>
    intro acc c hc
    exact Or.inl hc
  | cons x xs ih =>
    intro acc c hc
    rw [List.foldl_cons] at hc
    rcases ih _ c hc with h1 | ⟨i, hi, hci⟩
    · split at h1
      · rcases List.mem_append.mp h1 with h2 | h2
        · exact Or.inl h2
        · rw [List.mem_singleton] at h2
          exact Or.inr ⟨x, List.mem_cons_self _ _, h2.symm⟩
      · exact Or.inl h1
    · exact Or.inr ⟨i, List.mem_cons_of_mem _ hi, hci⟩

theorem tierCosts_mem {t : Table} {sorted : List Nat} {c : Int} (hc : c ∈ tierCosts t sorted) :
    ∃ i ∈ sorted, chipsInPotAt t i = c := by
  unfold tierCosts at hc
  rcases tierCosts_foldl_mem t sorted [] c hc with h | h
  · cases h
  · exact h

/-- Every pot of `pots()` has a contestant. -/
theorem pots_contesting_ne_nil {t : Table} {ps : List sidePot} (hps : pots t = .ok ps)
    {pot : sidePot} (hpot : pot ∈ ps) : pot.contesting ≠ [] := by
  unfold pots at hps
  simp only at hps
  obtain ⟨cost, hcost, hc⟩ := potsLoop_mem t _ _ 0 ps hps pot hpot
  obtain ⟨i, hi, hci⟩ := tierCosts_mem hcost
  have hmem : i ∈ pot.contesting := by
    rw [hc, List.mem_filter]
    refine ⟨hi, ?_⟩
    simp [hci]
  intro hnil
  rw [hnil] at hmem
  cases hmem

/-- With a reflexive `CompareTo`, a pot that has a contestant has a winner. -/
theorem selectWinners_ok (h : HandPkg) (t : Table) (pot : sidePot)
    (hrefl : ∀ a, h.CompareTo a a = 0) (hne : pot.contesting ≠ []) :
    ∃ ws, selectWinners h t pot = .ok ws ∧ ws ≠ [] := by
  have hperm := sortSlice_perm
    (fun i j => decide (h.CompareTo (handAt t i) (handAt t j) > 0)) pot.contesting
  unfold selectWinners
  simp only
  generalize sortSlice (fun i j => decide (h.CompareTo (handAt t i) (handAt t j) > 0))
    pot.contesting = sorted at hperm
  cases sorted with
  | nil => exact absurd hperm.symm.eq_nil hne
  | cons first rest =>
    refine ⟨_, rfl, ?_⟩
    rw [List.takeWhile_cons]
    simp [hrefl]

theorem settlePots_ok (h : HandPkg) (t0 : Table) (ps : List sidePot)
    (hps : pots t0 = .ok ps) (hrefl : ∀ a, h.CompareTo a a = 0) (rest : List sidePot) :
    ∀ t : Table, (∀ pot ∈ rest, pot ∈ ps) → seatsLinked t = true →
      t.seats.map Option.isSome = t0.seats.map Option.isSome →
      ∃ t', settlePots h t rest = .ok t' := by
  induction rest with
  | nil => intro t _ _ _; exact ⟨t, rfl⟩
  | cons pot rest ih =>
    intro t hsub hlink hsame
    have hpot : pot ∈ ps := hsub pot (List.mem_cons_self _ _)
    obtain ⟨ws, hws, -⟩ := selectWinners_ok h t pot hrefl (pots_contesting_ne_nil hps hpot)
    obtain ⟨hnd, hocc⟩ := winners_distinct_occupied h t0 t ps pot ws hps hpot hsame hws
    obtain ⟨order, horder, -, -⟩ := sortByDistance_spec hlink hnd hocc
    have hsettle : settlePot h t pot =
        .ok { t with seats := creditWinners pot.chips order.length 0 order t.seats } := by
      unfold settlePot
      rw [hws]
      simp only [payWinners, horder]
    simp only [settlePots, hsettle]
    apply ih
    · exact fun q hq => hsub q (List.mem_cons_of_mem _ hq)
    · apply seatsLinked_congr _ hlink
      exact map_creditWinners _ (by intro p c n i; rw [credit_eq]; rfl) _ _ _ _ _
    · rw [← hsame]
      exact map_creditWinners _ (by intro p c n i; rfl) _ _ _ _ _

/-- C17. `payout` builds a hand for every seat of the table, so it faults on a nil
dereference whenever a seat is empty.  On a table whose seats are all occupied, by players
who carry their seat index (as `Sit` leaves them), and with a reflexive `CompareTo`,
`pots` and `payout` return; every pot has a contestant; and on every table that seats the
same players in the same seats (as do the tables the settlement goes through) every pot
has a winner and `distanceFromButton` returns for each winner. -/
theorem payout_total_on_full_table (h : HandPkg) (t : Table) :
    (t.seats.any Option.isNone = true → payout h t = .error .nilDereference) ∧
    (t.seats.any Option.isNone = false → seatsLinked t = true →
      (∀ a, h.CompareTo a a = 0) →
      ∃ ps t', pots t = .ok ps ∧ payout h t = .ok t' ∧
        ∀ pot ∈ ps, pot.contesting ≠ [] ∧
          ∀ u : Table,
            u.seats.map (Option.map Player.Seat) = t.seats.map (Option.map Player.Seat) →
            ∃ ws, selectWinners h u pot = .ok ws ∧ ws ≠ [] ∧
              ∀ w ∈ ws, ∃ p d, seatAt u.seats w = some p ∧ distanceFromButton u p = .ok d) := by
  constructor
  · intro hempty
    unfold payout
    rw [if_pos hempty]
  · intro hfull hlink hrefl
    obtain ⟨ps, hps⟩ : ∃ ps, pots t = .ok ps := potsLoop_ok t _ hfull _ 0
    obtain ⟨t', ht'⟩ := settlePots_ok h t ps hps hrefl ps t (fun _ hp => hp) hlink rfl
    refine ⟨ps, t', hps, ?_, ?_⟩
    · unfold payout
      rw [hfull, hps]
      exact ht'
    · intro pot hpot
      have hne := pots_contesting_ne_nil hps hpot
      refine ⟨hne, ?_⟩
      intro u hu
      obtain ⟨ws, hws, hwne⟩ := selectWinners_ok h u pot hrefl hne
      obtain ⟨-, hocc⟩ := winners_distinct_occupied h t u ps pot ws hps hpot
        (isSome_of_map_eq hu) hws
      refine ⟨ws, hws, hwne, ?_⟩
      intro w hw
      obtain ⟨p, hp, hd, -⟩ := buttonDistance_eq (seatsLinked_congr hu hlink) (hocc w hw)
      exact ⟨p, _, hp, hd⟩

set_option maxRecDepth 100000 in
/-- Witness of C17: the settlement of the two all-in players of `showdownRiver`. -/
theorem payout_total_on_full_table_witness :
    ∃ ps t', pots showdownRiver = .ok ps ∧ payout sumHands showdownRiver = .ok t' ∧
      ∀ pot ∈ ps, pot.contesting ≠ [] ∧
        ∀ u : Table,
          u.seats.map (Option.map Player.Seat) =
            showdownRiver.seats.map (Option.map Player.Seat) →
          ∃ ws, selectWinners sumHands u pot = .ok ws ∧ ws ≠ [] ∧
            ∀ w ∈ ws, ∃ p d, seatAt u.seats w = some p ∧ distanceFromButton u p = .ok d :=
  (payout_total_on_full_table sumHands showdownRiver).2 rfl rfl (by intro a; simp [sumHands])

/-! ## Go's arithmetic agrees with the integers below `2^63` -/

theorem wrap_eq {x : Int} (h1 : -9223372036854775808 ≤ x) (h2 : x < 9223372036854775808) :
    wrap x = x := by
  unfold wrap
  omega

theorem max_zero_le {a b : Int} (hab : a ≤ b) (hb : 0 ≤ b) : max a 0 ≤ b := by
  unfold max
  split <;> omega

theorem potSum_cons_some (p : Player) (ss : List (Option Player)) :
    potSum (some p :: ss) = p.ChipsInPot + potSum ss := by
  simp [potSum]

theorem potSum_nonneg (seats : List (Option Player))
    (hs : ∀ j p, seatAt seats j = some p → 0 ≤ p.ChipsInPot) : 0 ≤ potSum seats := by
  induction seats with
  | nil => simp [potSum]
  | cons x xs ih =>
    have hxs : ∀ j p, seatAt xs j = some p → 0 ≤ p.ChipsInPot :=
      fun j p hp => hs (j + 1) p (by rw [seatAt_succ]; exact hp)
    cases x with
    | none =>
      have : potSum (none :: xs) = potSum xs := by simp [potSum]
      rw [this]
      exact ih hxs
    | some p =>
      rw [potSum_cons_some]
      have h0 := hs 0 p (by rw [seatAt_zero])
      have := ih hxs
      omega

theorem chipsInPot_le_potSum (seats : List (Option Player))
    (hs : ∀ j p, seatAt seats j = some p → 0 ≤ p.ChipsInPot) :
    ∀ j p, seatAt seats j = some p → p.ChipsInPot ≤ potSum seats := by
  induction seats with
  | nil =>
    intro j p hp
    simp [seatAt_nil] at hp
  | cons x xs ih =>
    have hxs : ∀ j p, seatAt xs j = some p → 0 ≤ p.ChipsInPot :=
      fun j p hp => hs (j + 1) p (by rw [seatAt_succ]; exact hp)
    have hrest := potSum_nonneg xs hxs
    intro j p hp
    cases j with
    | zero =>
      rw [seatAt_zero] at hp
      subst hp
      rw [potSum_cons_some]
      omega
    | succ j =>
      rw [seatAt_succ] at hp
      have h1 := ih hxs j p hp
      cases x with
      | none =>
        have : potSum (none :: xs) = potSum xs := by simp [potSum]
        rw [this]
        exact h1
      | some q =>
        rw [potSum_cons_some]
        have := hs 0 q (by rw [seatAt_zero])
        omega

/-- A pot holds no more than all the chips put in. -/
theorem potChips_le (min : Int) (hmin : 0 ≤ min) (seats : List (Option Player))
    (hs : ∀ j p, seatAt seats j = some p → 0 ≤ p.ChipsInPot) :
    ∀ (acc c : Int), potChips min acc seats = .ok c → c ≤ acc + potSum seats := by
  induction seats with
  | nil =>
    intro acc c h
    simp only [potChips] at h
    cases h
    simp [potSum]
  | cons x xs ih =>
    have hxs : ∀ j p, seatAt xs j = some p → 0 ≤ p.ChipsInPot :=
      fun j p hp => hs (j + 1) p (by rw [seatAt_succ]; exact hp)
    intro acc c h
    cases x with
    | none => simp [potChips] at h
    | some p =>
      simp only [potChips] at h
      have h0 := hs 0 p (by rw [seatAt_zero])
      have := ih hxs _ c h
      have hm := max_zero_le (show p.ChipsInPot - min ≤ p.ChipsInPot by omega) h0
      rw [potSum_cons_some]
      omega

theorem potChipsGo_eq (min : Int) (hmin : 0 ≤ min) (hmin2 : min < 9223372036854775808)
    (seats : List (Option Player))
    (hs : ∀ j p, seatAt seats j = some p → 0 ≤ p.ChipsInPot) :
    ∀ acc : Int, 0 ≤ acc → acc + potSum seats < 9223372036854775808 →
      potChipsGo min acc seats = potChips min acc seats := by
  induction seats with
  | nil => intro acc _ _; rfl
  | cons x xs ih =>
    have hxs : ∀ j p, seatAt xs j = some p → 0 ≤ p.ChipsInPot :=
      fun j p hp => hs (j + 1) p (by rw [seatAt_succ]; exact hp)
    have hrest := potSum_nonneg xs hxs
    intro acc hacc hsum
    cases x with
    | none => rfl
    | some p =>
      have h0 := hs 0 p (by rw [seatAt_zero])
      rw [potSum_cons_some] at hsum
      simp only [potChipsGo, potChips]
      have hw1 : wrap (p.ChipsInPot - min) = p.ChipsInPot - min := wrap_eq (by omega) (by omega)
      rw [hw1]
      have hm := max_zero_le (show p.ChipsInPot - min ≤ p.ChipsInPot by omega) h0
      have hm0 := max_nonneg_right (p.ChipsInPot - min)
      have hw2 : wrap (acc + max (p.ChipsInPot - min) 0) = acc + max (p.ChipsInPot - min) 0 :=
        wrap_eq (by omega) (by omega)
      rw [hw2]
      exact ih hxs _ (by omega) (by omega)

theorem potsLoopGo_eq (t : Table) (sorted : List Nat)
    (hs : ∀ j p, seatAt t.seats j = some p → 0 ≤ p.ChipsInPot)
    (hsum : potSum t.seats < 9223372036854775808) (costs : List Int) :
    ∀ min : Int, 0 ≤ min → min < 9223372036854775808 →
      (∀ c ∈ costs, 0 ≤ c ∧ c < 9223372036854775808) →
      potsLoopGo t sorted min costs = potsLoop t sorted min costs := by
  induction costs with
  | nil => intro _ _ _ _; rfl
  | cons c cs ih =>
    intro min h1 h2 hc
    have hc0 := hc c (List.mem_cons_self _ _)
    simp only [potsLoopGo, potsLoop]
    rw [potChipsGo_eq min h1 h2 t.seats hs 0 (le_refl _) (by omega),
      ih c hc0.1 hc0.2 (fun x hx => hc x (List.mem_cons_of_mem _ hx))]

theorem chipsInPotAt_bounds {t : Table}
    (hs : ∀ j p, seatAt t.seats j = some p → 0 ≤ p.ChipsInPot) (i : Nat) :
    0 ≤ chipsInPotAt t i ∧ chipsInPotAt t i ≤ potSum t.seats := by
  unfold chipsInPotAt
  cases hp : seatAt t.seats i with
  | none => exact ⟨le_refl _, potSum_nonneg t.seats hs⟩
  | some p => exact ⟨hs i p hp, chipsInPot_le_potSum t.seats hs i p hp⟩

/-- Below `2^63` chips in the pot, `pots` computes on Go `int`s what it computes on the
integers. -/
theorem potsGo_eq {t : Table} (hs : ∀ j p, seatAt t.seats j = some p → 0 ≤ p.ChipsInPot)
    (hsum : potSum t.seats < 9223372036854775808) : potsGo t = pots t := by
  unfold potsGo pots
  simp only
  apply potsLoopGo_eq t _ hs hsum _ 0 (le_refl _) (by omega)
  intro c hc
  obtain ⟨i, -, hi⟩ := tierCosts_mem hc
  have := chipsInPotAt_bounds hs i
  omega

theorem potsLoop_length (t : Table) (sorted : List Nat) (costs : List Int) :
    ∀ (min : Int) (ps : List sidePot), potsLoop t sorted min costs = .ok ps →
      ps.length = costs.length := by
  induction costs with
  | nil =>
    intro min ps h
    simp only [potsLoop] at h
    cases h
    rfl
  | cons c cs ih =>
    intro min ps h
    simp only [potsLoop] at h
    split at h
    · cases h
    · split at h
      · cases h
      · rename_i ps' hps'
        cases h
        simp [ih c ps' hps']

theorem tierCosts_foldl_length (t : Table) (l : List Nat) :
    ∀ acc : List Int,
      (l.foldl
        (fun costs seat =>
          if contains costs (chipsInPotAt t seat) == false then costs ++ [chipsInPotAt t seat]
          else costs)
        acc).length ≤ acc.length + l.length := by
  induction l with
  | nil => intro acc; simp
  | cons x xs ih =>
    intro acc
    rw [List.foldl_cons]
    refine (ih _).trans ?_
    split
    · simp only [List.length_append, List.length_singleton, List.length_cons, List.length_nil]
      omega
    · simp only [List.length_cons]
      omega

theorem contesting_length_le (t : Table) : (contesting t).length ≤ t.seats.length := by
  unfold contesting
  refine (List.length_filter_le _ _).trans ?_
  simp

/-- There are no more pots than seats. -/
theorem pots_length_le {t : Table} {ps : List sidePot} (hps : pots t = .ok ps) :
    ps.length ≤ t.seats.length := by
  unfold pots at hps
  simp only at hps
  rw [potsLoop_length t _ _ 0 ps hps]
  unfold tierCosts
  refine (tierCosts_foldl_length t _ []).trans ?_
  simp only [List.length_nil, Nat.zero_add]
  rw [(sortSlice_perm _ _).length_eq]
  exact contesting_length_le t

theorem potsLoop_chips_le (t : Table) (sorted : List Nat)
    (hs : ∀ j p, seatAt t.seats j = some p → 0 ≤ p.ChipsInPot) (costs : List Int) :
    ∀ (min : Int) (ps : List sidePot), 0 ≤ min → (∀ c ∈ costs, 0 ≤ c) →
      potsLoop t sorted min costs = .ok ps → ∀ pot ∈ ps, pot.chips ≤ potSum t.seats := by
  induction costs with
  | nil =>
    intro min ps _ _ h pot hpot
    simp only [potsLoop] at h
    cases h
    cases hpot
  | cons c cs ih =>
    intro min ps hmin hc h pot hpot
    simp only [potsLoop] at h
    split at h
    · cases h
    · rename_i chips hchips
      split at h
      · cases h
      · rename_i ps' hps'
        cases h
        rcases List.mem_cons.mp hpot with rfl | hmem
        · have := potChips_le min hmin t.seats hs 0 chips hchips
          simpa using this
        · exact ih c ps' (hc c (List.mem_cons_self _ _))
            (fun x hx => hc x (List.mem_cons_of_mem _ hx)) hps' pot hmem

theorem pots_chips_bounds {t : Table} {ps : List sidePot}
    (hs : ∀ j p, seatAt t.seats j = some p → 0 ≤ p.ChipsInPot) (hps : pots t = .ok ps) :
    ∀ pot ∈ ps, 0 ≤ pot.chips ∧ pot.chips ≤ potSum t.seats := by
  intro pot hpot
  unfold pots at hps
  simp only at hps
  refine ⟨potsLoop_nonneg t _ _ 0 ps hps pot hpot, ?_⟩
  refine potsLoop_chips_le t _ hs _ 0 ps (le_refl _) ?_ hps pot hpot
  intro c hc
  obtain ⟨i, -, hi⟩ := tierCosts_mem hc
  have := chipsInPotAt_bounds hs i
  omega

theorem foldl_wrap_eq (S : Int) (hS : 0 ≤ S) (ps : List sidePot) :
    ∀ acc : Int, 0 ≤ acc → (∀ pot ∈ ps, 0 ≤ pot.chips ∧ pot.chips ≤ S) →
      acc + (ps.length : Int) * S < 9223372036854775808 →
      ps.foldl (fun chips pot => wrap (chips + pot.chips)) acc =
        ps.foldl (fun chips pot => chips + pot.chips) acc := by
  induction ps with
  | nil => intro acc _ _ _; rfl
  | cons x xs ih =>
    intro acc hacc hps hsum
    have hx := hps x (List.mem_cons_self _ _)
    have hlen : (((x :: xs).length : Nat) : Int) * S = (xs.length : Int) * S + S := by
      simp only [List.length_cons]
      push_cast
      ring
    rw [hlen] at hsum
    have hk : 0 ≤ (xs.length : Int) * S := mul_nonneg (Int.ofNat_nonneg _) hS
    simp only [List.foldl_cons]
    rw [wrap_eq (by omega) (by omega)]
    exact ih _ (by omega) (fun pot hp => hps pot (List.mem_cons_of_mem _ hp)) (by omega)

/-- As long as the chips in the pot, counted once for every seat, stay below `2^63`,
`chipsInPots` computes on Go `int`s what it computes on the integers. -/
theorem chipsInPotsGo_eq {t : Table}
    (hs : ∀ j p, seatAt t.seats j = some p → 0 ≤ p.ChipsInPot)
    (hsum : (t.seats.length : Int) * potSum t.seats < 9223372036854775808)
    (hsum1 : potSum t.seats < 9223372036854775808) :
    chipsInPotsGo t = chipsInPots t := by
  unfold chipsInPotsGo chipsInPots
  rw [potsGo_eq hs hsum1]
  cases hps : pots t with
  | error e => rfl
  | ok ps =>
    simp only
    have hS := potSum_nonneg t.seats hs
    have hlen := pots_length_le hps
    have hle : (ps.length : Int) * potSum t.seats ≤ (t.seats.length : Int) * potSum t.seats :=
      mul_le_mul_of_nonneg_right (by exact_mod_cast hlen) hS
    rw [foldl_wrap_eq (potSum t.seats) hS ps 0 (le_refl _) (pots_chips_bounds hs hps)
      (by omega)]

theorem share_bounds (chips : Int) (n : Nat) (hc : 0 ≤ chips) :
    0 ≤ chips.tdiv n ∧ chips.tdiv n ≤ chips ∧ (0 < chips.tmod n → chips.tdiv n + 1 ≤ chips) := by
  have hd : 0 ≤ chips.tdiv n := Int.tdiv_nonneg hc (Int.ofNat_nonneg n)
  have hr : 0 ≤ chips.tmod n := Int.tmod_nonneg _ hc
  have he := Int.tdiv_add_tmod chips n
  cases n with
  | zero =>
    have h0 : chips.tdiv ((0 : Nat) : Int) = 0 := by simp
    rw [h0]
    have h1 : chips.tmod ((0 : Nat) : Int) = chips := by simp
    rw [h1]
    exact ⟨le_refl _, hc, fun h => by omega⟩
  | succ m =>
    have hmul : chips.tdiv ((m + 1 : Nat) : Int) ≤
        ((m + 1 : Nat) : Int) * chips.tdiv ((m + 1 : Nat) : Int) :=
      le_mul_of_one_le_left hd (by push_cast; omega)
    refine ⟨hd, by omega, fun h => by omega⟩

theorem credit_bounds (p : Player) (chips : Int) (n i : Nat) (hc : 0 ≤ chips) :
    p.Chips ≤ (p.credit chips n i).Chips ∧ (p.credit chips n i).Chips ≤ p.Chips + chips := by
  obtain ⟨h1, h2, h3⟩ := share_bounds chips n hc
  rw [credit_eq]
  simp only
  split
  · rename_i hgt
    have : 0 < chips.tmod n := by omega
    have := h3 this
    omega
  · omega

theorem creditGo_eq (p : Player) (chips : Int) (n i : Nat) (hc : 0 ≤ chips)
    (hp : 0 ≤ p.Chips) (hsum : p.Chips + chips < 9223372036854775808) :
    p.creditGo chips n i = p.credit chips n i := by
  obtain ⟨h1, h2, h3⟩ := share_bounds chips n hc
  unfold Player.creditGo Player.credit
  simp only
  have hw1 : wrap (p.Chips + chips.tdiv n) = p.Chips + chips.tdiv n :=
    wrap_eq (by omega) (by omega)
  rw [hw1]
  split
  · rename_i hgt
    have : 0 < chips.tmod n := by omega
    have := h3 this
    rw [wrap_eq (by omega) (by omega)]
  · rfl

theorem modifySeat_congr (f g : Player → Player) (seats : List (Option Player)) :
    ∀ w : Nat, (∀ p, seatAt seats w = some p → f p = g p) →
      modifySeat f w seats = modifySeat g w seats := by
  induction seats with
  | nil => intro w _; simp [modifySeat]
  | cons x xs ih =>
    intro w hw
    cases w with
    | zero =>
      cases x with
      | none => rfl
      | some p =>
        simp only [modifySeat, Option.map_some']
        rw [hw p (by rw [seatAt_zero])]
    | succ w =>
      simp only [modifySeat]
      rw [ih w (fun p hp => hw p (by rw [seatAt_succ]; exact hp))]

theorem creditWinnersGo_eq (chips : Int) (hc : 0 ≤ chips) (n : Nat) (ws : List Nat) :
    ∀ (i : Nat) (seats : List (Option Player)), ws.Nodup →
      (∀ w ∈ ws, ∀ p, seatAt seats w = some p →
        0 ≤ p.Chips ∧ p.Chips + chips < 9223372036854775808) →
      creditWinnersGo chips n i ws seats = creditWinners chips n i ws seats := by
  induction ws with
  | nil => intro i seats _ _; rfl
  | cons w ws ih =>
    intro i seats hnd hb
    rw [List.nodup_cons] at hnd
    unfold creditWinnersGo creditWinners
    have hmod : modifySeat (fun p => p.creditGo chips n i) w seats =
        modifySeat (fun p => p.credit chips n i) w seats := by
      apply modifySeat_congr
      intro p hp
      obtain ⟨b1, b2⟩ := hb w (List.mem_cons_self _ _) p hp
      exact creditGo_eq p chips n i hc b1 b2
    rw [hmod]
    apply ih (i + 1) _ hnd.2
    intro w' hw' p hp
    have hne : w' ≠ w := by
      rintro rfl
      exact hnd.1 hw'
    rw [seatAt_modifySeat, if_neg hne] at hp
    exact hb w' (List.mem_cons_of_mem _ hw') p hp

theorem distances_map_fst (t : Table) (ws : List Nat) :
    ∀ ds, distances t ws = .ok ds → ds.map Prod.fst = ws := by
  induction ws with
  | nil =>
    intro ds h
    simp only [distances] at h
    cases h
    rfl
  | cons w ws ih =>
    intro ds h
    simp only [distances] at h
    split at h
    · cases h
    · split at h
      · cases h
      · split at h
        · cases h
        · rename_i ds' hds'
          cases h
          simp [ih ds' hds']

theorem sortByDistance_perm {t : Table} {ws order : List Nat}
    (h : sortByDistance t ws = .ok order) : order.Perm ws := by
  unfold sortByDistance at h
  split at h
  · cases h
    exact List.Perm.refl _
  · split at h
    · cases h
    · rename_i ds hds
      cases h
      have hperm := sortSlice_perm (fun a b : Nat × Nat => decide (a.2 < b.2)) ds
      have := hperm.map Prod.fst
      rw [distances_map_fst t ws ds hds] at this
      exact this

theorem settlePotsGo_eq (h : HandPkg) (t0 : Table) (ps : List sidePot)
    (hps : pots t0 = .ok ps) (rest : List sidePot) :
    ∀ t : Table, (∀ pot ∈ rest, pot ∈ ps) → (∀ pot ∈ rest, 0 ≤ pot.chips) →
      t.seats.map Option.isSome = t0.seats.map Option.isSome →
      (∀ j p, seatAt t.seats j = some p →
        0 ≤ p.Chips ∧ p.Chips + (rest.map fun pot => pot.chips).sum < 9223372036854775808) →
      settlePotsGo h t rest = settlePots h t rest := by
  induction rest with
  | nil => intro t _ _ _ _; rfl
  | cons pot rest ih =>
    intro t hsub hnn hsame hb
    have hpot : pot ∈ ps := hsub pot (List.mem_cons_self _ _)
    have hc : 0 ≤ pot.chips := hnn pot (List.mem_cons_self _ _)
    have hrest : 0 ≤ (rest.map fun pot => pot.chips).sum := by
      apply List.sum_nonneg
      intro x hx
      obtain ⟨q, hq, rfl⟩ := List.mem_map.mp hx
      exact hnn q (List.mem_cons_of_mem _ hq)
    simp only [List.map_cons, List.sum_cons] at hb
    simp only [settlePotsGo, settlePots, settlePotGo, settlePot]
    cases hws : selectWinners h t pot with
    | error e => rfl
    | ok ws =>
      simp only [payWinnersGo, payWinners]
      cases hord : sortByDistance t ws with
      | error e => rfl
      | ok order =>
        simp only
        obtain ⟨hnd, -⟩ := winners_distinct_occupied h t0 t ps pot ws hps hpot hsame hws
        have hperm := sortByDistance_perm hord
        have hndo : order.Nodup := hperm.nodup_iff.mpr hnd
        have hcw : creditWinnersGo pot.chips order.length 0 order t.seats =
            creditWinners pot.chips order.length 0 order t.seats := by
          apply creditWinnersGo_eq pot.chips hc _ _ _ _ hndo
          intro w _ p hp
          have := hb w p hp
          exact ⟨this.1, by omega⟩
        rw [hcw]
        apply ih
        · exact fun q hq => hsub q (List.mem_cons_of_mem _ hq)
        · exact fun q hq => hnn q (List.mem_cons_of_mem _ hq)
        · rw [← hsame]
          exact map_creditWinners _ (by intro p c n i; rfl) _ _ _ _ _
        · intro j p' hp'
          simp only at hp'
          rw [seatAt_creditWinners _ _ _ _ _ _ hndo] at hp'
          split at hp'
          · cases hq : seatAt t.seats j with
            | none => rw [hq] at hp'; cases hp'
            | some q =>
              rw [hq] at hp'
              simp only [Option.map_some', Option.some.injEq] at hp'
              subst hp'
              have hbq := hb j q hq
              have hcb := credit_bounds q pot.chips order.length (0 + order.indexOf j) hc
              exact ⟨by omega, by omega⟩
          · have hbq := hb j p' hp'
            exact ⟨hbq.1, by omega⟩

theorem stackSum_cons_some (p : Player) (ss : List (Option Player)) :
    stackSum (some p :: ss) = p.Chips + stackSum ss := by
  simp [stackSum]

theorem stackSum_nonneg (seats : List (Option Player))
    (hs : ∀ j p, seatAt seats j = some p → 0 ≤ p.Chips) : 0 ≤ stackSum seats := by
  induction seats with
  | nil => simp [stackSum]
  | cons x xs ih =>
    have hxs : ∀ j p, seatAt xs j = some p → 0 ≤ p.Chips :=
      fun j p hp => hs (j + 1) p (by rw [seatAt_succ]; exact hp)
    cases x with
    | none =>
      have : stackSum (none :: xs) = stackSum xs := by simp [stackSum]
      rw [this]
      exact ih hxs
    | some p =>
      rw [stackSum_cons_some]
      have h0 := hs 0 p (by rw [seatAt_zero])
      have := ih hxs
      omega

theorem chips_le_stackSum (seats : List (Option Player))
    (hs : ∀ j p, seatAt seats j = some p → 0 ≤ p.Chips) :
    ∀ j p, seatAt seats j = some p → p.Chips ≤ stackSum seats := by
  induction seats with
  | nil =>
    intro j p hp
    simp [seatAt_nil] at hp
  | cons x xs ih =>
    have hxs : ∀ j p, seatAt xs j = some p → 0 ≤ p.Chips :=
      fun j p hp => hs (j + 1) p (by rw [seatAt_succ]; exact hp)
    have hrest := stackSum_nonneg xs hxs
    intro j p hp
    cases j with
    | zero =>
      rw [seatAt_zero] at hp
      subst hp
      rw [stackSum_cons_some]
      omega
    | succ j =>
      rw [seatAt_succ] at hp
      have h1 := ih hxs j p hp
      cases x with
      | none =>
        have : stackSum (none :: xs) = stackSum xs := by simp [stackSum]
        rw [this]
        exact h1
      | some q =>
        rw [stackSum_cons_some]
        have := hs 0 q (by rw [seatAt_zero])
        omega

theorem tableChips_split (t : Table) :
    tableChips t = stackSum t.seats + potSum t.seats := by
  unfold tableChips
  generalize t.seats = seats
  induction seats with
  | nil => simp [stackSum, potSum]
  | cons x xs ih =>
    cases x with
    | none =>
      have e1 : stackSum (none :: xs) = stackSum xs := by simp [stackSum]
      have e2 : potSum (none :: xs) = potSum xs := by simp [potSum]
      rw [e1, e2, ← ih]
      simp
    | some p =>
      rw [stackSum_cons_some, potSum_cons_some]
      simp only [List.map_cons, List.sum_cons]
      rw [ih]
      unfold Player.stake
      ring

theorem sum_chips_le (S : Int) (ps : List sidePot) (hps : ∀ pot ∈ ps, pot.chips ≤ S) :
    (ps.map fun pot => pot.chips).sum ≤ (ps.length : Int) * S := by
  induction ps with
  | nil => simp
  | cons x xs ih =>
    have hx := hps x (List.mem_cons_self _ _)
    have := ih (fun pot hp => hps pot (List.mem_cons_of_mem _ hp))
    simp only [List.map_cons, List.sum_cons, List.length_cons]
    push_cast
    have e : ((xs.length : Int) + 1) * S = (xs.length : Int) * S + S := by ring
    rw [e]
    omega

/-- On a table without a negative chip count, on which all the chips, counted once for
every seat and once more, stay below `2^63`, `pots`, `chipsInPots` and `payout` compute on
Go `int`s what they compute on the integers. -/
theorem settlement_within_int (h : HandPkg) {t : Table}
    (hs : ∀ j p, seatAt t.seats j = some p → 0 ≤ p.Chips ∧ 0 ≤ p.ChipsInPot)
    (hw : withinInt t = true) :
    potsGo t = pots t ∧ chipsInPotsGo t = chipsInPots t ∧ payoutGo h t = payout h t := by
  have hsC : ∀ j p, seatAt t.seats j = some p → 0 ≤ p.Chips := fun j p hp => (hs j p hp).1
  have hsS : ∀ j p, seatAt t.seats j = some p → 0 ≤ p.ChipsInPot := fun j p hp => (hs j p hp).2
  have hC := stackSum_nonneg t.seats hsC
  have hS := potSum_nonneg t.seats hsS
  unfold withinInt at hw
  rw [decide_eq_true_eq, tableChips_split] at hw
  have hnC : 0 ≤ (t.seats.length : Int) * stackSum t.seats :=
    mul_nonneg (Int.ofNat_nonneg _) hC
  have hnS : 0 ≤ (t.seats.length : Int) * potSum t.seats :=
    mul_nonneg (Int.ofNat_nonneg _) hS
  have e : ((t.seats.length : Int) + 1) * (stackSum t.seats + potSum t.seats) =
      (t.seats.length : Int) * stackSum t.seats + (t.seats.length : Int) * potSum t.seats +
        stackSum t.seats + potSum t.seats := by ring
  rw [e] at hw
  have hS1 : potSum t.seats < 9223372036854775808 := by omega
  have hpots := potsGo_eq hsS hS1
  refine ⟨hpots, chipsInPotsGo_eq hsS (by omega) hS1, ?_⟩
  unfold payoutGo payout
  rw [hpots]
  split
  · rfl
  · cases hps : pots t with
    | error e => rfl
    | ok ps =>
      simp only
      have hb := pots_chips_bounds hsS hps
      have hlen := pots_length_le hps
      have hsum := sum_chips_le (potSum t.seats) ps (fun pot hp => (hb pot hp).2)
      have hle : (ps.length : Int) * potSum t.seats ≤
          (t.seats.length : Int) * potSum t.seats :=
        mul_le_mul_of_nonneg_right (by exact_mod_cast hlen) hS
      apply settlePotsGo_eq h t ps hps ps t (fun _ hp => hp) (fun pot hp => (hb pot hp).1) rfl
      intro j p hp
      have := chips_le_stackSum t.seats hsC j p hp
      exact ⟨hsC j p hp, by omega⟩

theorem visited_ChipsOK (h : HandPkg) (as : List Action) :
    ∀ t : Table, ChipsOK t → ∀ u ∈ visited h t as, ChipsOK u := by
  induction as with
  | nil =>
    intro t hok u hu
    simp only [visited, List.mem_singleton] at hu
    subst hu
    exact hok
  | cons a as ih =>
    intro t hok u hu
    simp only [visited, List.mem_cons] at hu
    rcases hu with rfl | hu
    · exact hok
    · split at hu
      · rename_i t' hact
        exact ih t' (Act_ChipsOK hok hact) u hu
      · cases hu

theorem applyAction_withinInt {t t1 : Table} {a : Action} (h : applyAction t a = .ok t1)
    (hw : withinInt t = true) : withinInt t1 = true := by
  have hst := applyAction_stakes h
  have hlen : t1.seats.length = t.seats.length := by
    simpa using congrArg List.length hst
  unfold withinInt at *
  rw [tableChips_eq_sum, hst, ← tableChips_eq_sum, hlen]
  exact hw

/-! ## Chip counts and the range of a Go `int` -/

set_option maxRecDepth 100000 in
/-- C20, as stated, fails when a sum of stacks leaves the range of a Go `int`.  With a
buy-in of `2^62` three players go all-in and check the hand down.  The `Check` on the river
is applied, closes the round and ends the hand; the one pot, `3 * 2^62` chips, wraps to
`-2^62`; each of the three winners is credited a negative share, and the next deal puts
the negative stack in `ChipsInPot`. -/
theorem settlement_wraps_to_negative_chips :
    0 ≤ bigOptions.BuyIn ∧
      ((New plainHands bigOptions 3 ["a", "b", "c"]).bind fun t =>
          actAll plainHands t
            [⟨.AllIn, 0⟩, ⟨.Call, 0⟩, ⟨.Call, 0⟩, ⟨.Check, 0⟩, ⟨.Check, 0⟩]) =
        .ok (some bigRiver) ∧
      LegalActions bigRiver = .ok [.Fold, .Check, .Bet, .AllIn] ∧
      applyAction bigRiver ⟨.Check, 0⟩ = .ok bigRiverChecked ∧
      nextToAct bigRiverChecked = .ok none ∧ endsHand bigRiverChecked = true ∧
      withinInt bigRiverChecked = false ∧
      (potsGo bigRiverChecked).map (List.map fun pot => pot.chips) =
        .ok [-4611686018427387904] ∧
      (payoutGo plainHands bigRiverChecked).map
          (fun t => t.seats.map (Option.map fun p => p.Chips)) =
        .ok [some (-1537228672809129301), some (-1537228672809129301),
          some (-1537228672809129301)] ∧
      ((payoutGo plainHands bigRiverChecked).bind fun t =>
          setupRound plainHands { t with round := .PreFlop }).map
          (fun t => t.seats.map (Option.map fun p => (p.Chips, p.ChipsInPot))) =
        .ok [some (0, -1537228672809129301), some (0, -1537228672809129301),
          some (0, -1537228672809129301)] :=
  ⟨by decide, rfl, rfl, rfl, rfl, rfl, rfl, rfl, rfl, rfl⟩

/-- C20, amended.  Take a table returned by `New` for a non-negative buy-in, ante, small
blind and big blind, and a sequence of accepted actions (under any limit type, through any
number of settlements) such that in every table of the run all the chips, counted once for
every seat and once more, stay below `2^63`.  Then every seated player of the last table
has `Chips >= 0` and `ChipsInPot >= 0`; and on every table of the run `chipsInPots`, and
after any action applied to it `pots` and `payout`, compute on Go `int`s what they compute
on the integers, so that the bound keeps the sums of the code within the range of an
`int`. -/
theorem chips_never_negative (h : HandPkg) (opts : Options) (numSeats : Nat)
    (ids : List String) (as : List Action) (t0 t : Table)
    (hbuy : 0 ≤ opts.BuyIn) (hante : 0 ≤ opts.Stakes.Ante)
    (hsb : 0 ≤ opts.Stakes.SmallBlind) (hbb : 0 ≤ opts.Stakes.BigBlind)
    (hnew : New h opts numSeats ids = .ok t0) (hrun : actAll h t0 as = .ok (some t))
    (hwithin : (visited h t0 as).all withinInt = true) :
    (∀ j p, seatAt t.seats j = some p → 0 ≤ p.Chips ∧ 0 ≤ p.ChipsInPot) ∧
      ∀ u ∈ visited h t0 as,
        chipsInPotsGo u = chipsInPots u ∧
        ∀ a t1, applyAction u a = .ok t1 →
          potsGo t1 = pots t1 ∧ payoutGo h t1 = payout h t1 := by
  have hok0 : ChipsOK t0 := New_ChipsOK hbuy hante hsb hbb hnew
  refine ⟨(actAll_ChipsOK h as t0 t hok0 hrun).2.2.2.2, ?_⟩
  intro u hu
  have hoku := visited_ChipsOK h as t0 hok0 u hu
  have hwu : withinInt u = true := (List.all_eq_true.mp hwithin) u hu
  refine ⟨(settlement_within_int h hoku.2.2.2.2 hwu).2.1, ?_⟩
  intro a t1 happ
  have hok1 := applyAction_ChipsOK hoku happ
  have hw1 := applyAction_withinInt happ hwu
  have := settlement_within_int h hok1.2.2.2.2 hw1
  exact ⟨this.1, this.2.2⟩

set_option maxRecDepth 100000 in
/-- Witness of C20: two folds and a bet on the test table, which ends the hand in a
settlement. -/
theorem chips_never_negative_witness :
    actAll plainHands threePerson100Buyin [⟨.Fold, 0⟩, ⟨.Fold, 0⟩, ⟨.Bet, 5⟩] =
        .ok (some afterLastBet) ∧
      (visited plainHands threePerson100Buyin [⟨.Fold, 0⟩, ⟨.Fold, 0⟩, ⟨.Bet, 5⟩]).all
        withinInt = true ∧
      (∀ j p, seatAt afterLastBet.seats j = some p → 0 ≤ p.Chips ∧ 0 ≤ p.ChipsInPot) ∧
      ∀ u ∈ visited plainHands threePerson100Buyin [⟨.Fold, 0⟩, ⟨.Fold, 0⟩, ⟨.Bet, 5⟩],
        chipsInPotsGo u = chipsInPots u ∧
        ∀ a t1, applyAction u a = .ok t1 →
          potsGo t1 = pots t1 ∧ payoutGo plainHands t1 = payout plainHands t1 :=
  ⟨rfl, rfl, chips_never_negative plainHands testOptions 3 ["a", "b", "c"]
    [⟨.Fold, 0⟩, ⟨.Fold, 0⟩, ⟨.Bet, 5⟩] threePerson100Buyin afterLastBet
    (by decide) (by decide) (by decide) (by decide) New_threePerson100Buyin rfl rfl⟩

end Goker
